import Mathlib

/-! # Verification of the pixel-buffer transforms of `src/wasm/image.cpp`

The file embeds the eleven in-place RGBA8 transforms (`invert`, `grayscale`,
`brightness`, `contrast`, `gamma`, `sepia`, `saturation`, `tint`,
`temperature`, `fade`, `solarize`) and the shared `clamp` helper.

Modelling decisions:

* A buffer is a `List Nat` of bytes; a read or write outside the list yields
  `none` (the access is out of bounds).  The loop counter is a natural number:
  it stays below `n + 4`, so it cannot leave the range of `int` when `n` is a
  multiple of 4.
* `int` arithmetic is two's complement on 32 bits (`wrap32`).
* `float` and `double` values are exact rationals, infinities or NaN; every
  arithmetic operation computes the exact result and rounds it to the nearest
  value of the format, ties to even (`roundTo`).  Expressions are evaluated in
  the type the language gives them, one rounding per operation (no fused
  multiply-add, no extended precision).  The two zeros are not distinguished:
  no operation of the source can tell them apart.
* The conversion of a floating value to `int` truncates toward zero.  When the
  truncated value is not an `int` (or the value is an infinity or NaN) the
  language leaves the result undefined; the `int` delivered by the platform is
  taken from the parameter `ub` of every transform that converts.
* `pow` comes from the C library and is a parameter of `gamma`.
-/

namespace ImageEditor

/-! ## Machine integers -/

/-- Two's complement wrap of an integer to the range of a 32-bit `int`. -/
def wrap32 (v : Int) : Int := (v + 2147483648) % 4294967296 - 2147483648

/-- Conversion of an `int` to `uint8_t`: reduction modulo 256. -/
def toU8 (v : Int) : Nat := (v % 256).toNat

/-- The `int` computed inside `clamp`: `std::min(255, std::max(0, v))`. -/
def clampInt (v : Int) : Int := min 255 (max 0 v)

/-- `inline uint8_t clamp(int v)`: the clamped `int`, returned as a byte. -/
def clamp (v : Int) : Nat := toU8 (clampInt v)

/-! ## Floating point -/

/-- A binary floating-point format: precision and exponent range. -/
structure Fmt where
  prec : Nat
  emin : Int
  emax : Int

/-- IEEE-754 binary32, the `float` of the source. -/
def binary32 : Fmt := ⟨24, -126, 127⟩

/-- IEEE-754 binary64, the `double` of the source. -/
def binary64 : Fmt := ⟨53, -1022, 1023⟩

/-- A floating value: the rational `num / den`, an infinity, or NaN. -/
inductive Fl where
  | fin (num : Int) (den : Nat)
  | inf (neg : Bool)
  | nan
  deriving DecidableEq, Repr

/-- Binary logarithm by halving; `fuel` bounds the number of halvings. -/
def log2Aux : Nat → Nat → Nat
  | 0, _ => 0
  | fuel + 1, n => if 2 ≤ n then log2Aux fuel (n / 2) + 1 else 0

/-- Floor of the binary logarithm of a positive natural number. -/
def log2 (n : Nat) : Nat := log2Aux n n

/-- Floor of the binary logarithm of the positive rational `n / d`. -/
def ilog2Q (n d : Nat) : Int :=
  let e0 : Int := (log2 n : Int) - (log2 d : Int)
  if (if 0 ≤ e0 then d * 2 ^ e0.toNat ≤ n else d ≤ n * 2 ^ (-e0).toNat) then e0 else e0 - 1

/-- Nearest natural number to `n / d`, ties to the even one. -/
def rne (n d : Nat) : Nat :=
  let q := n / d
  let r := n % d
  if 2 * r < d then q else if d < 2 * r then q + 1 else if q % 2 = 0 then q else q + 1

/-- The value `± m * 2 ^ q` as a floating value. -/
def mkFl (neg : Bool) (m : Nat) (q : Int) : Fl :=
  let s : Int := if neg then -1 else 1
  if 0 ≤ q then .fin (s * ((m * 2 ^ q.toNat : Nat) : Int)) 1 else .fin (s * (m : Int)) (2 ^ (-q).toNat)

/-- Round the magnitude `n / d` to format `f`, nearest, ties to even. -/
def roundMag (f : Fmt) (neg : Bool) (n d : Nat) : Fl :=
  if n = 0 then .fin 0 1 else
  let e := if f.emin ≤ ilog2Q n d then ilog2Q n d else f.emin
  let q := e - ((f.prec : Int) - 1)
  let m := if 0 ≤ q then rne n (d * 2 ^ q.toNat) else rne (n * 2 ^ (-q).toNat) d
  if f.emax < e ∨ (e = f.emax ∧ 2 ^ f.prec ≤ m) then .inf neg else mkFl neg m q

/-- Round the exact rational `n / d` to format `f`. -/
def roundTo (f : Fmt) (n : Int) (d : Nat) : Fl :=
  roundMag f (decide (n < 0)) n.natAbs d

namespace Fl

/-- Conversion of an `int` to format `f`. -/
def ofInt (f : Fmt) (i : Int) : Fl := roundTo f i 1

/-- Negation. -/
def neg : Fl → Fl
  | .nan => .nan
  | .inf a => .inf (!a)
  | .fin a b => .fin (-a) b

/-- Addition in format `f`. -/
def add (f : Fmt) : Fl → Fl → Fl
  | .nan, _ => .nan
  | _, .nan => .nan
  | .inf a, .inf b => if a = b then .inf a else .nan
  | .inf a, .fin _ _ => .inf a
  | .fin _ _, .inf b => .inf b
  | .fin a b, .fin c d => roundTo f (a * d + c * b) (b * d)

/-- Subtraction in format `f`. -/
def sub (f : Fmt) (x y : Fl) : Fl := add f x y.neg

/-- Multiplication in format `f`. -/
def mul (f : Fmt) : Fl → Fl → Fl
  | .nan, _ => .nan
  | _, .nan => .nan
  | .inf a, .inf b => .inf (a != b)
  | .inf a, .fin c _ => if c = 0 then .nan else .inf (a != decide (c < 0))
  | .fin a _, .inf b => if a = 0 then .nan else .inf (decide (a < 0) != b)
  | .fin a b, .fin c d => roundTo f (a * c) (b * d)

/-- Division in format `f` (a zero divisor counts as `+0`). -/
def div (f : Fmt) : Fl → Fl → Fl
  | .nan, _ => .nan
  | _, .nan => .nan
  | .inf _, .inf _ => .nan
  | .inf a, .fin c _ => .inf (a != decide (c < 0))
  | .fin _ _, .inf _ => .fin 0 1
  | .fin a b, .fin c d =>
    if c = 0 then (if a = 0 then .nan else .inf (decide (a < 0)))
    else roundTo f (if c < 0 then -(a * d) else a * d) (b * c.natAbs)

/-- Strict comparison `x < y`; false when either side is NaN. -/
def lt : Fl → Fl → Bool
  | .nan, _ => false
  | _, .nan => false
  | .inf a, .inf b => a && !b
  | .inf a, .fin _ _ => a
  | .fin _ _, .inf b => !b
  | .fin a b, .fin c d => decide (a * d < c * b)

/-- Truncation toward zero of a finite value. -/
def trunc (a : Int) (b : Nat) : Int :=
  if 0 ≤ a then ((a.toNat / b : Nat) : Int) else -(((-a).toNat / b : Nat) : Int)

/-- Conversion to `int` where the language defines it: the truncation toward
zero when that is an `int`; `none` for other values, infinities and NaN. -/
def toInt? : Fl → Option Int
  | .fin a b =>
    if -2147483648 ≤ trunc a b ∧ trunc a b ≤ 2147483647 then some (trunc a b) else none
  | _ => none

/-- Conversion to `int`.  Where the language leaves the result undefined the
platform delivers the `int` `wrap32 (ub x)`. -/
def toInt (ub : Fl → Int) (x : Fl) : Int :=
  match toInt? x with
  | some v => v
  | none => wrap32 (ub x)

end Fl

/-- Conversion `int → float`. -/
def i2f (i : Int) : Fl := Fl.ofInt binary32 i

/-- Conversion `int → double`. -/
def i2d (i : Int) : Fl := Fl.ofInt binary64 i

/-! ## Buffers and loops -/

/-- Read `d[i]`. -/
def rd (d : List Nat) (i : Nat) : Option Nat := d[i]?

/-- Write `d[i] = v`. -/
def wr (d : List Nat) (i : Nat) (v : Nat) : Option (List Nat) :=
  if i < d.length then some (d.set i v) else none

/-- The loop `for (int i = i0; i < n; i += step) body`, run for at most `fuel`
iterations; `none` when an access is out of bounds or the fuel runs out. -/
def forLoop (step : Nat) (n : Int) (body : Nat → List Nat → Option (List Nat)) :
    Nat → Nat → List Nat → Option (List Nat)
  | 0, i, d => if (i : Int) < n then none else some d
  | fuel + 1, i, d =>
    if (i : Int) < n then (body i d).bind (forLoop step n body fuel (i + step)) else some d

/-- The loop over single bytes that skips `(i & 3) == 3` and replaces every
other `d[i]` by `g d[i]`. -/
def chanBody (g : Nat → Nat) (i : Nat) (d : List Nat) : Option (List Nat) :=
  if i &&& 3 = 3 then some d else (rd d i).bind (fun c => wr d i (g c))

/-! ## The transforms -/

/-- The value `d[i] * (1 - amount) + (255 - d[i]) * amount` of `invert`. -/
def invertVal (c : Nat) (amount : Fl) : Fl :=
  Fl.add binary32 (Fl.mul binary32 (i2f c) (Fl.sub binary32 (i2f 1) amount))
    (Fl.mul binary32 (i2f (255 - (c : Int))) amount)

/-- The byte `invert` stores in place of the channel value `c`. -/
def invertCh (ub : Fl → Int) (amount : Fl) (c : Nat) : Nat :=
  clamp (Fl.toInt ub (invertVal c amount))

/-- Translation of `void invert(uint8_t* d, int n, float amount)`. -/
def invert (ub : Fl → Int) (d : List Nat) (n : Int) (amount : Fl) : Option (List Nat) :=
  forLoop 1 n (chanBody (invertCh ub amount)) n.toNat 0 d

/-- The value `x * (1 - amount) + g * amount` of `grayscale`. -/
def blendVal (x : Int) (g : Int) (amount : Fl) : Fl :=
  Fl.add binary32 (Fl.mul binary32 (i2f x) (Fl.sub binary32 (i2f 1) amount))
    (Fl.mul binary32 (i2f g) amount)

/-- The `uint8_t g = (d[i] + d[i+1] + d[i+2]) / 3` of `grayscale`. -/
def grayOf (r g b : Nat) : Nat := toU8 (Int.tdiv (wrap32 (wrap32 ((r : Int) + g) + b)) 3)

/-- One iteration of the loop of `grayscale`. -/
def grayscaleBody (ub : Fl → Int) (amount : Fl) (i : Nat) (d : List Nat) :
    Option (List Nat) :=
  (rd d i).bind fun r => (rd d (i + 1)).bind fun g => (rd d (i + 2)).bind fun b =>
  let gray : Nat := grayOf r g b
  (wr d i (clamp (Fl.toInt ub (blendVal r gray amount)))).bind fun d1 =>
  (rd d1 (i + 1)).bind fun g1 =>
  (wr d1 (i + 1) (clamp (Fl.toInt ub (blendVal g1 gray amount)))).bind fun d2 =>
  (rd d2 (i + 2)).bind fun b2 =>
  wr d2 (i + 2) (clamp (Fl.toInt ub (blendVal b2 gray amount)))

/-- Translation of `void grayscale(uint8_t* d, int n, float amount)`. -/
def grayscale (ub : Fl → Int) (d : List Nat) (n : Int) (amount : Fl) : Option (List Nat) :=
  forLoop 4 n (grayscaleBody ub amount) n.toNat 0 d

/-- The byte `brightness` stores in place of the channel value `c`. -/
def brightnessCh (v : Int) (c : Nat) : Nat := clamp (wrap32 ((c : Int) + v))

/-- Translation of `void brightness(uint8_t* d, int n, int v)`. -/
def brightness (d : List Nat) (n : Int) (v : Int) : Option (List Nat) :=
  forLoop 1 n (chanBody (brightnessCh v)) n.toNat 0 d

/-- The value `(d[i] - 128) * c + 128` of `contrast`. -/
def contrastVal (x : Nat) (c : Fl) : Fl :=
  Fl.add binary32 (Fl.mul binary32 (i2f ((x : Int) - 128)) c) (i2f 128)

/-- The byte `contrast` stores in place of the channel value `x`. -/
def contrastCh (ub : Fl → Int) (c : Fl) (x : Nat) : Nat :=
  clamp (Fl.toInt ub (contrastVal x c))

/-- Translation of `void contrast(uint8_t* d, int n, float c)`. -/
def contrast (ub : Fl → Int) (d : List Nat) (n : Int) (c : Fl) : Option (List Nat) :=
  forLoop 1 n (chanBody (contrastCh ub c)) n.toNat 0 d

/-- The value `pow(d[i] / 255.0, g) * 255` of `gamma`, a `double`; `pow` is
the C library function. -/
def gammaVal (pow : Fl → Fl → Fl) (x : Nat) (g : Fl) : Fl :=
  Fl.mul binary64 (pow (Fl.div binary64 (i2d x) (.fin 255 1)) g) (i2d 255)

/-- The byte `gamma` stores in place of the channel value `x`. -/
def gammaCh (pow : Fl → Fl → Fl) (ub : Fl → Int) (g : Fl) (x : Nat) : Nat :=
  clamp (Fl.toInt ub (gammaVal pow x g))

/-- Translation of `void gamma(uint8_t* d, int n, float g)`. -/
def gamma (pow : Fl → Fl → Fl) (ub : Fl → Int) (d : List Nat) (n : Int) (g : Fl) :
    Option (List Nat) :=
  forLoop 1 n (chanBody (gammaCh pow ub g)) n.toNat 0 d

/-- A decimal `double` literal `k / 1000`. -/
def dlit (k : Nat) : Fl := roundTo binary64 k 1000

/-- The `int` initialised from `kr*r + kg*g + kb*b` computed in `double`. -/
def sepiaMix (ub : Fl → Int) (kr kg kb : Nat) (r g b : Int) : Int :=
  Fl.toInt ub (Fl.add binary64
    (Fl.add binary64 (Fl.mul binary64 (dlit kr) (i2d r)) (Fl.mul binary64 (dlit kg) (i2d g)))
    (Fl.mul binary64 (dlit kb) (i2d b)))

/-- One iteration of the loop of `sepia`. -/
def sepiaBody (ub : Fl → Int) (amount : Fl) (i : Nat) (d : List Nat) : Option (List Nat) :=
  (rd d i).bind fun r => (rd d (i + 1)).bind fun g => (rd d (i + 2)).bind fun b =>
  let sr := sepiaMix ub 393 769 189 r g b
  let sg := sepiaMix ub 349 686 168 r g b
  let sb := sepiaMix ub 272 534 131 r g b
  (wr d i (clamp (Fl.toInt ub (blendVal r sr amount)))).bind fun d1 =>
  (wr d1 (i + 1) (clamp (Fl.toInt ub (blendVal g sg amount)))).bind fun d2 =>
  wr d2 (i + 2) (clamp (Fl.toInt ub (blendVal b sb amount)))

/-- Translation of `void sepia(uint8_t* d, int n, float amount)`. -/
def sepia (ub : Fl → Int) (d : List Nat) (n : Int) (amount : Fl) : Option (List Nat) :=
  forLoop 4 n (sepiaBody ub amount) n.toNat 0 d

/-- The value `g + (x - g) * s` of `saturation`. -/
def satVal (g : Fl) (x : Nat) (s : Fl) : Fl :=
  Fl.add binary32 g (Fl.mul binary32 (Fl.sub binary32 (i2f x) g) s)

/-- The `float g = (d[i] + d[i+1] + d[i+2]) / 3.0f` of `saturation`. -/
def satGray (r g b : Nat) : Fl :=
  Fl.div binary32 (i2f (wrap32 (wrap32 ((r : Int) + g) + b))) (.fin 3 1)

/-- One iteration of the loop of `saturation`. -/
def saturationBody (ub : Fl → Int) (s : Fl) (i : Nat) (d : List Nat) : Option (List Nat) :=
  (rd d i).bind fun r => (rd d (i + 1)).bind fun g => (rd d (i + 2)).bind fun b =>
  let gray : Fl := satGray r g b
  (wr d i (clamp (Fl.toInt ub (satVal gray r s)))).bind fun d1 =>
  (rd d1 (i + 1)).bind fun g1 =>
  (wr d1 (i + 1) (clamp (Fl.toInt ub (satVal gray g1 s)))).bind fun d2 =>
  (rd d2 (i + 2)).bind fun b2 =>
  wr d2 (i + 2) (clamp (Fl.toInt ub (satVal gray b2 s)))

/-- Translation of `void saturation(uint8_t* d, int n, float s)`. -/
def saturation (ub : Fl → Int) (d : List Nat) (n : Int) (s : Fl) : Option (List Nat) :=
  forLoop 4 n (saturationBody ub s) n.toNat 0 d

/-- One iteration of the loop of `tint`. -/
def tintBody (r g b : Int) (i : Nat) (d : List Nat) : Option (List Nat) :=
  (rd d i).bind fun x0 =>
  (wr d i (clamp (wrap32 ((x0 : Int) + r)))).bind fun d1 =>
  (rd d1 (i + 1)).bind fun x1 =>
  (wr d1 (i + 1) (clamp (wrap32 ((x1 : Int) + g)))).bind fun d2 =>
  (rd d2 (i + 2)).bind fun x2 =>
  wr d2 (i + 2) (clamp (wrap32 ((x2 : Int) + b)))

/-- Translation of `void tint(uint8_t* d, int n, int r, int g, int b)`. -/
def tint (d : List Nat) (n : Int) (r g b : Int) : Option (List Nat) :=
  forLoop 4 n (tintBody r g b) n.toNat 0 d

/-- The value `20 * t` of `temperature`. -/
def tempShift (t : Fl) : Fl := Fl.mul binary32 (i2f 20) t

/-- One iteration of the loop of `temperature`. -/
def temperatureBody (ub : Fl → Int) (t : Fl) (i : Nat) (d : List Nat) : Option (List Nat) :=
  (rd d i).bind fun x0 =>
  (wr d i (clamp (Fl.toInt ub (Fl.add binary32 (i2f x0) (tempShift t))))).bind fun d1 =>
  (rd d1 (i + 2)).bind fun x2 =>
  wr d1 (i + 2) (clamp (Fl.toInt ub (Fl.sub binary32 (i2f x2) (tempShift t))))

/-- Translation of `void temperature(uint8_t* d, int n, float t)`. -/
def temperature (ub : Fl → Int) (d : List Nat) (n : Int) (t : Fl) : Option (List Nat) :=
  forLoop 4 n (temperatureBody ub t) n.toNat 0 d

/-- The value `d[i] * (1 - a) + 255 * a` of `fade`. -/
def fadeVal (x : Nat) (a : Fl) : Fl :=
  Fl.add binary32 (Fl.mul binary32 (i2f x) (Fl.sub binary32 (i2f 1) a))
    (Fl.mul binary32 (i2f 255) a)

/-- The byte `fade` stores in place of the channel value `x`. -/
def fadeCh (ub : Fl → Int) (a : Fl) (x : Nat) : Nat :=
  clamp (Fl.toInt ub (fadeVal x a))

/-- Translation of `void fade(uint8_t* d, int n, float a)`. -/
def fade (ub : Fl → Int) (d : List Nat) (n : Int) (a : Fl) : Option (List Nat) :=
  forLoop 1 n (chanBody (fadeCh ub a)) n.toNat 0 d

/-- One iteration of the loop of `solarize`: the write happens only when
`(i & 3) != 3 && d[i] > t * 255`. -/
def solarizeBody (t : Fl) (i : Nat) (d : List Nat) : Option (List Nat) :=
  if i &&& 3 = 3 then some d
  else (rd d i).bind fun c =>
    if Fl.lt (Fl.mul binary32 t (i2f 255)) (i2f c) then wr d i (toU8 (255 - (c : Int)))
    else some d

/-- Translation of `void solarize(uint8_t* d, int n, float t)`. -/
def solarize (d : List Nat) (n : Int) (t : Fl) : Option (List Nat) :=
  forLoop 1 n (solarizeBody t) n.toNat 0 d

/-! ## Functional description of the loops -/

/-- Apply `P` to the colour channels of every complete pixel, keep alpha. -/
def mapRGB (P : Nat → Nat → Nat → Nat × Nat × Nat) : List Nat → List Nat
  | r :: g :: b :: a :: rest =>
    (P r g b).1 :: (P r g b).2.1 :: (P r g b).2.2 :: a :: mapRGB P rest
  | l => l

/-- Apply `g` to every byte whose index is not `3` modulo `4`; `i` is the
index of the first byte of the list. -/
def mapChan (g : Nat → Nat) : Nat → List Nat → List Nat
  | _, [] => []
  | i, c :: cs => (if i % 4 = 3 then c else g c) :: mapChan g (i + 1) cs

/-- The pixel function of a transform that applies `g` to each colour channel. -/
def chanP (g : Nat → Nat) (r gch b : Nat) : Nat × Nat × Nat := (g r, g gch, g b)

/-- Pixel function of `grayscale`. -/
def grayscaleP (ub : Fl → Int) (amount : Fl) (r g b : Nat) : Nat × Nat × Nat :=
  (clamp (Fl.toInt ub (blendVal r (grayOf r g b) amount)),
   clamp (Fl.toInt ub (blendVal g (grayOf r g b) amount)),
   clamp (Fl.toInt ub (blendVal b (grayOf r g b) amount)))

/-- Pixel function of `sepia`. -/
def sepiaP (ub : Fl → Int) (amount : Fl) (r g b : Nat) : Nat × Nat × Nat :=
  (clamp (Fl.toInt ub (blendVal r (sepiaMix ub 393 769 189 r g b) amount)),
   clamp (Fl.toInt ub (blendVal g (sepiaMix ub 349 686 168 r g b) amount)),
   clamp (Fl.toInt ub (blendVal b (sepiaMix ub 272 534 131 r g b) amount)))

/-- Pixel function of `saturation`. -/
def saturationP (ub : Fl → Int) (s : Fl) (r g b : Nat) : Nat × Nat × Nat :=
  (clamp (Fl.toInt ub (satVal (satGray r g b) r s)),
   clamp (Fl.toInt ub (satVal (satGray r g b) g s)),
   clamp (Fl.toInt ub (satVal (satGray r g b) b s)))

/-- Pixel function of `tint`. -/
def tintP (dr dg db : Int) (r g b : Nat) : Nat × Nat × Nat :=
  (clamp (wrap32 ((r : Int) + dr)), clamp (wrap32 ((g : Int) + dg)),
   clamp (wrap32 ((b : Int) + db)))

/-- Pixel function of `temperature`. -/
def temperatureP (ub : Fl → Int) (t : Fl) (r g b : Nat) : Nat × Nat × Nat :=
  (clamp (Fl.toInt ub (Fl.add binary32 (i2f r) (tempShift t))), g,
   clamp (Fl.toInt ub (Fl.sub binary32 (i2f b) (tempShift t))))

/-- Channel function of `solarize`: the byte left at a colour channel `c`. -/
def solarizeCh (t : Fl) (c : Nat) : Nat :=
  if Fl.lt (Fl.mul binary32 t (i2f 255)) (i2f c) then toU8 (255 - (c : Int)) else c

/-- A buffer of bytes: every element is below 256. -/
def IsBytes (d : List Nat) : Prop := ∀ x ∈ d, x < 256

instance (d : List Nat) : Decidable (IsBytes d) := by
  unfold IsBytes; infer_instance

/-- The outcome `res` of a transform on `d` is a buffer of the same length
whose alpha bytes (index `3` modulo `4`) are those of `d`. -/
def AlphaKept (d : List Nat) (res : Option (List Nat)) : Prop :=
  ∃ out, res = some out ∧ out.length = d.length ∧ ∀ i : Nat, i % 4 = 3 → out[i]? = d[i]?

/-- The run on the first `n` bytes alone succeeds, so that no index outside
`[0, n)` is accessed; the run on `d` gives the same first `n` bytes, leaves the
bytes from `n` on in place, and keeps the length. -/
def RunsInBounds (run : List Nat → Option (List Nat)) (d : List Nat) (n : Nat) : Prop :=
  ∃ out, run (d.take n) = some out ∧ out.length = n ∧ run d = some (out ++ d.drop n) ∧
    (out ++ d.drop n).length = d.length

/-- An `int` that a `uint8_t` holds without wrapping. -/
def InByte (v : Int) : Prop := 0 ≤ v ∧ v ≤ 255

/-- For every pixel below `n`, the three integers `V r g b` handed to the 8-bit
stores lie in `[0, 255]` and the bytes found afterwards are exactly these
integers. -/
def StoresExact (V : Nat → Nat → Nat → Int × Int × Int) (d : List Nat) (n : Nat)
    (res : Option (List Nat)) : Prop :=
  ∃ out, res = some out ∧ ∀ k : Nat, 4 * k + 3 < n →
    ∃ r g b : Nat, d[4 * k]? = some r ∧ d[4 * k + 1]? = some g ∧ d[4 * k + 2]? = some b ∧
      InByte (V r g b).1 ∧ InByte (V r g b).2.1 ∧ InByte (V r g b).2.2 ∧
      out[4 * k]? = some (V r g b).1.toNat ∧
      out[4 * k + 1]? = some (V r g b).2.1.toNat ∧
      out[4 * k + 2]? = some (V r g b).2.2.toNat

/-- The integers of a transform that handles each colour channel alone. -/
def chanI (v : Nat → Int) (r g b : Nat) : Int × Int × Int := (v r, v g, v b)

/-- The integers `grayscale` hands to the stores of one pixel. -/
def grayscaleI (ub : Fl → Int) (amount : Fl) (r g b : Nat) : Int × Int × Int :=
  (clampInt (Fl.toInt ub (blendVal r (grayOf r g b) amount)),
   clampInt (Fl.toInt ub (blendVal g (grayOf r g b) amount)),
   clampInt (Fl.toInt ub (blendVal b (grayOf r g b) amount)))

/-- The integers `sepia` hands to the stores of one pixel. -/
def sepiaI (ub : Fl → Int) (amount : Fl) (r g b : Nat) : Int × Int × Int :=
  (clampInt (Fl.toInt ub (blendVal r (sepiaMix ub 393 769 189 r g b) amount)),
   clampInt (Fl.toInt ub (blendVal g (sepiaMix ub 349 686 168 r g b) amount)),
   clampInt (Fl.toInt ub (blendVal b (sepiaMix ub 272 534 131 r g b) amount)))

/-- The integers `saturation` hands to the stores of one pixel. -/
def saturationI (ub : Fl → Int) (s : Fl) (r g b : Nat) : Int × Int × Int :=
  (clampInt (Fl.toInt ub (satVal (satGray r g b) r s)),
   clampInt (Fl.toInt ub (satVal (satGray r g b) g s)),
   clampInt (Fl.toInt ub (satVal (satGray r g b) b s)))

/-- The integers `tint` hands to the stores of one pixel. -/
def tintI (dr dg db : Int) (r g b : Nat) : Int × Int × Int :=
  (clampInt (wrap32 ((r : Int) + dr)), clampInt (wrap32 ((g : Int) + dg)),
   clampInt (wrap32 ((b : Int) + db)))

/-- The integers `temperature` hands to the stores of one pixel; the green
channel is not written and keeps its byte. -/
def temperatureI (ub : Fl → Int) (t : Fl) (r g b : Nat) : Int × Int × Int :=
  (clampInt (Fl.toInt ub (Fl.add binary32 (i2f r) (tempShift t))), (g : Int),
   clampInt (Fl.toInt ub (Fl.sub binary32 (i2f b) (tempShift t))))

/-- The integer `solarize` hands to the store of a channel `c` above the
threshold; a channel that is not written keeps its byte. -/
def solarizeInt (t : Fl) (c : Nat) : Int :=
  if Fl.lt (Fl.mul binary32 t (i2f 255)) (i2f c) then 255 - (c : Int) else (c : Int)

/-- The floating value `x` is finite and equals the rational `v`. -/
def Fl.Is (x : Fl) (v : ℚ) : Prop :=
  ∃ (a : Int) (b : Nat), 0 < b ∧ x = .fin a b ∧ (a : ℚ) / b = v

/-- The outcome `res` of a transform on `d` has the length of `d`; every colour
byte below `n` is `f` of the byte of `d` there, every other byte is kept. -/
def ChanWise (f : Nat → Nat) (d : List Nat) (n : Nat) (res : Option (List Nat)) : Prop :=
  ∃ out, res = some out ∧ out.length = d.length ∧
    ∀ i : Nat, i < d.length →
      out[i]? = if i < n ∧ i % 4 ≠ 3 then (d[i]?).map f else d[i]?

/-- The outcome `res` of a transform on `d` has the length of `d`, and the
colour bytes of every pixel below `n` are `P` of the colour bytes `r`, `g`, `b`
that the pixel has in `d`. -/
def PixWise (P : Nat → Nat → Nat → Nat × Nat × Nat) (d : List Nat) (n : Nat)
    (res : Option (List Nat)) : Prop :=
  ∃ out, res = some out ∧ out.length = d.length ∧ ∀ k : Nat, 4 * k + 3 < n →
    ∃ r g b : Nat, d[4 * k]? = some r ∧ d[4 * k + 1]? = some g ∧ d[4 * k + 2]? = some b ∧
      out[4 * k]? = some (P r g b).1 ∧ out[4 * k + 1]? = some (P r g b).2.1 ∧
      out[4 * k + 2]? = some (P r g b).2.2

/-- The transform `run`, called on a whole buffer, acts on `a ++ b` as on `a`
and on `b` apart. -/
def PixelLocal (run : List Nat → Option (List Nat)) (a b : List Nat) : Prop :=
  ∃ oa ob, run a = some oa ∧ run b = some ob ∧ run (a ++ b) = some (oa ++ ob)

/-! ## The loops compute the functional description -/

theorem and3_eq_mod (i : Nat) : i &&& 3 = i % 4 := by
  have h := Nat.and_pow_two_sub_one_eq_mod i 2
  simpa using h

theorem rd_append (pre : List Nat) (c : Nat) (rest : List Nat) :
    rd (pre ++ c :: rest) pre.length = some c := by
  rw [rd, List.getElem?_append_right (le_refl _)]
  simp

theorem wr_append (pre : List Nat) (c v : Nat) (rest : List Nat) :
    wr (pre ++ c :: rest) pre.length v = some (pre ++ v :: rest) := by
  simp [wr]

theorem forLoop_done (step : Nat) (n : Int) (body : Nat → List Nat → Option (List Nat))
    (fuel i : Nat) (d : List Nat) (h : ¬ (i : Int) < n) :
    forLoop step n body fuel i d = some d := by
  cases fuel <;> simp [forLoop, h]

theorem forLoop_step (step : Nat) (n : Int) (body : Nat → List Nat → Option (List Nat))
    (fuel i : Nat) (d : List Nat) (h : (i : Int) < n) :
    forLoop step n body (fuel + 1) i d
      = (body i d).bind (forLoop step n body fuel (i + step)) := by
  simp [forLoop, h]

theorem forLoop1_run (body : Nat → List Nat → Option (List Nat)) (g : Nat → Nat)
    (hbody : ∀ (pre : List Nat) (c : Nat) (rest : List Nat),
      body pre.length (pre ++ c :: rest)
        = some (pre ++ (if pre.length % 4 = 3 then c else g c) :: rest)) :
    ∀ (mid pre post : List Nat) (fuel : Nat), mid.length ≤ fuel →
      forLoop 1 ((pre.length + mid.length : Nat) : Int) body fuel pre.length
        (pre ++ mid ++ post) = some (pre ++ mapChan g pre.length mid ++ post) := by
  intro mid
  induction mid with
  | nil =>
    intro pre post fuel _
    rw [forLoop_done _ _ _ _ _ _ (by simp)]
    simp [mapChan]
  | cons c cs ih =>
    intro pre post fuel hf
    obtain ⟨fuel, rfl⟩ : ∃ k, fuel = k + 1 := ⟨fuel - 1, by simp at hf; omega⟩
    rw [forLoop_step _ _ _ _ _ _ (by simp)]
    have hb := hbody pre c (cs ++ post)
    simp only [List.append_assoc, List.cons_append] at hb ⊢
    rw [hb, Option.some_bind]
    have := ih (pre ++ [if pre.length % 4 = 3 then c else g c]) post fuel
      (by simp at hf; omega)
    simpa [mapChan, Nat.add_assoc, Nat.add_comm 1] using this

theorem forLoop4_run (body : Nat → List Nat → Option (List Nat))
    (P : Nat → Nat → Nat → Nat × Nat × Nat)
    (hbody : ∀ (pre : List Nat) (r g b a : Nat) (rest : List Nat),
      body pre.length (pre ++ r :: g :: b :: a :: rest)
        = some (pre ++ (P r g b).1 :: (P r g b).2.1 :: (P r g b).2.2 :: a :: rest)) :
    ∀ (k : Nat) (mid pre post : List Nat) (fuel : Nat), mid.length = 4 * k → k ≤ fuel →
      forLoop 4 ((pre.length + mid.length : Nat) : Int) body fuel pre.length
        (pre ++ mid ++ post) = some (pre ++ mapRGB P mid ++ post) := by
  intro k
  induction k with
  | zero =>
    intro mid pre post fuel hm _
    have : mid = [] := List.length_eq_zero.mp (by omega)
    subst this
    rw [forLoop_done _ _ _ _ _ _ (by simp)]
    simp [mapRGB]
  | succ k ih =>
    intro mid pre post fuel hm hf
    obtain ⟨fuel, rfl⟩ : ∃ j, fuel = j + 1 := ⟨fuel - 1, by omega⟩
    match mid, hm with
    | r :: g :: b :: a :: mid', hm =>
      rw [forLoop_step _ _ _ _ _ _ (by simp; omega)]
      have hb := hbody pre r g b a (mid' ++ post)
      simp only [List.append_assoc, List.cons_append] at hb ⊢
      rw [hb, Option.some_bind]
      have := ih mid' (pre ++ [(P r g b).1, (P r g b).2.1, (P r g b).2.2, a]) post fuel
        (by simp at hm; omega) (by omega)
      simpa [mapRGB, Nat.add_assoc, Nat.add_comm 4] using this
    | [], hm => simp at hm
    | [_], hm => simp at hm; omega
    | [_, _], hm => simp at hm; omega
    | [_, _, _], hm => simp at hm; omega

theorem mapChan_eq_mapRGB (g : Nat → Nat) :
    ∀ (k : Nat) (mid : List Nat) (i : Nat), mid.length = 4 * k → i % 4 = 0 →
      mapChan g i mid = mapRGB (chanP g) mid := by
  intro k
  induction k with
  | zero =>
    intro mid i hm _
    have : mid = [] := List.length_eq_zero.mp (by omega)
    subst this
    simp [mapChan, mapRGB]
  | succ k ih =>
    intro mid i hm hi
    match mid, hm with
    | r :: gch :: b :: a :: mid', hm =>
      have h0 : ¬ i % 4 = 3 := by omega
      have h1 : ¬ (i + 1) % 4 = 3 := by omega
      have h2 : ¬ (i + 1 + 1) % 4 = 3 := by omega
      have h3 : (i + 1 + 1 + 1) % 4 = 3 := by omega
      have := ih mid' (i + 1 + 1 + 1 + 1) (by simp at hm; omega) (by omega)
      simp [mapChan, mapRGB, chanP, h0, h1, h2, h3, this]
    | [], hm => simp at hm
    | [_], hm => simp at hm; omega
    | [_, _], hm => simp at hm; omega
    | [_, _, _], hm => simp at hm; omega

theorem run1 (body : Nat → List Nat → Option (List Nat)) (g : Nat → Nat)
    (hbody : ∀ (pre : List Nat) (c : Nat) (rest : List Nat),
      body pre.length (pre ++ c :: rest)
        = some (pre ++ (if pre.length % 4 = 3 then c else g c) :: rest))
    (d : List Nat) (n : Nat) (h4 : n % 4 = 0) (hn : n ≤ d.length) :
    forLoop 1 (n : Int) body (n : Int).toNat 0 d
      = some (mapRGB (chanP g) (d.take n) ++ d.drop n) := by
  have h := forLoop1_run body g hbody (d.take n) [] (d.drop n) n (by simp)
  have hl : (d.take n).length = n := by simp [hn]
  simp only [List.length_nil, Nat.zero_add, hl, List.nil_append, List.take_append_drop] at h
  rw [Int.toNat_ofNat, h, mapChan_eq_mapRGB g (n / 4) (d.take n) 0 (by omega) rfl]

theorem run4 (body : Nat → List Nat → Option (List Nat))
    (P : Nat → Nat → Nat → Nat × Nat × Nat)
    (hbody : ∀ (pre : List Nat) (r g b a : Nat) (rest : List Nat),
      body pre.length (pre ++ r :: g :: b :: a :: rest)
        = some (pre ++ (P r g b).1 :: (P r g b).2.1 :: (P r g b).2.2 :: a :: rest))
    (d : List Nat) (n : Nat) (h4 : n % 4 = 0) (hn : n ≤ d.length) :
    forLoop 4 (n : Int) body (n : Int).toNat 0 d
      = some (mapRGB P (d.take n) ++ d.drop n) := by
  have hl : (d.take n).length = n := by simp [hn]
  have h := forLoop4_run body P hbody (n / 4) (d.take n) [] (d.drop n) n (by omega) (by omega)
  simp only [List.length_nil, Nat.zero_add, hl, List.nil_append, List.take_append_drop] at h
  rw [Int.toNat_ofNat, h]

theorem chanBody_append (g : Nat → Nat) (pre : List Nat) (c : Nat) (rest : List Nat) :
    chanBody g pre.length (pre ++ c :: rest)
      = some (pre ++ (if pre.length % 4 = 3 then c else g c) :: rest) := by
  unfold chanBody
  rw [and3_eq_mod]
  split
  · rfl
  · rw [rd_append, Option.some_bind, wr_append]

theorem rd_append1 (pre : List Nat) (c0 c1 : Nat) (rest : List Nat) :
    rd (pre ++ c0 :: c1 :: rest) (pre.length + 1) = some c1 := by
  have := rd_append (pre ++ [c0]) c1 rest
  simpa using this

theorem rd_append2 (pre : List Nat) (c0 c1 c2 : Nat) (rest : List Nat) :
    rd (pre ++ c0 :: c1 :: c2 :: rest) (pre.length + 2) = some c2 := by
  have := rd_append (pre ++ [c0, c1]) c2 rest
  simpa using this

theorem wr_append1 (pre : List Nat) (c0 c1 v : Nat) (rest : List Nat) :
    wr (pre ++ c0 :: c1 :: rest) (pre.length + 1) v = some (pre ++ c0 :: v :: rest) := by
  have := wr_append (pre ++ [c0]) c1 v rest
  simpa using this

theorem wr_append2 (pre : List Nat) (c0 c1 c2 v : Nat) (rest : List Nat) :
    wr (pre ++ c0 :: c1 :: c2 :: rest) (pre.length + 2) v
      = some (pre ++ c0 :: c1 :: v :: rest) := by
  have := wr_append (pre ++ [c0, c1]) c2 v rest
  simpa using this

theorem grayscaleBody_append (ub : Fl → Int) (amount : Fl) (pre : List Nat)
    (r g b a : Nat) (rest : List Nat) :
    grayscaleBody ub amount pre.length (pre ++ r :: g :: b :: a :: rest)
      = some (pre ++ (grayscaleP ub amount r g b).1 :: (grayscaleP ub amount r g b).2.1
          :: (grayscaleP ub amount r g b).2.2 :: a :: rest) := by
  simp only [grayscaleBody, grayscaleP, grayOf, rd_append, rd_append1, rd_append2,
    wr_append, wr_append1, wr_append2, Option.some_bind]

theorem sepiaBody_append (ub : Fl → Int) (amount : Fl) (pre : List Nat)
    (r g b a : Nat) (rest : List Nat) :
    sepiaBody ub amount pre.length (pre ++ r :: g :: b :: a :: rest)
      = some (pre ++ (sepiaP ub amount r g b).1 :: (sepiaP ub amount r g b).2.1
          :: (sepiaP ub amount r g b).2.2 :: a :: rest) := by
  simp only [sepiaBody, sepiaP, rd_append, rd_append1, rd_append2,
    wr_append, wr_append1, wr_append2, Option.some_bind]

theorem saturationBody_append (ub : Fl → Int) (s : Fl) (pre : List Nat)
    (r g b a : Nat) (rest : List Nat) :
    saturationBody ub s pre.length (pre ++ r :: g :: b :: a :: rest)
      = some (pre ++ (saturationP ub s r g b).1 :: (saturationP ub s r g b).2.1
          :: (saturationP ub s r g b).2.2 :: a :: rest) := by
  simp only [saturationBody, saturationP, satGray, rd_append, rd_append1, rd_append2,
    wr_append, wr_append1, wr_append2, Option.some_bind]

theorem tintBody_append (dr dg db : Int) (pre : List Nat)
    (r g b a : Nat) (rest : List Nat) :
    tintBody dr dg db pre.length (pre ++ r :: g :: b :: a :: rest)
      = some (pre ++ (tintP dr dg db r g b).1 :: (tintP dr dg db r g b).2.1
          :: (tintP dr dg db r g b).2.2 :: a :: rest) := by
  simp only [tintBody, tintP, rd_append, rd_append1, rd_append2,
    wr_append, wr_append1, wr_append2, Option.some_bind]

theorem temperatureBody_append (ub : Fl → Int) (t : Fl) (pre : List Nat)
    (r g b a : Nat) (rest : List Nat) :
    temperatureBody ub t pre.length (pre ++ r :: g :: b :: a :: rest)
      = some (pre ++ (temperatureP ub t r g b).1 :: (temperatureP ub t r g b).2.1
          :: (temperatureP ub t r g b).2.2 :: a :: rest) := by
  simp only [temperatureBody, temperatureP, rd_append, rd_append1, rd_append2,
    wr_append, wr_append1, wr_append2, Option.some_bind]

theorem solarizeBody_append (t : Fl) (pre : List Nat) (c : Nat) (rest : List Nat) :
    solarizeBody t pre.length (pre ++ c :: rest)
      = some (pre ++ (if pre.length % 4 = 3 then c else solarizeCh t c) :: rest) := by
  unfold solarizeBody solarizeCh
  rw [and3_eq_mod]
  split
  · rfl
  · rw [rd_append, Option.some_bind]
    split
    · rw [wr_append]
    · rfl


theorem invert_run (ub : Fl → Int) (d : List Nat) (n : Nat) (amount : Fl)
    (h4 : n % 4 = 0) (hn : n ≤ d.length) :
    invert ub d n amount
      = some (mapRGB (chanP (invertCh ub amount)) (d.take n) ++ d.drop n) :=
  run1 _ _ (chanBody_append _) d n h4 hn

theorem grayscale_run (ub : Fl → Int) (d : List Nat) (n : Nat) (amount : Fl)
    (h4 : n % 4 = 0) (hn : n ≤ d.length) :
    grayscale ub d n amount = some (mapRGB (grayscaleP ub amount) (d.take n) ++ d.drop n) :=
  run4 _ _ (grayscaleBody_append ub amount) d n h4 hn

theorem brightness_run (d : List Nat) (n : Nat) (v : Int)
    (h4 : n % 4 = 0) (hn : n ≤ d.length) :
    brightness d n v = some (mapRGB (chanP (brightnessCh v)) (d.take n) ++ d.drop n) :=
  run1 _ _ (chanBody_append _) d n h4 hn

theorem contrast_run (ub : Fl → Int) (d : List Nat) (n : Nat) (c : Fl)
    (h4 : n % 4 = 0) (hn : n ≤ d.length) :
    contrast ub d n c = some (mapRGB (chanP (contrastCh ub c)) (d.take n) ++ d.drop n) :=
  run1 _ _ (chanBody_append _) d n h4 hn

theorem gamma_run (pow : Fl → Fl → Fl) (ub : Fl → Int) (d : List Nat) (n : Nat) (g : Fl)
    (h4 : n % 4 = 0) (hn : n ≤ d.length) :
    gamma pow ub d n g = some (mapRGB (chanP (gammaCh pow ub g)) (d.take n) ++ d.drop n) :=
  run1 _ _ (chanBody_append _) d n h4 hn

theorem sepia_run (ub : Fl → Int) (d : List Nat) (n : Nat) (amount : Fl)
    (h4 : n % 4 = 0) (hn : n ≤ d.length) :
    sepia ub d n amount = some (mapRGB (sepiaP ub amount) (d.take n) ++ d.drop n) :=
  run4 _ _ (sepiaBody_append ub amount) d n h4 hn

theorem saturation_run (ub : Fl → Int) (d : List Nat) (n : Nat) (s : Fl)
    (h4 : n % 4 = 0) (hn : n ≤ d.length) :
    saturation ub d n s = some (mapRGB (saturationP ub s) (d.take n) ++ d.drop n) :=
  run4 _ _ (saturationBody_append ub s) d n h4 hn

theorem tint_run (d : List Nat) (n : Nat) (r g b : Int)
    (h4 : n % 4 = 0) (hn : n ≤ d.length) :
    tint d n r g b = some (mapRGB (tintP r g b) (d.take n) ++ d.drop n) :=
  run4 _ _ (tintBody_append r g b) d n h4 hn

theorem temperature_run (ub : Fl → Int) (d : List Nat) (n : Nat) (t : Fl)
    (h4 : n % 4 = 0) (hn : n ≤ d.length) :
    temperature ub d n t = some (mapRGB (temperatureP ub t) (d.take n) ++ d.drop n) :=
  run4 _ _ (temperatureBody_append ub t) d n h4 hn

theorem fade_run (ub : Fl → Int) (d : List Nat) (n : Nat) (a : Fl)
    (h4 : n % 4 = 0) (hn : n ≤ d.length) :
    fade ub d n a = some (mapRGB (chanP (fadeCh ub a)) (d.take n) ++ d.drop n) :=
  run1 _ _ (chanBody_append _) d n h4 hn

theorem solarize_run (d : List Nat) (n : Nat) (t : Fl)
    (h4 : n % 4 = 0) (hn : n ≤ d.length) :
    solarize d n t = some (mapRGB (chanP (solarizeCh t)) (d.take n) ++ d.drop n) :=
  run1 _ _ (solarizeBody_append t) d n h4 hn

/-! ## Properties of `mapRGB` -/

theorem quad_induction {motive : List Nat → Prop}
    (h0 : ∀ l : List Nat, l.length < 4 → motive l)
    (h4 : ∀ (r g b a : Nat) (rest : List Nat), motive rest → motive (r :: g :: b :: a :: rest)) :
    ∀ l : List Nat, motive l
  | r :: g :: b :: a :: rest => h4 r g b a rest (quad_induction h0 h4 rest)
  | [] => h0 _ (by simp)
  | [_] => h0 _ (by simp)
  | [_, _] => h0 _ (by simp)
  | [_, _, _] => h0 _ (by simp)

theorem mapRGB_short (P : Nat → Nat → Nat → Nat × Nat × Nat) (l : List Nat)
    (h : l.length < 4) : mapRGB P l = l := by
  match l, h with
  | [], _ => rfl
  | [_], _ => rfl
  | [_, _], _ => rfl
  | [_, _, _], _ => rfl
  | _ :: _ :: _ :: _ :: _, h => simp at h; omega

theorem mapRGB_length (P : Nat → Nat → Nat → Nat × Nat × Nat) (l : List Nat) :
    (mapRGB P l).length = l.length := by
  induction l using quad_induction with
  | h0 l h => rw [mapRGB_short P l h]
  | h4 r g b a rest ih => simp [mapRGB, ih]

theorem mapRGB_alpha (P : Nat → Nat → Nat → Nat × Nat × Nat) (l : List Nat) :
    ∀ i : Nat, i % 4 = 3 → (mapRGB P l)[i]? = l[i]? := by
  induction l using quad_induction with
  | h0 l h => intro i _; rw [mapRGB_short P l h]
  | h4 r g b a rest ih =>
    intro i hi
    obtain ⟨j, rfl⟩ : ∃ j, i = j + 3 := ⟨i - 3, by omega⟩
    cases j with
    | zero => simp [mapRGB]
    | succ j => simpa [mapRGB] using ih j (by omega)

theorem mapRGB_pixel (P : Nat → Nat → Nat → Nat × Nat × Nat) (l : List Nat) :
    ∀ k : Nat, 4 * k + 3 < l.length →
      ∃ r g b : Nat, l[4 * k]? = some r ∧ l[4 * k + 1]? = some g ∧ l[4 * k + 2]? = some b ∧
        (mapRGB P l)[4 * k]? = some (P r g b).1 ∧
        (mapRGB P l)[4 * k + 1]? = some (P r g b).2.1 ∧
        (mapRGB P l)[4 * k + 2]? = some (P r g b).2.2 := by
  induction l using quad_induction with
  | h0 l h => intro k hk; omega
  | h4 r g b a rest ih =>
    intro k hk
    cases k with
    | zero => exact ⟨r, g, b, by simp [mapRGB]⟩
    | succ k =>
      obtain ⟨r1, g1, b1, h⟩ := ih k (by simp at hk; omega)
      refine ⟨r1, g1, b1, ?_⟩
      have e0 : 4 * (k + 1) = 4 * k + 1 + 1 + 1 + 1 := by omega
      have e2 : 4 * k + 1 + 1 + 1 + 1 + 2 = 4 * k + 2 + 1 + 1 + 1 + 1 := by omega
      rw [e0, e2]
      simpa [mapRGB] using h

theorem mapRGB_id (P : Nat → Nat → Nat → Nat × Nat × Nat)
    (hP : ∀ r g b : Nat, r < 256 → g < 256 → b < 256 → P r g b = (r, g, b))
    (l : List Nat) : IsBytes l → mapRGB P l = l := by
  induction l using quad_induction with
  | h0 l h => intro _; exact mapRGB_short P l h
  | h4 r g b a rest ih =>
    intro hb
    have hr : r < 256 := hb r (by simp)
    have hg : g < 256 := hb g (by simp)
    have hbb : b < 256 := hb b (by simp)
    have hrest : IsBytes rest := fun x hx => hb x (by simp [hx])
    simp [mapRGB, hP r g b hr hg hbb, ih hrest]

/-! ## Rounding: the result of `roundTo` from bounds on the exact value -/

theorem log2Aux_spec : ∀ (fuel n : Nat), 0 < n → n ≤ fuel →
    2 ^ log2Aux fuel n ≤ n ∧ n < 2 ^ (log2Aux fuel n + 1) := by
  intro fuel
  induction fuel with
  | zero => intro n h0 h1; omega
  | succ fuel ih =>
    intro n h0 h1
    unfold log2Aux
    split
    · rename_i h2
      obtain ⟨a, b⟩ := ih (n / 2) (by omega) (by omega)
      rw [Nat.pow_succ, Nat.pow_succ, Nat.pow_succ] at *
      constructor <;> omega
    · simp; omega

theorem log2_spec (n : Nat) (hn : 0 < n) : 2 ^ log2 n ≤ n ∧ n < 2 ^ (log2 n + 1) :=
  log2Aux_spec n n hn (Nat.le_refl n)

theorem cast_pow_toNat (e : Int) (h : 0 ≤ e) : ((2 ^ e.toNat : Nat) : ℚ) = (2 : ℚ) ^ e := by
  push_cast
  rw [← zpow_natCast, Int.toNat_of_nonneg h]

theorem cast_pow_neg_toNat (e : Int) (h : e < 0) :
    ((2 ^ (-e).toNat : Nat) : ℚ) = ((2 : ℚ) ^ e)⁻¹ := by
  push_cast
  rw [← zpow_natCast, Int.toNat_of_nonneg (by omega), zpow_neg]

theorem two_zpow_pos (e : Int) : (0 : ℚ) < (2 : ℚ) ^ e := zpow_pos (by norm_num) e

theorem ilog2_cond_iff (n d : Nat) (e0 : Int) :
    (if 0 ≤ e0 then d * 2 ^ e0.toNat ≤ n else d ≤ n * 2 ^ (-e0).toNat)
      ↔ (2 : ℚ) ^ e0 * d ≤ n := by
  have hp := two_zpow_pos e0
  split
  · rename_i h
    rw [← cast_pow_toNat e0 h, mul_comm]
    exact_mod_cast Iff.rfl
  · rename_i h
    have h' : e0 < 0 := by omega
    have : ((d : ℚ) ≤ (n : ℚ) * ((2 ^ (-e0).toNat : Nat) : ℚ)) ↔ (2 : ℚ) ^ e0 * d ≤ n := by
      rw [cast_pow_neg_toNat e0 h', ← div_eq_mul_inv, le_div_iff₀ hp, mul_comm]
    rw [← this]
    exact_mod_cast Iff.rfl

theorem ilog2Q_eq (n d : Nat) (hn : 0 < n) (hd : 0 < d) (e : Int)
    (h1 : (2 : ℚ) ^ e * d ≤ n) (h2 : (n : ℚ) < (2 : ℚ) ^ (e + 1) * d) : ilog2Q n d = e := by
  obtain ⟨a1, a2⟩ := log2_spec n hn
  obtain ⟨b1, b2⟩ := log2_spec d hd
  have A1 : (2 : ℚ) ^ ((log2 n : Nat) : Int) ≤ n := by
    rw [zpow_natCast]; exact_mod_cast a1
  have A2 : (n : ℚ) < (2 : ℚ) ^ (((log2 n : Nat) : Int) + 1) := by
    have : (n : ℚ) < (2 : ℚ) ^ (log2 n + 1) := by exact_mod_cast a2
    rwa [← zpow_natCast, Nat.cast_add, Nat.cast_one] at this
  have B1 : (2 : ℚ) ^ ((log2 d : Nat) : Int) ≤ d := by
    rw [zpow_natCast]; exact_mod_cast b1
  have B2 : (d : ℚ) < (2 : ℚ) ^ (((log2 d : Nat) : Int) + 1) := by
    have : (d : ℚ) < (2 : ℚ) ^ (log2 d + 1) := by exact_mod_cast b2
    rwa [← zpow_natCast, Nat.cast_add, Nat.cast_one] at this
  have h2ne : (2 : ℚ) ≠ 0 := by norm_num
  have h21 : (1 : ℚ) < 2 := by norm_num
  have hdq : (0 : ℚ) < d := by exact_mod_cast hd
  -- upper bound on e
  have hup : e + (log2 d : Int) < (log2 n : Int) + 1 := by
    have : (2 : ℚ) ^ (e + (log2 d : Int)) < (2 : ℚ) ^ ((log2 n : Int) + 1) := by
      rw [zpow_add₀ h2ne]
      calc (2 : ℚ) ^ e * 2 ^ ((log2 d : Nat) : Int) ≤ 2 ^ e * d :=
            mul_le_mul_of_nonneg_left B1 (two_zpow_pos e).le
        _ ≤ n := h1
        _ < _ := A2
    exact (zpow_lt_zpow_iff_right₀ h21).mp this
  have hlo : (log2 n : Int) < (e + 1) + ((log2 d : Int) + 1) := by
    have : (2 : ℚ) ^ ((log2 n : Nat) : Int) < (2 : ℚ) ^ ((e + 1) + ((log2 d : Int) + 1)) := by
      rw [zpow_add₀ h2ne]
      calc (2 : ℚ) ^ ((log2 n : Nat) : Int) ≤ n := A1
        _ < 2 ^ (e + 1) * d := h2
        _ < _ := mul_lt_mul_of_pos_left B2 (two_zpow_pos (e + 1))
    exact (zpow_lt_zpow_iff_right₀ h21).mp this
  unfold ilog2Q
  simp only []
  have hiff := ilog2_cond_iff n d ((log2 n : Int) - (log2 d : Int))
  by_cases hc : (if 0 ≤ (log2 n : Int) - (log2 d : Int)
      then d * 2 ^ ((log2 n : Int) - (log2 d : Int)).toNat ≤ n
      else d ≤ n * 2 ^ (-((log2 n : Int) - (log2 d : Int))).toNat)
  · rw [if_pos hc]
    have hc' := hiff.mp hc
    by_contra hne
    have he : e = (log2 n : Int) - (log2 d : Int) - 1 := by omega
    rw [he] at h2
    simp only [sub_add_cancel] at h2
    exact absurd hc' (not_le.mpr h2)
  · rw [if_neg hc]
    by_contra hne
    have he : e = (log2 n : Int) - (log2 d : Int) := by omega
    rw [he] at h1
    exact hc (hiff.mpr h1)

theorem rne_eq (N D M : Nat) (hD : 0 < D) (h1 : 2 * N ≤ 2 * (M * D) + D)
    (h2 : 2 * (M * D) ≤ 2 * N + D)
    (htie : (2 * N < 2 * (M * D) + D ∧ 2 * (M * D) < 2 * N + D) ∨ M % 2 = 0) :
    rne N D = M := by
  have hdm := Nat.div_add_mod N D
  have hr := Nat.mod_lt N hD
  have hq : N / D * D + N % D = N := by rw [Nat.mul_comm]; exact hdm
  -- M is N / D or N / D + 1
  have hM : M = N / D ∨ M = N / D + 1 := by
    by_contra hcon
    push_neg at hcon
    rcases Nat.lt_or_ge M (N / D) with hlt | hge
    · have : (M + 1) * D ≤ N / D * D := Nat.mul_le_mul_right D hlt
      rw [Nat.add_mul] at this
      omega
    · have hgt : N / D + 2 ≤ M := by omega
      have : (N / D + 2) * D ≤ M * D := Nat.mul_le_mul_right D hgt
      rw [Nat.add_mul] at this
      omega
  unfold rne
  simp only []
  rcases hM with hM | hM
  · have e1 : M * D = N / D * D := by rw [hM]
    split
    · exact hM.symm
    · split
      · omega
      · split
        · exact hM.symm
        · rcases htie with ht | ht
          · omega
          · omega
  · have e1 : M * D = N / D * D + D := by rw [hM, Nat.add_mul]; simp
    split
    · omega
    · split
      · exact hM.symm
      · split
        · rcases htie with ht | ht
          · omega
          · omega
        · exact hM.symm

theorem rne_eq_of_rat (N D M : Nat) (hD : 0 < D) (y : ℚ) (hy : (N : ℚ) = y * D)
    (h1 : (M : ℚ) - 1 / 2 ≤ y) (h2 : y ≤ (M : ℚ) + 1 / 2)
    (htie : ((M : ℚ) - 1 / 2 < y ∧ y < (M : ℚ) + 1 / 2) ∨ M % 2 = 0) : rne N D = M := by
  have hDq : (0 : ℚ) < D := by exact_mod_cast hD
  have e1 : (2 : ℚ) * N ≤ 2 * (M * D) + D := by rw [hy]; nlinarith
  have e2 : (2 : ℚ) * (M * D) ≤ 2 * N + D := by rw [hy]; nlinarith
  refine rne_eq N D M hD (by exact_mod_cast e1) (by exact_mod_cast e2) ?_
  rcases htie with ⟨t1, t2⟩ | t
  · left
    have e3 : (2 : ℚ) * N < 2 * (M * D) + D := by rw [hy]; nlinarith
    have e4 : (2 : ℚ) * (M * D) < 2 * N + D := by rw [hy]; nlinarith
    exact ⟨by exact_mod_cast e3, by exact_mod_cast e4⟩
  · right; exact t

theorem roundMag_eq (f : Fmt) (neg : Bool) (n d : Nat) (hn : 0 < n) (hd : 0 < d)
    (e : Int) (M : Nat)
    (h1 : (2 : ℚ) ^ e ≤ (n : ℚ) / d) (h2 : (n : ℚ) / d < (2 : ℚ) ^ (e + 1))
    (hmin : f.emin ≤ e) (hmax : e < f.emax)
    (hy1 : (M : ℚ) - 1 / 2 ≤ (n : ℚ) / d / (2 : ℚ) ^ (e - ((f.prec : Int) - 1)))
    (hy2 : (n : ℚ) / d / (2 : ℚ) ^ (e - ((f.prec : Int) - 1)) ≤ (M : ℚ) + 1 / 2)
    (htie : ((M : ℚ) - 1 / 2 < (n : ℚ) / d / (2 : ℚ) ^ (e - ((f.prec : Int) - 1)) ∧
        (n : ℚ) / d / (2 : ℚ) ^ (e - ((f.prec : Int) - 1)) < (M : ℚ) + 1 / 2) ∨ M % 2 = 0) :
    roundMag f neg n d = mkFl neg M (e - ((f.prec : Int) - 1)) := by
  have hdq : (0 : ℚ) < d := by exact_mod_cast hd
  have hL : ilog2Q n d = e := by
    apply ilog2Q_eq n d hn hd e
    · rwa [le_div_iff₀ hdq] at h1
    · rwa [div_lt_iff₀ hdq] at h2
  have hm : (if 0 ≤ e - ((f.prec : Int) - 1)
      then rne n (d * 2 ^ (e - ((f.prec : Int) - 1)).toNat)
      else rne (n * 2 ^ (-(e - ((f.prec : Int) - 1))).toNat) d) = M := by
    have hp := two_zpow_pos (e - ((f.prec : Int) - 1))
    split
    · rename_i hq
      apply rne_eq_of_rat _ _ M (Nat.mul_pos hd (Nat.pow_pos (by norm_num))) _ _ hy1 hy2 htie
      rw [Nat.cast_mul, cast_pow_toNat _ hq]
      field_simp
    · rename_i hq
      apply rne_eq_of_rat _ _ M hd _ _ hy1 hy2 htie
      rw [Nat.cast_mul, cast_pow_neg_toNat _ (by omega)]
      field_simp
      ring
  unfold roundMag
  rw [if_neg (by omega)]
  simp only [hL, if_pos hmin, hm]
  rw [if_neg]
  omega

theorem mkFl_is (neg : Bool) (M : Nat) (q : Int) :
    (mkFl neg M q).Is ((if neg then -1 else 1) * ((M : ℚ) * (2 : ℚ) ^ q)) := by
  unfold mkFl
  simp only []
  split
  · rename_i hq
    refine ⟨_, 1, Nat.one_pos, rfl, ?_⟩
    rw [← cast_pow_toNat q hq]
    cases neg <;> simp
  · rename_i hq
    refine ⟨_, _, Nat.pow_pos (by norm_num), rfl, ?_⟩
    rw [cast_pow_neg_toNat q (by omega)]
    have hp := two_zpow_pos q
    cases neg <;> simp

theorem roundTo_is (f : Fmt) (N : Int) (D : Nat) (hD : 0 < D) (v : ℚ)
    (hv : (N : ℚ) / D = v) (e : Int) (M : Nat)
    (h1 : (2 : ℚ) ^ e ≤ |v|) (h2 : |v| < (2 : ℚ) ^ (e + 1))
    (hmin : f.emin ≤ e) (hmax : e < f.emax)
    (hy1 : (M : ℚ) - 1 / 2 ≤ |v| / (2 : ℚ) ^ (e - ((f.prec : Int) - 1)))
    (hy2 : |v| / (2 : ℚ) ^ (e - ((f.prec : Int) - 1)) ≤ (M : ℚ) + 1 / 2)
    (htie : ((M : ℚ) - 1 / 2 < |v| / (2 : ℚ) ^ (e - ((f.prec : Int) - 1)) ∧
        |v| / (2 : ℚ) ^ (e - ((f.prec : Int) - 1)) < (M : ℚ) + 1 / 2) ∨ M % 2 = 0) :
    (roundTo f N D).Is
      ((if v < 0 then -1 else 1) * ((M : ℚ) * (2 : ℚ) ^ (e - ((f.prec : Int) - 1)))) := by
  have hDq : (0 : ℚ) < D := by exact_mod_cast hD
  have habs : ((N.natAbs : Nat) : ℚ) / D = |v| := by
    rw [← hv, abs_div, abs_of_pos hDq, Nat.cast_natAbs, Int.cast_abs]
  have hvpos : 0 < |v| := lt_of_lt_of_le (two_zpow_pos e) h1
  have hN : 0 < N.natAbs := by
    rcases Nat.eq_zero_or_pos N.natAbs with h | h
    · rw [h] at habs; simp at habs; rw [← habs] at hvpos; exact absurd hvpos (lt_irrefl _)
    · exact h
  have hsign : (decide (N < 0) : Bool) = decide (v < 0) := by
    have : N < 0 ↔ v < 0 := by
      rw [← hv, div_neg_iff]
      constructor
      · intro h; right; exact ⟨by exact_mod_cast h, hDq⟩
      · rintro (⟨_, h⟩ | ⟨h, _⟩)
        · exact absurd h (not_lt.mpr hDq.le)
        · exact_mod_cast h
    simp [this]
  unfold roundTo
  rw [roundMag_eq f _ N.natAbs D hN hD e M (by rw [habs]; exact h1) (by rw [habs]; exact h2)
    hmin hmax (by rw [habs]; exact hy1) (by rw [habs]; exact hy2) (by rw [habs]; exact htie)]
  rw [hsign]
  have := mkFl_is (decide (v < 0)) M (e - ((f.prec : Int) - 1))
  simpa using this

theorem roundTo_zero (f : Fmt) (D : Nat) : roundTo f 0 D = .fin 0 1 := by
  simp [roundTo, roundMag]

theorem roundTo_exact (f : Fmt) (N : Int) (D : Nat) (hD : 0 < D) (v : ℚ)
    (hv : (N : ℚ) / D = v) (K : Nat) (z : Int) (hK : K < 2 ^ f.prec)
    (habs : |v| = (K : ℚ) * (2 : ℚ) ^ z)
    (hz1 : f.emin ≤ z) (hz2 : z + f.prec ≤ f.emax) : (roundTo f N D).Is v := by
  have hDq : (0 : ℚ) < D := by exact_mod_cast hD
  rcases Nat.eq_zero_or_pos K with hK0 | hK0
  · have hv0 : v = 0 := by rw [hK0] at habs; simpa using habs
    have hN : N = 0 := by
      rw [hv0, div_eq_zero_iff] at hv
      rcases hv with h | h
      · exact_mod_cast h
      · exact absurd h hDq.ne'
    rw [hN, roundTo_zero, hv0]
    exact ⟨0, 1, Nat.one_pos, rfl, by simp⟩
  · have hl1 : 2 ^ Nat.log 2 K ≤ K := Nat.pow_log_le_self 2 (by omega)
    have hl2 : K < 2 ^ (Nat.log 2 K + 1) := Nat.lt_pow_succ_log_self (by norm_num) K
    have hl : Nat.log 2 K < f.prec := by
      have := lt_of_le_of_lt hl1 hK
      exact (Nat.pow_lt_pow_iff_right (by norm_num)).mp this
    obtain ⟨w, hw⟩ : ∃ w, f.prec = Nat.log 2 K + 1 + w := ⟨f.prec - (Nat.log 2 K + 1), by omega⟩
    have h2ne : (2 : ℚ) ≠ 0 := by norm_num
    have hpz := two_zpow_pos z
    have hq : (Nat.log 2 K : Int) + z - ((f.prec : Int) - 1) = z - (w : Int) := by
      rw [hw]; push_cast; ring
    have hq2 : (2 : ℚ) ^ (z - (w : Int)) = (2 : ℚ) ^ z / (2 : ℚ) ^ w := by
      rw [zpow_sub₀ h2ne, zpow_natCast]
    have hpw : (0 : ℚ) < (2 : ℚ) ^ w := by positivity
    have hL1 : ((2 : ℚ) ^ Nat.log 2 K) ≤ K := by exact_mod_cast hl1
    have hL2 : (K : ℚ) < (2 : ℚ) ^ (Nat.log 2 K + 1) := by exact_mod_cast hl2
    have hy : |v| / (2 : ℚ) ^ ((Nat.log 2 K : Int) + z - ((f.prec : Int) - 1))
        = ((K * 2 ^ w : Nat) : ℚ) := by
      rw [hq, hq2, habs]; push_cast; field_simp; ring
    have key := roundTo_is f N D hD v hv ((Nat.log 2 K : Int) + z) (K * 2 ^ w)
      (by rw [habs, zpow_add₀ h2ne, zpow_natCast]
          exact mul_le_mul_of_nonneg_right hL1 hpz.le)
      (by rw [habs, show (Nat.log 2 K : Int) + z + 1 = ((Nat.log 2 K + 1 : Nat) : Int) + z by
            push_cast; ring, zpow_add₀ h2ne, zpow_natCast]
          exact mul_lt_mul_of_pos_right hL2 hpz)
      (by omega) (by omega)
      (by rw [hy]; linarith) (by rw [hy]; linarith)
      (Or.inl ⟨by rw [hy]; linarith, by rw [hy]; linarith⟩)
    have hval : ((K * 2 ^ w : Nat) : ℚ)
        * (2 : ℚ) ^ ((Nat.log 2 K : Int) + z - ((f.prec : Int) - 1)) = |v| := by
      rw [hq, hq2, habs]; push_cast; field_simp; ring
    rw [hval] at key
    have hsv : (if v < 0 then (-1 : ℚ) else 1) * |v| = v := by
      split
      · rename_i h; rw [abs_of_neg h]; ring
      · rename_i h; rw [abs_of_nonneg (not_lt.mp h)]; ring
    rwa [hsv] at key

theorem is_fin (a : Int) (b : Nat) (hb : 0 < b) : (Fl.fin a b).Is ((a : ℚ) / b) :=
  ⟨a, b, hb, rfl, rfl⟩

theorem add_is (f : Fmt) (x y : Fl) (u w : ℚ) (hx : x.Is u) (hy : y.Is w) :
    ∃ (N : Int) (D : Nat), 0 < D ∧ Fl.add f x y = roundTo f N D ∧ (N : ℚ) / D = u + w := by
  obtain ⟨a, b, hb, rfl, rfl⟩ := hx
  obtain ⟨c, d, hd, rfl, rfl⟩ := hy
  have hbq : (b : ℚ) ≠ 0 := by exact_mod_cast hb.ne'
  have hdq : (d : ℚ) ≠ 0 := by exact_mod_cast hd.ne'
  refine ⟨a * d + c * b, b * d, Nat.mul_pos hb hd, rfl, ?_⟩
  push_cast
  field_simp

theorem neg_is (x : Fl) (u : ℚ) (hx : x.Is u) : x.neg.Is (-u) := by
  obtain ⟨a, b, hb, rfl, rfl⟩ := hx
  refine ⟨-a, b, hb, rfl, ?_⟩
  push_cast
  ring

theorem sub_is (f : Fmt) (x y : Fl) (u w : ℚ) (hx : x.Is u) (hy : y.Is w) :
    ∃ (N : Int) (D : Nat), 0 < D ∧ Fl.sub f x y = roundTo f N D ∧ (N : ℚ) / D = u - w := by
  have := add_is f x y.neg u (-w) hx (neg_is y w hy)
  rwa [← sub_eq_add_neg] at this

theorem mul_is (f : Fmt) (x y : Fl) (u w : ℚ) (hx : x.Is u) (hy : y.Is w) :
    ∃ (N : Int) (D : Nat), 0 < D ∧ Fl.mul f x y = roundTo f N D ∧ (N : ℚ) / D = u * w := by
  obtain ⟨a, b, hb, rfl, rfl⟩ := hx
  obtain ⟨c, d, hd, rfl, rfl⟩ := hy
  have hbq : (b : ℚ) ≠ 0 := by exact_mod_cast hb.ne'
  have hdq : (d : ℚ) ≠ 0 := by exact_mod_cast hd.ne'
  refine ⟨a * c, b * d, Nat.mul_pos hb hd, rfl, ?_⟩
  push_cast
  field_simp

theorem div_is (f : Fmt) (x y : Fl) (u w : ℚ) (hx : x.Is u) (hy : y.Is w) (hw : w ≠ 0) :
    ∃ (N : Int) (D : Nat), 0 < D ∧ Fl.div f x y = roundTo f N D ∧ (N : ℚ) / D = u / w := by
  obtain ⟨a, b, hb, rfl, rfl⟩ := hx
  obtain ⟨c, d, hd, rfl, rfl⟩ := hy
  have hbq : (b : ℚ) ≠ 0 := by exact_mod_cast hb.ne'
  have hdq : (d : ℚ) ≠ 0 := by exact_mod_cast hd.ne'
  have hc : c ≠ 0 := by
    intro h; apply hw; rw [h]; simp
  have hcq : (c : ℚ) ≠ 0 := by exact_mod_cast hc
  refine ⟨if c < 0 then -(a * d) else a * d, b * c.natAbs,
    Nat.mul_pos hb (Int.natAbs_pos.mpr hc), ?_, ?_⟩
  · simp [Fl.div, hc]
  · rw [Nat.cast_mul, Nat.cast_natAbs, Int.cast_abs]
    split
    · rename_i h
      have : (c : ℚ) < 0 := by exact_mod_cast h
      rw [abs_of_neg this]; push_cast; field_simp
    · rename_i h
      have : (0 : ℚ) ≤ c := by exact_mod_cast (not_lt.mp h)
      rw [abs_of_nonneg this]; push_cast; field_simp

theorem trunc_mul (k : Int) (b : Nat) (hb : 0 < b) : Fl.trunc (k * b) b = k := by
  unfold Fl.trunc
  have hbI : (0 : Int) < b := by exact_mod_cast hb
  split
  · rename_i h
    have hk : 0 ≤ k := nonneg_of_mul_nonneg_left h hbI
    obtain ⟨m, rfl⟩ := Int.eq_ofNat_of_zero_le hk
    have : ((m : Int) * (b : Int)).toNat = m * b := by
      rw [← Nat.cast_mul, Int.toNat_ofNat]
    rw [this, Nat.mul_div_cancel _ hb]
  · rename_i h
    have hk : k < 0 := by
      by_contra hcon
      exact h (Int.mul_nonneg (not_lt.mp hcon) hbI.le)
    obtain ⟨m, hm⟩ : ∃ m : Nat, -k = m := ⟨(-k).toNat, by omega⟩
    have : (-(k * (b : Int))).toNat = m * b := by
      rw [show -(k * (b : Int)) = ((m * b : Nat) : Int) by push_cast; rw [← hm]; ring]
      exact Int.toNat_ofNat _
    rw [this, Nat.mul_div_cancel _ hb]
    omega

theorem toInt?_is (x : Fl) (k : Int) (hx : x.Is (k : ℚ))
    (hlo : -2147483648 ≤ k) (hhi : k ≤ 2147483647) : x.toInt? = some k := by
  obtain ⟨a, b, hb, rfl, hv⟩ := hx
  have hbq : (b : ℚ) ≠ 0 := by exact_mod_cast hb.ne'
  have ha : a = k * b := by
    have : (a : ℚ) = k * b := by field_simp at hv; exact hv
    exact_mod_cast this
  rw [ha]
  simp only [Fl.toInt?]
  rw [trunc_mul k b hb, if_pos ⟨hlo, hhi⟩]

theorem toInt_is (ub : Fl → Int) (x : Fl) (k : Int) (hx : x.Is (k : ℚ))
    (hlo : -2147483648 ≤ k) (hhi : k ≤ 2147483647) : x.toInt ub = k := by
  unfold Fl.toInt
  rw [toInt?_is x k hx hlo hhi]

theorem lt_is (x y : Fl) (u w : ℚ) (hx : x.Is u) (hy : y.Is w) :
    Fl.lt x y = decide (u < w) := by
  obtain ⟨a, b, hb, rfl, rfl⟩ := hx
  obtain ⟨c, d, hd, rfl, rfl⟩ := hy
  have hbq : (0 : ℚ) < b := by exact_mod_cast hb
  have hdq : (0 : ℚ) < d := by exact_mod_cast hd
  simp only [Fl.lt]
  congr 1
  rw [div_lt_iff₀ hbq, div_mul_eq_mul_div, lt_div_iff₀ hdq]
  exact propext ⟨fun h => by exact_mod_cast h, fun h => by exact_mod_cast h⟩

theorem round32_int (N : Int) (D : Nat) (hD : 0 < D) (k : Int) (hv : (N : ℚ) / D = k)
    (h1 : -16777216 < k) (h2 : k < 16777216) : (roundTo binary32 N D).Is (k : ℚ) := by
  refine roundTo_exact binary32 N D hD k hv k.natAbs 0 ?_ ?_ (by decide) (by decide)
  · show k.natAbs < 2 ^ 24
    omega
  · rw [Nat.cast_natAbs, Int.cast_abs]; simp

theorem i2f_is (k : Int) (h1 : -16777216 < k) (h2 : k < 16777216) : (i2f k).Is (k : ℚ) :=
  round32_int k 1 Nat.one_pos k (by simp) h1 h2

theorem add32_int (x y : Fl) (a b : Int) (hx : x.Is (a : ℚ)) (hy : y.Is (b : ℚ))
    (h1 : -16777216 < a + b) (h2 : a + b < 16777216) :
    (Fl.add binary32 x y).Is ((a + b : Int) : ℚ) := by
  obtain ⟨N, D, hD, he, hv⟩ := add_is binary32 x y a b hx hy
  rw [he]
  exact round32_int N D hD (a + b) (by rw [hv]; push_cast; ring) h1 h2

theorem sub32_int (x y : Fl) (a b : Int) (hx : x.Is (a : ℚ)) (hy : y.Is (b : ℚ))
    (h1 : -16777216 < a - b) (h2 : a - b < 16777216) :
    (Fl.sub binary32 x y).Is ((a - b : Int) : ℚ) := by
  obtain ⟨N, D, hD, he, hv⟩ := sub_is binary32 x y a b hx hy
  rw [he]
  exact round32_int N D hD (a - b) (by rw [hv]; push_cast; ring) h1 h2

theorem mul32_int (x y : Fl) (a b : Int) (hx : x.Is (a : ℚ)) (hy : y.Is (b : ℚ))
    (h1 : -16777216 < a * b) (h2 : a * b < 16777216) :
    (Fl.mul binary32 x y).Is ((a * b : Int) : ℚ) := by
  obtain ⟨N, D, hD, he, hv⟩ := mul_is binary32 x y a b hx hy
  rw [he]
  exact round32_int N D hD (a * b) (by rw [hv]; push_cast; ring) h1 h2

theorem mul32_zero (x : Fl) (u : ℚ) (hx : x.Is u) :
    (Fl.mul binary32 x (.fin 0 1)).Is ((0 : Int) : ℚ) := by
  obtain ⟨N, D, hD, he, hv⟩ := mul_is binary32 x (.fin 0 1) u 0 hx ⟨0, 1, Nat.one_pos, rfl, by simp⟩
  rw [he]
  exact round32_int N D hD 0 (by rw [hv]; simp) (by decide) (by decide)

theorem is_zero : (Fl.fin 0 1).Is ((0 : Int) : ℚ) := ⟨0, 1, Nat.one_pos, rfl, by simp⟩

theorem is_one : (Fl.fin 1 1).Is ((1 : Int) : ℚ) := ⟨1, 1, Nat.one_pos, rfl, by simp⟩

theorem invertVal_one (c : Nat) (hc : c < 256) :
    (invertVal c (.fin 1 1)).Is ((255 - (c : Int) : Int) : ℚ) := by
  unfold invertVal
  have h1 := i2f_is c (by omega) (by omega)
  have h2 := sub32_int _ _ 1 1 (i2f_is 1 (by decide) (by decide)) is_one (by decide) (by decide)
  have h3 := mul32_int _ _ c (1 - 1) h1 h2 (by omega) (by omega)
  have h4 := i2f_is (255 - (c : Int)) (by omega) (by omega)
  have h5 := mul32_int _ _ (255 - (c : Int)) 1 h4 is_one (by omega) (by omega)
  have h6 := add32_int _ _ _ _ h3 h5 (by omega) (by omega)
  have e : (c : Int) * (1 - 1) + (255 - (c : Int)) * 1 = 255 - (c : Int) := by ring
  rwa [e] at h6

theorem invertVal_zero (c : Nat) (hc : c < 256) :
    (invertVal c (.fin 0 1)).Is (((c : Int) : Int) : ℚ) := by
  unfold invertVal
  have h1 := i2f_is c (by omega) (by omega)
  have h2 := sub32_int _ _ 1 0 (i2f_is 1 (by decide) (by decide)) is_zero (by decide) (by decide)
  have h3 := mul32_int _ _ c (1 - 0) h1 h2 (by omega) (by omega)
  have h4 := i2f_is (255 - (c : Int)) (by omega) (by omega)
  have h5 := mul32_zero _ _ h4
  have h6 := add32_int _ _ _ _ h3 h5 (by omega) (by omega)
  have e : (c : Int) * (1 - 0) + 0 = (c : Int) := by ring
  rwa [e] at h6

theorem fadeVal_zero (c : Nat) (hc : c < 256) :
    (fadeVal c (.fin 0 1)).Is (((c : Int) : Int) : ℚ) := by
  unfold fadeVal
  have h1 := i2f_is c (by omega) (by omega)
  have h2 := sub32_int _ _ 1 0 (i2f_is 1 (by decide) (by decide)) is_zero (by decide) (by decide)
  have h3 := mul32_int _ _ c (1 - 0) h1 h2 (by omega) (by omega)
  have h5 := mul32_zero _ _ (i2f_is 255 (by decide) (by decide))
  have h6 := add32_int _ _ _ _ h3 h5 (by omega) (by omega)
  have e : (c : Int) * (1 - 0) + 0 = (c : Int) := by ring
  rwa [e] at h6

theorem contrastVal_one (c : Nat) (hc : c < 256) :
    (contrastVal c (.fin 1 1)).Is (((c : Int) : Int) : ℚ) := by
  unfold contrastVal
  have h1 := i2f_is ((c : Int) - 128) (by omega) (by omega)
  have h2 := mul32_int _ _ _ 1 h1 is_one (by omega) (by omega)
  have h3 := add32_int _ _ _ _ h2 (i2f_is 128 (by decide) (by decide)) (by omega) (by omega)
  have e : ((c : Int) - 128) * 1 + 128 = (c : Int) := by ring
  rwa [e] at h3

theorem blendVal_one (x g : Int) (hx1 : -16777216 < x) (hx2 : x < 16777216)
    (hg1 : -16777216 < g) (hg2 : g < 16777216) :
    (blendVal x g (.fin 1 1)).Is ((g : Int) : ℚ) := by
  unfold blendVal
  have h1 := i2f_is x hx1 hx2
  have h2 := sub32_int _ _ 1 1 (i2f_is 1 (by decide) (by decide)) is_one (by decide) (by decide)
  have h3 := mul32_int _ _ x (1 - 1) h1 h2 (by omega) (by omega)
  have h4 := i2f_is g hg1 hg2
  have h5 := mul32_int _ _ g 1 h4 is_one (by omega) (by omega)
  have h6 := add32_int _ _ _ _ h3 h5 (by omega) (by omega)
  have e : x * (1 - 1) + g * 1 = g := by ring
  rwa [e] at h6

theorem blendVal_zero (x g : Int) (hx1 : -16777216 < x) (hx2 : x < 16777216)
    (u : ℚ) (hg : (i2f g).Is u) :
    (blendVal x g (.fin 0 1)).Is ((x : Int) : ℚ) := by
  unfold blendVal
  have h1 := i2f_is x hx1 hx2
  have h2 := sub32_int _ _ 1 0 (i2f_is 1 (by decide) (by decide)) is_zero (by decide) (by decide)
  have h3 := mul32_int _ _ x (1 - 0) h1 h2 (by omega) (by omega)
  have h5 := mul32_zero _ _ hg
  have h6 := add32_int _ _ _ _ h3 h5 (by omega) (by omega)
  have e : x * (1 - 0) + 0 = x := by ring
  rwa [e] at h6

theorem tempShift_zero : (tempShift (.fin 0 1)).Is ((0 : Int) : ℚ) :=
  mul32_zero _ _ (i2f_is 20 (by decide) (by decide))

theorem roundMag_finite (f : Fmt) (neg : Bool) (n d : Nat) (hn : 0 < n) (hd : 0 < d)
    (e : Int) (h1 : (2 : ℚ) ^ e * d ≤ n) (h2 : (n : ℚ) < (2 : ℚ) ^ (e + 1) * d)
    (hf : f.emin < f.emax) (hmax : e < f.emax) : ∃ v : ℚ, (roundMag f neg n d).Is v := by
  unfold roundMag
  rw [if_neg (by omega), ilog2Q_eq n d hn hd e h1 h2]
  simp only []
  rw [if_neg]
  · exact ⟨_, mkFl_is _ _ _⟩
  · split <;> omega

theorem i2f_finite (k : Int) (h1 : -2147483648 ≤ k) (h2 : k ≤ 2147483647) :
    ∃ v : ℚ, (i2f k).Is v := by
  by_cases hk : k = 0
  · rw [hk]; exact ⟨_, i2f_is 0 (by decide) (by decide)⟩
  · have hpos : 0 < k.natAbs := Int.natAbs_pos.mpr hk
    have hl1 : 2 ^ Nat.log 2 k.natAbs ≤ k.natAbs := Nat.pow_log_le_self 2 (by omega)
    have hl2 : k.natAbs < 2 ^ (Nat.log 2 k.natAbs + 1) :=
      Nat.lt_pow_succ_log_self (by norm_num) _
    have hl : Nat.log 2 k.natAbs < 32 := by
      have : 2 ^ Nat.log 2 k.natAbs < 2 ^ 32 := lt_of_le_of_lt hl1 (by omega)
      exact (Nat.pow_lt_pow_iff_right (by norm_num)).mp this
    unfold i2f Fl.ofInt roundTo
    refine roundMag_finite binary32 _ k.natAbs 1 hpos Nat.one_pos (Nat.log 2 k.natAbs) ?_ ?_
      (by decide) ?_
    · rw [zpow_natCast]; simpa using (by exact_mod_cast hl1 : ((2 : ℚ) ^ Nat.log 2 k.natAbs) ≤ k.natAbs)
    · have : (k.natAbs : ℚ) < (2 : ℚ) ^ (Nat.log 2 k.natAbs + 1) := by exact_mod_cast hl2
      rw [show ((Nat.log 2 k.natAbs : Nat) : Int) + 1 = ((Nat.log 2 k.natAbs + 1 : Nat) : Int) by
        push_cast; ring, zpow_natCast]
      simpa using this
    · show ((Nat.log 2 k.natAbs : Nat) : Int) < 127
      omega

theorem toInt_range (ub : Fl → Int) (x : Fl) :
    -2147483648 ≤ x.toInt ub ∧ x.toInt ub ≤ 2147483647 := by
  unfold Fl.toInt
  split
  · rename_i v hv
    cases x with
    | fin a b =>
      simp only [Fl.toInt?] at hv
      split at hv
      · rename_i h; cases hv; exact h
      · cases hv
    | inf n => simp [Fl.toInt?] at hv
    | nan => simp [Fl.toInt?] at hv
  · unfold wrap32; omega

/-! ## From the functional description to the claims -/

theorem run_getElem? (P : Nat → Nat → Nat → Nat × Nat × Nat) (d : List Nat) (n i : Nat)
    (hn : n ≤ d.length) (hi : i < n) :
    (mapRGB P (d.take n) ++ d.drop n)[i]? = (mapRGB P (d.take n))[i]? := by
  rw [List.getElem?_append_left]
  rw [mapRGB_length]; simp; omega

theorem alphaKept_of_run (P : Nat → Nat → Nat → Nat × Nat × Nat) (d : List Nat) (n : Nat)
    (res : Option (List Nat)) (hn : n ≤ d.length)
    (h : res = some (mapRGB P (d.take n) ++ d.drop n)) : AlphaKept d res := by
  refine ⟨_, h, ?_, ?_⟩
  · simp [mapRGB_length]; omega
  · intro i hi
    by_cases hin : i < n
    · rw [run_getElem? P d n i hn hin, mapRGB_alpha P _ i hi, List.getElem?_take_of_lt hin]
    · have hl : (mapRGB P (d.take n)).length = n := by rw [mapRGB_length]; simp; omega
      rw [List.getElem?_append_right (by omega), hl, List.getElem?_drop]
      congr 1; omega

theorem runsInBounds_of_run (run : List Nat → Option (List Nat))
    (P : Nat → Nat → Nat → Nat × Nat × Nat) (n : Nat)
    (h : ∀ d' : List Nat, n ≤ d'.length → run d' = some (mapRGB P (d'.take n) ++ d'.drop n))
    (d : List Nat) (hn : n ≤ d.length) : RunsInBounds run d n := by
  have hl : (d.take n).length = n := by simp; omega
  refine ⟨mapRGB P (d.take n), ?_, ?_, h d hn, ?_⟩
  · have := h (d.take n) (by omega)
    rw [this, List.take_of_length_le (by omega), List.drop_of_length_le (by omega)]
    simp
  · rw [mapRGB_length, hl]
  · simp [mapRGB_length]; omega

theorem clampInt_inByte (v : Int) : InByte (clampInt v) := by
  unfold InByte clampInt
  omega

theorem clamp_eq_toNat (v : Int) : clamp v = (clampInt v).toNat := by
  have h := clampInt_inByte v
  unfold InByte at h
  unfold clamp toU8
  omega

theorem storesExact_of_run (P : Nat → Nat → Nat → Nat × Nat × Nat)
    (V : Nat → Nat → Nat → Int × Int × Int) (d : List Nat) (n : Nat)
    (res : Option (List Nat)) (hn : n ≤ d.length) (hb : IsBytes d)
    (h : res = some (mapRGB P (d.take n) ++ d.drop n))
    (hV : ∀ r g b : Nat, r < 256 → g < 256 → b < 256 →
      InByte (V r g b).1 ∧ InByte (V r g b).2.1 ∧ InByte (V r g b).2.2 ∧
      (P r g b).1 = (V r g b).1.toNat ∧ (P r g b).2.1 = (V r g b).2.1.toNat ∧
      (P r g b).2.2 = (V r g b).2.2.toNat) : StoresExact V d n res := by
  refine ⟨_, h, ?_⟩
  intro k hk
  have hl : (d.take n).length = n := by simp; omega
  obtain ⟨r, g, b, h0, h1, h2, o0, o1, o2⟩ := mapRGB_pixel P (d.take n) k (by omega)
  rw [List.getElem?_take_of_lt (by omega)] at h0 h1 h2
  have hr : r < 256 := hb r (List.getElem?_mem h0)
  have hg : g < 256 := hb g (List.getElem?_mem h1)
  have hbb : b < 256 := hb b (List.getElem?_mem h2)
  obtain ⟨v0, v1, v2, p0, p1, p2⟩ := hV r g b hr hg hbb
  refine ⟨r, g, b, h0, h1, h2, v0, v1, v2, ?_, ?_, ?_⟩
  · rw [run_getElem? P d n _ hn (by omega), o0, p0]
  · rw [run_getElem? P d n _ hn (by omega), o1, p1]
  · rw [run_getElem? P d n _ hn (by omega), o2, p2]

theorem hV_chan (f : Nat → Nat) (v : Nat → Int)
    (h : ∀ x : Nat, x < 256 → InByte (v x) ∧ f x = (v x).toNat) :
    ∀ r g b : Nat, r < 256 → g < 256 → b < 256 →
      InByte (chanI v r g b).1 ∧ InByte (chanI v r g b).2.1 ∧ InByte (chanI v r g b).2.2 ∧
      (chanP f r g b).1 = (chanI v r g b).1.toNat ∧
      (chanP f r g b).2.1 = (chanI v r g b).2.1.toNat ∧
      (chanP f r g b).2.2 = (chanI v r g b).2.2.toNat := by
  intro r g b hr hg hb
  exact ⟨(h r hr).1, (h g hg).1, (h b hb).1, (h r hr).2, (h g hg).2, (h b hb).2⟩

theorem hV_clamp (w : Nat → Int) :
    ∀ x : Nat, x < 256 → InByte (clampInt (w x)) ∧ clamp (w x) = (clampInt (w x)).toNat :=
  fun _ _ => ⟨clampInt_inByte _, clamp_eq_toNat _⟩

theorem hV_solarize (t : Fl) :
    ∀ x : Nat, x < 256 → InByte (solarizeInt t x) ∧ solarizeCh t x = (solarizeInt t x).toNat := by
  intro x hx
  unfold InByte solarizeInt solarizeCh toU8
  split <;> omega

theorem mapRGB_chan_get (g : Nat → Nat) (l : List Nat) :
    ∀ i : Nat, i < l.length / 4 * 4 →
      (mapRGB (chanP g) l)[i]? = if i % 4 ≠ 3 then (l[i]?).map g else l[i]? := by
  induction l using quad_induction with
  | h0 l h => intro i hi; omega
  | h4 r gc b a rest ih =>
    intro i hi
    match i with
    | 0 => simp [mapRGB, chanP]
    | 1 => simp [mapRGB, chanP]
    | 2 => simp [mapRGB, chanP]
    | 3 => simp [mapRGB, chanP]
    | j + 4 =>
      have := ih j (by simp at hi; omega)
      have e : (j + 4) % 4 = j % 4 := by omega
      simpa [mapRGB, e] using this

theorem isBytes_take (d : List Nat) (n : Nat) (hb : IsBytes d) : IsBytes (d.take n) :=
  fun x hx => hb x (List.mem_of_mem_take hx)

theorem run_id (P : Nat → Nat → Nat → Nat × Nat × Nat) (d : List Nat) (n : Nat)
    (res : Option (List Nat)) (hb : IsBytes d)
    (hP : ∀ r g b : Nat, r < 256 → g < 256 → b < 256 → P r g b = (r, g, b))
    (h : res = some (mapRGB P (d.take n) ++ d.drop n)) : res = some d := by
  rw [h, mapRGB_id P hP _ (isBytes_take d n hb), List.take_append_drop]

theorem chanWise_of_run (g f : Nat → Nat) (d : List Nat) (n : Nat)
    (res : Option (List Nat)) (h4 : n % 4 = 0) (hn : n ≤ d.length) (hb : IsBytes d)
    (hg : ∀ c : Nat, c < 256 → g c = f c)
    (h : res = some (mapRGB (chanP g) (d.take n) ++ d.drop n)) : ChanWise f d n res := by
  have hl : (d.take n).length = n := by simp; omega
  have hml : (mapRGB (chanP g) (d.take n)).length = n := by rw [mapRGB_length, hl]
  refine ⟨_, h, ?_, ?_⟩
  · simp [mapRGB_length]; omega
  · intro i hi
    by_cases hin : i < n
    · rw [run_getElem? _ d n i hn hin, mapRGB_chan_get g _ i (by rw [hl]; omega),
        List.getElem?_take_of_lt hin]
      by_cases h3 : i % 4 = 3
      · simp [h3]
      · simp only [h3, hin, ne_eq, not_false_eq_true, and_self, if_true]
        obtain ⟨c, hc⟩ : ∃ c, d[i]? = some c := ⟨d[i], by simp [hi]⟩
        rw [hc]
        simp [hg c (hb c (List.getElem?_mem hc))]
    · rw [List.getElem?_append_right (by omega), hml, List.getElem?_drop]
      simp only [hin, false_and, if_false]
      congr 1; omega

theorem pixWise_of_run (P Q : Nat → Nat → Nat → Nat × Nat × Nat) (d : List Nat) (n : Nat)
    (res : Option (List Nat)) (hn : n ≤ d.length) (hb : IsBytes d)
    (hPQ : ∀ r g b : Nat, r < 256 → g < 256 → b < 256 → P r g b = Q r g b)
    (h : res = some (mapRGB P (d.take n) ++ d.drop n)) : PixWise Q d n res := by
  have hl : (d.take n).length = n := by simp; omega
  refine ⟨_, h, ?_, ?_⟩
  · simp [mapRGB_length]; omega
  · intro k hk
    obtain ⟨r, g, b, h0, h1, h2, o0, o1, o2⟩ := mapRGB_pixel P (d.take n) k (by omega)
    rw [List.getElem?_take_of_lt (by omega)] at h0 h1 h2
    have e := hPQ r g b (hb r (List.getElem?_mem h0)) (hb g (List.getElem?_mem h1))
      (hb b (List.getElem?_mem h2))
    refine ⟨r, g, b, h0, h1, h2, ?_, ?_, ?_⟩
    · rw [run_getElem? P d n _ hn (by omega), o0, e]
    · rw [run_getElem? P d n _ hn (by omega), o1, e]
    · rw [run_getElem? P d n _ hn (by omega), o2, e]

theorem clamp_byte (k : Int) (h0 : 0 ≤ k) (h1 : k ≤ 255) : clamp k = k.toNat := by
  unfold clamp toU8 clampInt
  omega

theorem clamp_toInt (ub : Fl → Int) (x : Fl) (k : Nat) (hk : k < 256)
    (hx : x.Is (((k : Int) : Int) : ℚ)) : clamp (x.toInt ub) = k := by
  rw [toInt_is ub x k hx (by omega) (by omega), clamp_byte _ (by omega) (by omega)]
  simp

theorem invertCh_one (ub : Fl → Int) (c : Nat) (hc : c < 256) :
    invertCh ub (.fin 1 1) c = 255 - c := by
  unfold invertCh
  have h := invertVal_one c hc
  rw [show (255 - (c : Int)) = ((255 - c : Nat) : Int) by omega] at h
  exact clamp_toInt ub _ _ (by omega) h

theorem invertCh_zero (ub : Fl → Int) (c : Nat) (hc : c < 256) :
    invertCh ub (.fin 0 1) c = c :=
  clamp_toInt ub _ _ hc (invertVal_zero c hc)

theorem fadeCh_zero (ub : Fl → Int) (c : Nat) (hc : c < 256) : fadeCh ub (.fin 0 1) c = c :=
  clamp_toInt ub _ _ hc (fadeVal_zero c hc)

theorem contrastCh_one (ub : Fl → Int) (c : Nat) (hc : c < 256) :
    contrastCh ub (.fin 1 1) c = c :=
  clamp_toInt ub _ _ hc (contrastVal_one c hc)

theorem grayOf_eq (r g b : Nat) (hr : r < 256) (hg : g < 256) (hb : b < 256) :
    grayOf r g b = (r + g + b) / 3 := by
  unfold grayOf toU8 wrap32
  have e : ((((r : Int) + g + 2147483648) % 4294967296 - 2147483648 + b + 2147483648)
      % 4294967296 - 2147483648) = ((r + g + b : Nat) : Int) := by omega
  rw [e, Int.tdiv_eq_ediv (by omega) (by decide)]
  omega

theorem grayscaleP_one (ub : Fl → Int) (r g b : Nat) (hr : r < 256) (hg : g < 256)
    (hb : b < 256) :
    grayscaleP ub (.fin 1 1) r g b = ((r + g + b) / 3, (r + g + b) / 3, (r + g + b) / 3) := by
  have hm : (r + g + b) / 3 < 256 := by omega
  unfold grayscaleP
  rw [grayOf_eq r g b hr hg hb,
    clamp_toInt ub _ _ hm (blendVal_one r _ (by omega) (by omega) (by omega) (by omega)),
    clamp_toInt ub _ _ hm (blendVal_one g _ (by omega) (by omega) (by omega) (by omega)),
    clamp_toInt ub _ _ hm (blendVal_one b _ (by omega) (by omega) (by omega) (by omega))]

theorem grayscaleP_zero (ub : Fl → Int) (r g b : Nat) (hr : r < 256) (hg : g < 256)
    (hb : b < 256) : grayscaleP ub (.fin 0 1) r g b = (r, g, b) := by
  have hm : (r + g + b) / 3 < 256 := by omega
  have hgray := i2f_is (((r + g + b) / 3 : Nat) : Int) (by omega) (by omega)
  unfold grayscaleP
  rw [grayOf_eq r g b hr hg hb,
    clamp_toInt ub _ _ hr (blendVal_zero r _ (by omega) (by omega) _ hgray),
    clamp_toInt ub _ _ hg (blendVal_zero g _ (by omega) (by omega) _ hgray),
    clamp_toInt ub _ _ hb (blendVal_zero b _ (by omega) (by omega) _ hgray)]

theorem sepiaP_zero (ub : Fl → Int) (r g b : Nat) (hr : r < 256) (hg : g < 256)
    (hb : b < 256) : sepiaP ub (.fin 0 1) r g b = (r, g, b) := by
  unfold sepiaP sepiaMix
  obtain ⟨u1, h1⟩ := i2f_finite _ (toInt_range ub (Fl.add binary64
    (Fl.add binary64 (Fl.mul binary64 (dlit 393) (i2d r)) (Fl.mul binary64 (dlit 769) (i2d g)))
    (Fl.mul binary64 (dlit 189) (i2d b)))).1 (toInt_range ub _).2
  obtain ⟨u2, h2⟩ := i2f_finite _ (toInt_range ub (Fl.add binary64
    (Fl.add binary64 (Fl.mul binary64 (dlit 349) (i2d r)) (Fl.mul binary64 (dlit 686) (i2d g)))
    (Fl.mul binary64 (dlit 168) (i2d b)))).1 (toInt_range ub _).2
  obtain ⟨u3, h3⟩ := i2f_finite _ (toInt_range ub (Fl.add binary64
    (Fl.add binary64 (Fl.mul binary64 (dlit 272) (i2d r)) (Fl.mul binary64 (dlit 534) (i2d g)))
    (Fl.mul binary64 (dlit 131) (i2d b)))).1 (toInt_range ub _).2
  rw [clamp_toInt ub _ _ hr (blendVal_zero r _ (by omega) (by omega) _ h1),
    clamp_toInt ub _ _ hg (blendVal_zero g _ (by omega) (by omega) _ h2),
    clamp_toInt ub _ _ hb (blendVal_zero b _ (by omega) (by omega) _ h3)]

theorem tintP_zero (r g b : Nat) (hr : r < 256) (hg : g < 256) (hb : b < 256) :
    tintP 0 0 0 r g b = (r, g, b) := by
  unfold tintP clamp toU8 clampInt wrap32
  refine Prod.ext ?_ (Prod.ext ?_ ?_) <;> simp only [] <;> omega

theorem temperatureP_zero (ub : Fl → Int) (r g b : Nat) (hr : r < 256) (hb : b < 256) :
    temperatureP ub (.fin 0 1) r g b = (r, g, b) := by
  unfold temperatureP
  have h1 := add32_int _ _ r 0 (i2f_is r (by omega) (by omega)) tempShift_zero
    (by omega) (by omega)
  have h2 := sub32_int _ _ b 0 (i2f_is b (by omega) (by omega)) tempShift_zero
    (by omega) (by omega)
  rw [Int.add_zero] at h1
  rw [Int.sub_zero] at h2
  rw [clamp_toInt ub _ _ hr h1, clamp_toInt ub _ _ hb h2]

theorem solarizeCh_one (c : Nat) (hc : c < 256) : solarizeCh (.fin 1 1) c = c := by
  unfold solarizeCh
  have h1 := mul32_int _ _ 1 255 is_one (i2f_is 255 (by decide) (by decide))
    (by decide) (by decide)
  have h2 := i2f_is c (by omega) (by omega)
  rw [lt_is _ _ _ _ h1 h2]
  have : ¬ (((1 * 255 : Int) : ℚ) < ((c : Int) : ℚ)) := by
    have : (c : Int) ≤ 255 := by omega
    push_cast
    have h' : ((c : ℚ)) ≤ 255 := by exact_mod_cast this
    linarith
  rw [decide_eq_false this]
  rfl

theorem solarize_half_lt (c : Nat) (hc : c < 256) :
    Fl.lt (Fl.mul binary32 (.fin 1 2) (i2f 255)) (i2f c) = decide (128 ≤ c) := by
  obtain ⟨N, D, hD, he, hv⟩ := mul_is binary32 (.fin 1 2) (i2f 255) (1 / 2) 255
    ⟨1, 2, by decide, rfl, by norm_num⟩
    (by simpa using i2f_is 255 (by decide) (by decide))
  have h1 : (roundTo binary32 N D).Is (1 / 2 * 255) :=
    roundTo_exact binary32 N D hD _ hv 255 (-1) (by decide) (by norm_num) (by decide)
      (by decide)
  have h2 := i2f_is c (by omega) (by omega)
  rw [he, lt_is _ _ _ _ h1 h2]
  congr 1
  apply propext
  constructor
  · intro h
    have : (255 : ℚ) < 2 * c := by push_cast at h; linarith
    have : 255 < 2 * c := by exact_mod_cast this
    omega
  · intro h
    have : (128 : ℚ) ≤ c := by exact_mod_cast h
    push_cast; linarith

theorem solarizeCh_half (c : Nat) (hc : c < 256) :
    solarizeCh (.fin 1 2) c = if 128 ≤ c then 255 - c else c := by
  unfold solarizeCh
  rw [solarize_half_lt c hc]
  by_cases h : 128 ≤ c
  · simp only [h, decide_True, if_true]; unfold toU8; omega
  · simp [h]

theorem solarizeCh_eq (t : Fl) (c : Nat) (hc : c < 256) :
    solarizeCh t c
      = if Fl.lt (Fl.mul binary32 t (i2f 255)) (i2f c) = true then 255 - c else c := by
  unfold solarizeCh
  split
  · unfold toU8; omega
  · rfl

/-! ## `saturation` with factor 1 -/

theorem round32_scaled (N : Int) (D : Nat) (hD : 0 < D) (v : ℚ) (hv : (N : ℚ) / D = v)
    (K j : Nat) (hK : K ≤ 16777216) (hj : j ≤ 126)
    (habs : |v| = (K : ℚ) / (2 : ℚ) ^ j) : (roundTo binary32 N D).Is v := by
  have hJ : (0 : ℚ) < (2 : ℚ) ^ j := by positivity
  rcases Nat.lt_or_ge K 16777216 with h | h
  · refine roundTo_exact binary32 N D hD v hv K (-(j : Int)) (by exact h) ?_ ?_ ?_
    · rw [habs, zpow_neg, zpow_natCast, div_eq_mul_inv]
    · show (-126 : Int) ≤ -(j : Int); omega
    · show -(j : Int) + (24 : Nat) ≤ 127; omega
  · have hKe : K = 16777216 := by omega
    refine roundTo_exact binary32 N D hD v hv 8388608 (1 - (j : Int)) (by decide) ?_ ?_ ?_
    · rw [habs, hKe, zpow_sub₀ (by norm_num), zpow_natCast]
      push_cast; field_simp; norm_num
    · show (-126 : Int) ≤ 1 - (j : Int); omega
    · show 1 - (j : Int) + (24 : Nat) ≤ 127; omega

theorem round32_near_int (N : Int) (D : Nat) (hD : 0 < D) (c j : Nat) (hc : c < 256)
    (hj1 : 1 ≤ j) (hC : 3 * 8388608 ≤ c * 2 ^ j) (δ : ℚ) (hδ : δ = 1 ∨ δ = -1)
    (hv : (N : ℚ) / D = (c : ℚ) + δ / (2 : ℚ) ^ j) : (roundTo binary32 N D).Is (c : ℚ) := by
  have hc0 : 0 < c := by
    rcases Nat.eq_zero_or_pos c with h | h
    · rw [h] at hC; simp at hC
    · exact h
  have hl1 : 2 ^ Nat.log 2 c ≤ c := Nat.pow_log_le_self 2 (by omega)
  have hl2 : c < 2 ^ (Nat.log 2 c + 1) := Nat.lt_pow_succ_log_self (by norm_num) c
  have hlc : Nat.log 2 c < 8 := by
    have : 2 ^ Nat.log 2 c < 2 ^ 8 := lt_of_le_of_lt hl1 (by omega)
    exact (Nat.pow_lt_pow_iff_right (by norm_num)).mp this
  -- lc + j ≥ 24
  have hlj : 24 ≤ Nat.log 2 c + j := by
    have h1 : 2 ^ 24 < c * 2 ^ j := by omega
    have h2 : c * 2 ^ j < 2 ^ (Nat.log 2 c + 1) * 2 ^ j :=
      Nat.mul_lt_mul_of_pos_right hl2 (Nat.pow_pos (by norm_num))
    rw [← Nat.pow_add] at h2
    have := (Nat.pow_lt_pow_iff_right (by norm_num : 1 < 2)).mp (lt_trans h1 h2)
    omega
  obtain ⟨w, hw⟩ : ∃ w, Nat.log 2 c + w = 23 := ⟨23 - Nat.log 2 c, by omega⟩
  have hWa : 2 ^ Nat.log 2 c * 2 ^ w = 8388608 := by rw [← Nat.pow_add, hw]
  have hWJ : 2 * 2 ^ w ≤ 2 ^ j := by
    rw [← Nat.pow_succ']
    exact Nat.pow_le_pow_right (by norm_num) (by omega)
  have hJ2 : 2 ≤ 2 ^ j := by
    calc 2 = 2 ^ 1 := by norm_num
      _ ≤ 2 ^ j := Nat.pow_le_pow_right (by norm_num) hj1
  -- rational versions
  have qa1 : ((2 : ℚ) ^ Nat.log 2 c) ≤ c := by exact_mod_cast hl1
  have qa2 : (c : ℚ) + 1 ≤ 2 * (2 : ℚ) ^ Nat.log 2 c := by
    have : c + 1 ≤ 2 * 2 ^ Nat.log 2 c := by rw [Nat.pow_succ] at hl2; omega
    exact_mod_cast this
  have qWa : ((2 : ℚ) ^ Nat.log 2 c) * (2 : ℚ) ^ w = 8388608 := by exact_mod_cast hWa
  have qWJ : 2 * (2 : ℚ) ^ w ≤ (2 : ℚ) ^ j := by exact_mod_cast hWJ
  have qJ2 : (2 : ℚ) ≤ (2 : ℚ) ^ j := by exact_mod_cast hJ2
  have ha : (0 : ℚ) < (2 : ℚ) ^ Nat.log 2 c := by positivity
  have hW : (0 : ℚ) < (2 : ℚ) ^ w := by positivity
  have hJ : (0 : ℚ) < (2 : ℚ) ^ j := by positivity
  have hcq : (0 : ℚ) < c := by exact_mod_cast hc0
  have hinvJ : 1 / (2 : ℚ) ^ j ≤ 1 / 2 := one_div_le_one_div_of_le (by norm_num) qJ2
  have hinvJ0 : 0 < 1 / (2 : ℚ) ^ j := by positivity
  have hWdJ : (2 : ℚ) ^ w / (2 : ℚ) ^ j ≤ 1 / 2 := by
    rw [div_le_iff₀ hJ]; linarith
  have hq1 : ((Nat.log 2 c : Nat) : Int) - (((binary32.prec : Nat) : Int) - 1) = -(w : Int) := by
    show ((Nat.log 2 c : Nat) : Int) - (((24 : Nat) : Int) - 1) = -(w : Int)
    omega
  have same : ∀ ε : ℚ, -(1 / (2 : ℚ) ^ j) ≤ ε → ε ≤ 1 / (2 : ℚ) ^ j →
      (2 : ℚ) ^ Nat.log 2 c ≤ (c : ℚ) + ε → (N : ℚ) / D = (c : ℚ) + ε →
      (roundTo binary32 N D).Is (c : ℚ) := by
    intro ε e1 e2 e3 hv'
    have hvpos : 0 < (c : ℚ) + ε := lt_of_lt_of_le ha e3
    have hεW : ε * (2 : ℚ) ^ w ≤ 1 / 2 ∧ -(1 / 2) ≤ ε * (2 : ℚ) ^ w := by
      have h1 : ε * (2 : ℚ) ^ w ≤ 1 / (2 : ℚ) ^ j * (2 : ℚ) ^ w :=
        mul_le_mul_of_nonneg_right e2 hW.le
      have h2 : -(1 / (2 : ℚ) ^ j) * (2 : ℚ) ^ w ≤ ε * (2 : ℚ) ^ w :=
        mul_le_mul_of_nonneg_right e1 hW.le
      have h3 : 1 / (2 : ℚ) ^ j * (2 : ℚ) ^ w = (2 : ℚ) ^ w / (2 : ℚ) ^ j := by
        field_simp
      constructor
      · linarith
      · linarith
    have hyv : |(c : ℚ) + ε| / (2 : ℚ) ^ (((Nat.log 2 c : Nat) : Int)
        - (((binary32.prec : Nat) : Int) - 1)) = ((c : ℚ) + ε) * (2 : ℚ) ^ w := by
      rw [hq1, zpow_neg, zpow_natCast, abs_of_pos hvpos, div_eq_mul_inv, inv_inv]
    have hMc : ((c * 2 ^ w : Nat) : ℚ) = (c : ℚ) * (2 : ℚ) ^ w := by push_cast; ring
    have hMeven : (c * 2 ^ w) % 2 = 0 := by
      obtain ⟨w', rfl⟩ : ∃ w', w = w' + 1 := ⟨w - 1, by omega⟩
      rw [Nat.pow_succ, ← Nat.mul_assoc]; exact Nat.mul_mod_left _ _
    have key := roundTo_is binary32 N D hD _ hv' (Nat.log 2 c) (c * 2 ^ w)
      (by rw [zpow_natCast, abs_of_pos hvpos]; exact e3)
      (by rw [show ((Nat.log 2 c : Nat) : Int) + 1 = ((Nat.log 2 c + 1 : Nat) : Int) by
            push_cast; ring, zpow_natCast, abs_of_pos hvpos, pow_succ]
          linarith)
      (by show (-126 : Int) ≤ _; omega) (by show _ < (127 : Int); omega)
      (by rw [hyv, hMc]; nlinarith [hεW.1, hεW.2])
      (by rw [hyv, hMc]; nlinarith [hεW.1, hεW.2])
      (Or.inr hMeven)
    rw [if_neg (not_lt.mpr hvpos.le), hq1, zpow_neg, zpow_natCast, hMc] at key
    have e : (1 : ℚ) * ((c : ℚ) * (2 : ℚ) ^ w * ((2 : ℚ) ^ w)⁻¹) = c := by
      field_simp
    rwa [e] at key
  rcases hδ with h | h
  · rw [h] at hv
    exact same (1 / (2 : ℚ) ^ j) (by linarith) (le_refl _) (by linarith) hv
  · rw [h, neg_div, ← sub_eq_add_neg] at hv
    by_cases hp : 2 ^ Nat.log 2 c < c
    · have qp : (2 : ℚ) ^ Nat.log 2 c + 1 ≤ c := by exact_mod_cast hp
      exact same (-(1 / (2 : ℚ) ^ j)) (le_refl _) (by linarith) (by linarith)
        (by rw [hv]; ring)
    · have hce : c = 2 ^ Nat.log 2 c := by omega
      have qce : (c : ℚ) = (2 : ℚ) ^ Nat.log 2 c := by exact_mod_cast hce
      have hlj2 : 25 ≤ Nat.log 2 c + j := by
        have h1 : 2 ^ 24 < c * 2 ^ j := by omega
        rw [hce, ← Nat.pow_add] at h1
        have := (Nat.pow_lt_pow_iff_right (by norm_num : 1 < 2)).mp h1
        omega
      have hWJ4 : 4 * 2 ^ w ≤ 2 ^ j := by
        have : 2 ^ (w + 2) ≤ 2 ^ j := Nat.pow_le_pow_right (by norm_num) (by omega)
        rw [Nat.pow_add] at this; omega
      have qWJ4 : 4 * (2 : ℚ) ^ w ≤ (2 : ℚ) ^ j := by exact_mod_cast hWJ4
      have ha1 : (1 : ℚ) ≤ (2 : ℚ) ^ Nat.log 2 c := by
        have : 1 ≤ 2 ^ Nat.log 2 c := Nat.one_le_two_pow
        exact_mod_cast this
      have hvpos : 0 < (c : ℚ) - 1 / (2 : ℚ) ^ j := by linarith
      have hq2 : ((Nat.log 2 c : Nat) : Int) - 1 - (((binary32.prec : Nat) : Int) - 1)
          = -((w + 1 : Nat) : Int) := by
        show ((Nat.log 2 c : Nat) : Int) - 1 - (((24 : Nat) : Int) - 1) = -((w + 1 : Nat) : Int)
        push_cast; omega
      have hWJ' : 2 * (2 : ℚ) ^ w / (2 : ℚ) ^ j ≤ 1 / 2 := by
        rw [div_le_iff₀ hJ]; linarith
      have hWJ0 : 0 ≤ 2 * (2 : ℚ) ^ w / (2 : ℚ) ^ j := by positivity
      have hyv : |(c : ℚ) - 1 / (2 : ℚ) ^ j| / (2 : ℚ) ^ (((Nat.log 2 c : Nat) : Int) - 1
          - (((binary32.prec : Nat) : Int) - 1))
          = 16777216 - 2 * (2 : ℚ) ^ w / (2 : ℚ) ^ j := by
        rw [hq2, zpow_neg, zpow_natCast, abs_of_pos hvpos, div_eq_mul_inv, inv_inv, qce,
          pow_succ]
        calc ((2 : ℚ) ^ Nat.log 2 c - 1 / (2 : ℚ) ^ j) * ((2 : ℚ) ^ w * 2)
            = 2 * ((2 : ℚ) ^ Nat.log 2 c * (2 : ℚ) ^ w) - 2 * (2 : ℚ) ^ w / (2 : ℚ) ^ j := by
              ring
          _ = 16777216 - 2 * (2 : ℚ) ^ w / (2 : ℚ) ^ j := by rw [qWa]; norm_num
      have key := roundTo_is binary32 N D hD _ hv ((Nat.log 2 c : Int) - 1) 16777216
        (by rw [abs_of_pos hvpos, zpow_sub_one₀ (by norm_num), zpow_natCast, qce]
            rw [← div_eq_mul_inv]; linarith)
        (by rw [abs_of_pos hvpos, sub_add_cancel, zpow_natCast, qce]; linarith)
        (by show (-126 : Int) ≤ _; omega) (by show _ < (127 : Int); omega)
        (by rw [hyv]; push_cast; linarith)
        (by rw [hyv]; push_cast; linarith)
        (Or.inr (by decide))
      rw [if_neg (not_lt.mpr hvpos.le), hq2, zpow_neg, zpow_natCast, pow_succ] at key
      have e : (1 : ℚ) * (((16777216 : Nat) : ℚ) * ((2 : ℚ) ^ w * 2)⁻¹) = c := by
        have h16 : ((16777216 : Nat) : ℚ) = 2 * ((2 : ℚ) ^ Nat.log 2 c * (2 : ℚ) ^ w) := by
          rw [qWa]; norm_num
        rw [qce, h16]; field_simp; ring
      rwa [e] at key

theorem sat_scale (s : Nat) (h1 : 1 ≤ s) (h2 : s ≤ 765) :
    ∃ j A : Nat, 16 ≤ j ∧ j ≤ 25 ∧ 8388608 ≤ A ∧ A < 16777216 ∧
      6 * A < 2 * (s * 2 ^ j) + 3 ∧ 2 * (s * 2 ^ j) + 3 < 6 * A + 6 ∧
      3 * 8388608 ≤ s * 2 ^ j ∧ s * 2 ^ j < 6 * 8388608 := by
  rcases (by omega : s = 1 ∨ s = 2 ∨ (3 ≤ s ∧ s < 6) ∨ (6 ≤ s ∧ s < 12) ∨
      (12 ≤ s ∧ s < 24) ∨ (24 ≤ s ∧ s < 48) ∨ (48 ≤ s ∧ s < 96) ∨ (96 ≤ s ∧ s < 192) ∨
      (192 ≤ s ∧ s < 384) ∨ (384 ≤ s ∧ s < 768)) with h | h | h | h | h | h | h | h | h | h
  · exact ⟨25, (2 * (s * 2 ^ 25) + 3) / 6, by norm_num, by norm_num,
      by norm_num; omega, by norm_num; omega, by norm_num; omega, by norm_num; omega,
      by norm_num; omega, by norm_num; omega⟩
  · exact ⟨24, (2 * (s * 2 ^ 24) + 3) / 6, by norm_num, by norm_num,
      by norm_num; omega, by norm_num; omega, by norm_num; omega, by norm_num; omega,
      by norm_num; omega, by norm_num; omega⟩
  · exact ⟨23, (2 * (s * 2 ^ 23) + 3) / 6, by norm_num, by norm_num,
      by norm_num; omega, by norm_num; omega, by norm_num; omega, by norm_num; omega,
      by norm_num; omega, by norm_num; omega⟩
  · exact ⟨22, (2 * (s * 2 ^ 22) + 3) / 6, by norm_num, by norm_num,
      by norm_num; omega, by norm_num; omega, by norm_num; omega, by norm_num; omega,
      by norm_num; omega, by norm_num; omega⟩
  · exact ⟨21, (2 * (s * 2 ^ 21) + 3) / 6, by norm_num, by norm_num,
      by norm_num; omega, by norm_num; omega, by norm_num; omega, by norm_num; omega,
      by norm_num; omega, by norm_num; omega⟩
  · exact ⟨20, (2 * (s * 2 ^ 20) + 3) / 6, by norm_num, by norm_num,
      by norm_num; omega, by norm_num; omega, by norm_num; omega, by norm_num; omega,
      by norm_num; omega, by norm_num; omega⟩
  · exact ⟨19, (2 * (s * 2 ^ 19) + 3) / 6, by norm_num, by norm_num,
      by norm_num; omega, by norm_num; omega, by norm_num; omega, by norm_num; omega,
      by norm_num; omega, by norm_num; omega⟩
  · exact ⟨18, (2 * (s * 2 ^ 18) + 3) / 6, by norm_num, by norm_num,
      by norm_num; omega, by norm_num; omega, by norm_num; omega, by norm_num; omega,
      by norm_num; omega, by norm_num; omega⟩
  · exact ⟨17, (2 * (s * 2 ^ 17) + 3) / 6, by norm_num, by norm_num,
      by norm_num; omega, by norm_num; omega, by norm_num; omega, by norm_num; omega,
      by norm_num; omega, by norm_num; omega⟩
  · exact ⟨16, (2 * (s * 2 ^ 16) + 3) / 6, by norm_num, by norm_num,
      by norm_num; omega, by norm_num; omega, by norm_num; omega, by norm_num; omega,
      by norm_num; omega, by norm_num; omega⟩

theorem satGray_sum (r g b : Nat) (hr : r < 256) (hg : g < 256) (hb : b < 256) :
    satGray r g b = Fl.div binary32 (i2f ((r + g + b : Nat) : Int)) (.fin 3 1) := by
  have e : wrap32 (wrap32 ((r : Int) + g) + b) = ((r + g + b : Nat) : Int) := by
    unfold wrap32; omega
  unfold satGray
  rw [e]

theorem satGray_is (r g b : Nat) (hr : r < 256) (hg : g < 256) (hb : b < 256) (j A : Nat)
    (hj : j ≤ 25) (h1 : 6 * A < 2 * ((r + g + b) * 2 ^ j) + 3)
    (h2 : 2 * ((r + g + b) * 2 ^ j) + 3 < 6 * A + 6)
    (h3 : 3 * 8388608 ≤ (r + g + b) * 2 ^ j) (h4 : (r + g + b) * 2 ^ j < 6 * 8388608) :
    (satGray r g b).Is ((A : ℚ) / (2 : ℚ) ^ j) := by
  rw [satGray_sum r g b hr hg hb]
  obtain ⟨N, D, hD, he, hv⟩ := div_is binary32 _ (.fin 3 1) _ 3
    (i2f_is ((r + g + b : Nat) : Int) (by omega) (by omega))
    ⟨3, 1, Nat.one_pos, rfl, by norm_num⟩ (by norm_num)
  rw [he]
  have hJ : (0 : ℚ) < (2 : ℚ) ^ j := by positivity
  have q1 : (6 : ℚ) * A < 2 * (((r + g + b : Nat) : ℚ) * (2 : ℚ) ^ j) + 3 := by
    exact_mod_cast h1
  have q2 : 2 * (((r + g + b : Nat) : ℚ) * (2 : ℚ) ^ j) + 3 < 6 * A + 6 := by
    exact_mod_cast h2
  have q3 : (3 : ℚ) * 8388608 ≤ ((r + g + b : Nat) : ℚ) * (2 : ℚ) ^ j := by
    exact_mod_cast h3
  have q4 : ((r + g + b : Nat) : ℚ) * (2 : ℚ) ^ j < 6 * 8388608 := by
    exact_mod_cast h4
  have hs : (0 : ℚ) < ((r + g + b : Nat) : ℚ) := by
    by_contra hcon
    have : ((r + g + b : Nat) : ℚ) = 0 := le_antisymm (not_lt.mp hcon) (Nat.cast_nonneg _)
    rw [this] at q3; norm_num at q3
  have hv' : (N : ℚ) / D = ((r + g + b : Nat) : ℚ) / 3 := by
    rw [hv]; push_cast; ring
  have hvpos : (0 : ℚ) < ((r + g + b : Nat) : ℚ) / 3 := by positivity
  have hq : (23 : Int) - (j : Int) - (((binary32.prec : Nat) : Int) - 1) = -(j : Int) := by
    show (23 : Int) - (j : Int) - (((24 : Nat) : Int) - 1) = -(j : Int)
    omega
  have hp : (2 : ℚ) ^ ((23 : Int) - (j : Int)) = 8388608 / (2 : ℚ) ^ j := by
    rw [zpow_sub₀ (by norm_num), zpow_natCast]; norm_num
  have hp1 : (2 : ℚ) ^ ((23 : Int) - (j : Int) + 1) = 16777216 / (2 : ℚ) ^ j := by
    rw [zpow_add_one₀ (by norm_num), hp]; ring
  have hyv : |((r + g + b : Nat) : ℚ) / 3| / (2 : ℚ) ^ ((23 : Int) - (j : Int)
      - (((binary32.prec : Nat) : Int) - 1)) = ((r + g + b : Nat) : ℚ) * (2 : ℚ) ^ j / 3 := by
    rw [hq, zpow_neg, zpow_natCast, abs_of_pos hvpos, div_eq_mul_inv, inv_inv]; ring
  have key := roundTo_is binary32 N D hD _ hv' ((23 : Int) - (j : Int)) A
    (by rw [hp, abs_of_pos hvpos, div_le_iff₀ hJ]; linarith)
    (by rw [hp1, abs_of_pos hvpos, lt_div_iff₀ hJ]; linarith)
    (by show (-126 : Int) ≤ _; omega) (by show _ < (127 : Int); omega)
    (by rw [hyv]; linarith) (by rw [hyv]; linarith)
    (Or.inl ⟨by rw [hyv]; linarith, by rw [hyv]; linarith⟩)
  rw [if_neg (not_lt.mpr hvpos.le), hq, zpow_neg, zpow_natCast] at key
  have e : (1 : ℚ) * ((A : ℚ) * ((2 : ℚ) ^ j)⁻¹) = (A : ℚ) / (2 : ℚ) ^ j := by
    rw [one_mul, div_eq_mul_inv]
  rwa [e] at key

theorem half_even (X : Nat) :
    ∃ M : Nat, 2 * M ≤ X + 1 ∧ X ≤ 2 * M + 1 ∧
      ((2 * M < X + 1 ∧ X < 2 * M + 1) ∨ M % 2 = 0) := by
  rcases (by omega : X % 4 = 0 ∨ X % 4 = 1 ∨ X % 4 = 2 ∨ X % 4 = 3) with h | h | h | h
  · exact ⟨X / 2, by omega, by omega, Or.inl (by omega)⟩
  · exact ⟨(X - 1) / 2, by omega, by omega, Or.inr (by omega)⟩
  · exact ⟨X / 2, by omega, by omega, Or.inl (by omega)⟩
  · exact ⟨(X + 1) / 2, by omega, by omega, Or.inr (by omega)⟩

theorem satVal_one (G : Fl) (A j c : Nat) (hG : G.Is ((A : ℚ) / (2 : ℚ) ^ j))
    (hj1 : 16 ≤ j) (hj : j ≤ 25) (hA1 : 8388608 ≤ A) (hA2 : A < 16777216) (hc : c < 256)
    (hX : c * 2 ^ j < A + 33554432) : (satVal G c (.fin 1 1)).Is (c : ℚ) := by
  have hJ : (0 : ℚ) < (2 : ℚ) ^ j := by positivity
  have hci := i2f_is (c : Int) (by omega) (by omega)
  have hci' : (i2f (c : Int)).Is (c : ℚ) := by simpa using hci
  unfold satVal
  obtain ⟨N1, D1, hD1, he1, hv1⟩ := sub_is binary32 _ G _ _ hci' hG
  rw [he1]
  by_cases hcase : c * 2 ^ j < A + 16777216
  · -- the difference is exact
    obtain ⟨K, hK⟩ : ∃ K : Nat, (K : Int) = |((c * 2 ^ j : Nat) : Int) - (A : Int)| :=
      ⟨(((c * 2 ^ j : Nat) : Int) - (A : Int)).natAbs, by simp⟩
    have hKle : K ≤ 16777216 := by
      have : (K : Int) ≤ 16777216 := by
        rw [hK, abs_le]; constructor <;> omega
      exact_mod_cast this
    have habs : |(c : ℚ) - (A : ℚ) / (2 : ℚ) ^ j| = (K : ℚ) / (2 : ℚ) ^ j := by
      have : ((K : Int) : ℚ) = |(((c * 2 ^ j : Nat) : Int) : ℚ) - ((A : Int) : ℚ)| := by
        rw [hK]; push_cast; rfl
      have e : (c : ℚ) - (A : ℚ) / (2 : ℚ) ^ j = ((c : ℚ) * (2 : ℚ) ^ j - A) / (2 : ℚ) ^ j := by
        field_simp
      rw [e, abs_div, abs_of_pos hJ]
      congr 1
      push_cast at this
      rw [this]
    have t1 := round32_scaled N1 D1 hD1 _ hv1 K j hKle (by omega) habs
    obtain ⟨N2, D2, hD2, he2, hv2⟩ := mul_is binary32 _ (.fin 1 1) _ 1 t1
      ⟨1, 1, Nat.one_pos, rfl, by norm_num⟩
    rw [he2]
    rw [mul_one] at hv2
    have t2 := round32_scaled N2 D2 hD2 _ hv2 K j hKle (by omega) habs
    obtain ⟨N3, D3, hD3, he3, hv3⟩ := add_is binary32 G _ _ _ hG t2
    rw [he3]
    have := round32_int N3 D3 hD3 (c : Int) (by rw [hv3]; push_cast; ring) (by omega) (by omega)
    simpa using this
  · -- the difference is rounded to 24 bits
    obtain ⟨X, hXe⟩ : ∃ X : Nat, c * 2 ^ j = A + X := ⟨c * 2 ^ j - A, by omega⟩
    have hX1 : 16777216 ≤ X := by omega
    have hX2 : X < 33554432 := by omega
    obtain ⟨M, hM1, hM2, hMt⟩ := half_even X
    have qXe : (c : ℚ) * (2 : ℚ) ^ j = A + X := by exact_mod_cast hXe
    have hv1' : (N1 : ℚ) / D1 = (X : ℚ) / (2 : ℚ) ^ j := by
      rw [hv1]; field_simp; linarith
    have qX1 : (16777216 : ℚ) ≤ X := by exact_mod_cast hX1
    have qX2 : (X : ℚ) < 33554432 := by exact_mod_cast hX2
    have qM1 : 2 * (M : ℚ) ≤ X + 1 := by exact_mod_cast hM1
    have qM2 : (X : ℚ) ≤ 2 * M + 1 := by exact_mod_cast hM2
    have hvpos : (0 : ℚ) < (X : ℚ) / (2 : ℚ) ^ j := by positivity
    have hq : (24 : Int) - (j : Int) - (((binary32.prec : Nat) : Int) - 1) = 1 - (j : Int) := by
      show (24 : Int) - (j : Int) - (((24 : Nat) : Int) - 1) = 1 - (j : Int)
      omega
    have hp : (2 : ℚ) ^ ((24 : Int) - (j : Int)) = 16777216 / (2 : ℚ) ^ j := by
      rw [zpow_sub₀ (by norm_num), zpow_natCast]; norm_num
    have hp1 : (2 : ℚ) ^ ((24 : Int) - (j : Int) + 1) = 33554432 / (2 : ℚ) ^ j := by
      rw [zpow_add_one₀ (by norm_num), hp]; ring
    have hpq : (2 : ℚ) ^ ((1 : Int) - (j : Int)) = 2 / (2 : ℚ) ^ j := by
      rw [zpow_sub₀ (by norm_num), zpow_natCast]; norm_num
    have hyv : |(X : ℚ) / (2 : ℚ) ^ j| / (2 : ℚ) ^ ((24 : Int) - (j : Int)
        - (((binary32.prec : Nat) : Int) - 1)) = (X : ℚ) / 2 := by
      rw [hq, hpq, abs_of_pos hvpos]; field_simp
    have htie : ((M : ℚ) - 1 / 2 < (X : ℚ) / 2 ∧ (X : ℚ) / 2 < (M : ℚ) + 1 / 2) ∨ M % 2 = 0 := by
      rcases hMt with ⟨a, b⟩ | h
      · left
        have qa : 2 * (M : ℚ) < X + 1 := by exact_mod_cast a
        have qb : (X : ℚ) < 2 * M + 1 := by exact_mod_cast b
        constructor <;> linarith
      · right; exact h
    have t1 := roundTo_is binary32 N1 D1 hD1 _ hv1' ((24 : Int) - (j : Int)) M
      (by rw [hp, abs_of_pos hvpos]; exact div_le_div_of_nonneg_right qX1 hJ.le)
      (by rw [hp1, abs_of_pos hvpos]; exact div_lt_div_of_pos_right qX2 hJ)
      (by show (-126 : Int) ≤ _; omega) (by show _ < (127 : Int); omega)
      (by rw [hyv]; linarith) (by rw [hyv]; linarith)
      (by rw [hyv]; exact htie)
    rw [if_neg (not_lt.mpr hvpos.le), hq, hpq, one_mul] at t1
    obtain ⟨N2, D2, hD2, he2, hv2⟩ := mul_is binary32 _ (.fin 1 1) _ 1 t1
      ⟨1, 1, Nat.one_pos, rfl, by norm_num⟩
    rw [he2]
    rw [mul_one] at hv2
    obtain ⟨j', hj'⟩ : ∃ j', j = j' + 1 := ⟨j - 1, by omega⟩
    have hMle : M ≤ 16777216 := by omega
    have habs2 : |(M : ℚ) * (2 / (2 : ℚ) ^ j)| = (M : ℚ) / (2 : ℚ) ^ j' := by
      rw [abs_of_nonneg (by positivity), hj', pow_succ]; field_simp; ring
    have t2 := round32_scaled N2 D2 hD2 _ hv2 M j' hMle (by omega) habs2
    obtain ⟨N3, D3, hD3, he3, hv3⟩ := add_is binary32 G _ _ _ hG t2
    rw [he3]
    have hsum : (A : ℚ) / (2 : ℚ) ^ j + (M : ℚ) * (2 / (2 : ℚ) ^ j)
        = (c : ℚ) + (2 * (M : ℚ) - X) / (2 : ℚ) ^ j := by
      field_simp; linarith
    rw [hsum] at hv3
    rcases (by omega : 2 * M = X ∨ 2 * M = X + 1 ∨ 2 * M + 1 = X) with h | h | h
    · have qh : 2 * (M : ℚ) = X := by exact_mod_cast h
      have := round32_int N3 D3 hD3 (c : Int) (by rw [hv3, qh]; simp) (by omega) (by omega)
      simpa using this
    · have qh : 2 * (M : ℚ) = X + 1 := by exact_mod_cast h
      exact round32_near_int N3 D3 hD3 c j hc (by omega) (by omega) 1 (Or.inl rfl)
        (by rw [hv3, qh]; ring)
    · have qh : 2 * (M : ℚ) + 1 = X := by exact_mod_cast h
      exact round32_near_int N3 D3 hD3 c j hc (by omega) (by omega) (-1) (Or.inr rfl)
        (by rw [hv3, ← qh]; ring)

theorem satVal_one_zero (G : Fl) (hG : G.Is ((0 : Int) : ℚ)) :
    (satVal G 0 (.fin 1 1)).Is (((0 : Nat) : Int) : ℚ) := by
  unfold satVal
  have h1 := sub32_int _ _ 0 0 (i2f_is ((0 : Nat) : Int) (by decide) (by decide)) hG
    (by decide) (by decide)
  have h2 := mul32_int _ _ _ 1 h1 is_one (by decide) (by decide)
  exact add32_int _ _ 0 _ hG h2 (by decide) (by decide)

theorem satGray_zero : (satGray 0 0 0).Is ((0 : Int) : ℚ) := by
  rw [satGray_sum 0 0 0 (by decide) (by decide) (by decide)]
  obtain ⟨N, D, hD, he, hv⟩ := div_is binary32 _ (.fin 3 1) _ 3
    (i2f_is ((0 + 0 + 0 : Nat) : Int) (by decide) (by decide))
    ⟨3, 1, Nat.one_pos, rfl, by norm_num⟩ (by norm_num)
  rw [he]
  exact round32_int N D hD 0 (by rw [hv]; simp) (by decide) (by decide)

theorem saturationP_one (ub : Fl → Int) (r g b : Nat) (hr : r < 256) (hg : g < 256)
    (hb : b < 256) : saturationP ub (.fin 1 1) r g b = (r, g, b) := by
  unfold saturationP
  rcases Nat.eq_zero_or_pos (r + g + b) with h0 | hpos
  · obtain ⟨rfl, rfl, rfl⟩ : r = 0 ∧ g = 0 ∧ b = 0 := by omega
    rw [clamp_toInt ub _ 0 (by decide) (satVal_one_zero _ satGray_zero)]
  · obtain ⟨j, A, hj1, hj2, hA1, hA2, h1, h2, h3, h4⟩ := sat_scale (r + g + b) hpos (by omega)
    have hG := satGray_is r g b hr hg hb j A hj2 h1 h2 h3 h4
    have key : ∀ c : Nat, c < 256 → c ≤ r + g + b →
        clamp (Fl.toInt ub (satVal (satGray r g b) c (.fin 1 1))) = c := by
      intro c hc hcs
      have hC : c * 2 ^ j ≤ (r + g + b) * 2 ^ j := Nat.mul_le_mul_right _ hcs
      have := satVal_one _ A j c hG hj1 hj2 hA1 hA2 hc (by omega)
      exact clamp_toInt ub _ c hc (by simpa using this)
    rw [key r hr (by omega), key g hg (by omega), key b hb (by omega)]

/-! ## Concatenation and composition of runs -/

theorem mapRGB_append (P : Nat → Nat → Nat → Nat × Nat × Nat) (a b : List Nat) :
    a.length % 4 = 0 → mapRGB P (a ++ b) = mapRGB P a ++ mapRGB P b := by
  induction a using quad_induction with
  | h0 l h =>
    intro h4
    have : l = [] := List.length_eq_zero.mp (by omega)
    subst this
    simp [mapRGB]
  | h4 r g bb al rest ih =>
    intro h4
    have := ih (by simp at h4; omega)
    simp [mapRGB, this]

theorem run_full (P : Nat → Nat → Nat → Nat × Nat × Nat) (d : List Nat)
    (res : Option (List Nat))
    (h : res = some (mapRGB P (d.take d.length) ++ d.drop d.length)) :
    res = some (mapRGB P d) := by
  simpa using h

theorem pixelLocal_of_run (run : List Nat → Option (List Nat))
    (P : Nat → Nat → Nat → Nat × Nat × Nat)
    (h : ∀ d : List Nat, d.length % 4 = 0 →
      run d = some (mapRGB P (d.take d.length) ++ d.drop d.length))
    (a b : List Nat) (ha : a.length % 4 = 0) (hb : b.length % 4 = 0) :
    PixelLocal run a b := by
  refine ⟨mapRGB P a, mapRGB P b, run_full P a _ (h a ha), run_full P b _ (h b hb), ?_⟩
  rw [run_full P (a ++ b) _ (h (a ++ b) (by simp; omega)), mapRGB_append P a b ha]

theorem mapRGB_comp (P Q : Nat → Nat → Nat → Nat × Nat × Nat) (l : List Nat) :
    mapRGB Q (mapRGB P l)
      = mapRGB (fun r g b => Q (P r g b).1 (P r g b).2.1 (P r g b).2.2) l := by
  induction l using quad_induction with
  | h0 l h => rw [mapRGB_short P l h, mapRGB_short Q l h, mapRGB_short _ l h]
  | h4 r g b a rest ih => simp [mapRGB, ih]

theorem run_take_drop (P : Nat → Nat → Nat → Nat × Nat × Nat) (d : List Nat) (n : Nat)
    (hn : n ≤ d.length) :
    (mapRGB P (d.take n) ++ d.drop n).take n = mapRGB P (d.take n) ∧
    (mapRGB P (d.take n) ++ d.drop n).drop n = d.drop n ∧
    n ≤ (mapRGB P (d.take n) ++ d.drop n).length := by
  have hl : (mapRGB P (d.take n)).length = n := by rw [mapRGB_length]; simp; omega
  refine ⟨?_, ?_, ?_⟩
  · rw [List.take_append_of_le_length (by omega), List.take_of_length_le (by omega)]
  · rw [List.drop_append_of_le_length (by omega), List.drop_of_length_le (by omega)]
    simp
  · simp [hl]

/-! ## Rounding: inexact results stay within bounds -/

theorem rne_spec (N D : Nat) (hD : 0 < D) :
    2 * (rne N D * D) ≤ 2 * N + D ∧ 2 * N ≤ 2 * (rne N D * D) + D ∧
    ((2 * (rne N D * D) < 2 * N + D ∧ 2 * N < 2 * (rne N D * D) + D) ∨ rne N D % 2 = 0) := by
  have hq : N / D * D + N % D = N := by rw [Nat.mul_comm]; exact Nat.div_add_mod N D
  have hr := Nat.mod_lt N hD
  have e1 : (N / D + 1) * D = N / D * D + D := by rw [Nat.add_mul]; simp
  unfold rne
  simp only []
  split
  · refine ⟨by omega, by omega, Or.inl ⟨by omega, by omega⟩⟩
  · split
    · rw [e1]; refine ⟨by omega, by omega, Or.inl ⟨by omega, by omega⟩⟩
    · split
      · rename_i h; refine ⟨by omega, by omega, Or.inr h⟩
      · rw [e1]; refine ⟨by omega, by omega, Or.inr (by omega)⟩

theorem exists_near (y : ℚ) (hy : 0 ≤ y) :
    ∃ M : Nat, (M : ℚ) - 1 / 2 ≤ y ∧ y ≤ (M : ℚ) + 1 / 2 ∧
      (((M : ℚ) - 1 / 2 < y ∧ y < (M : ℚ) + 1 / 2) ∨ M % 2 = 0) := by
  have hden : 0 < y.den := y.den_pos
  have hdq : (0 : ℚ) < y.den := by exact_mod_cast hden
  have hnum : 0 ≤ y.num := Rat.num_nonneg.mpr hy
  obtain ⟨a, b, c⟩ := rne_spec y.num.natAbs y.den hden
  have hN : (y.num.natAbs : ℚ) = y * y.den := by
    rw [Nat.cast_natAbs, Int.cast_abs, abs_of_nonneg (by exact_mod_cast hnum),
      Rat.mul_den_eq_num]
  have qa : 2 * ((rne y.num.natAbs y.den : ℚ) * y.den) ≤ 2 * (y.num.natAbs : ℚ) + y.den := by
    exact_mod_cast a
  have qb : 2 * (y.num.natAbs : ℚ) ≤ 2 * ((rne y.num.natAbs y.den : ℚ) * y.den) + y.den := by
    exact_mod_cast b
  rw [hN] at qa qb
  refine ⟨rne y.num.natAbs y.den, ?_, ?_, ?_⟩
  · by_contra hcon
    push_neg at hcon
    nlinarith
  · by_contra hcon
    push_neg at hcon
    nlinarith
  · rcases c with ⟨c1, c2⟩ | c
    · left
      have qc1 : 2 * ((rne y.num.natAbs y.den : ℚ) * y.den) < 2 * (y.num.natAbs : ℚ) + y.den := by
        exact_mod_cast c1
      have qc2 : 2 * (y.num.natAbs : ℚ) < 2 * ((rne y.num.natAbs y.den : ℚ) * y.den) + y.den := by
        exact_mod_cast c2
      rw [hN] at qc1 qc2
      constructor
      · by_contra hcon
        push_neg at hcon
        nlinarith
      · by_contra hcon
        push_neg at hcon
        nlinarith
    · right; exact c

theorem exists_log2 (v : ℚ) (hv : 0 < v) :
    ∃ e : Int, (2 : ℚ) ^ e ≤ v ∧ v < (2 : ℚ) ^ (e + 1) := by
  refine ⟨Int.log 2 v, ?_, ?_⟩
  · have := Int.zpow_log_le_self (b := 2) (by norm_num) hv
    simpa using this
  · have := Int.lt_zpow_succ_log_self (b := 2) (by norm_num) v
    simpa using this

theorem roundTo_near (f : Fmt) (N : Int) (D : Nat) (hD : 0 < D) (v : ℚ)
    (hv : (N : ℚ) / D = v) (e : Int)
    (h1 : (2 : ℚ) ^ e ≤ |v|) (h2 : |v| < (2 : ℚ) ^ (e + 1))
    (hmin : f.emin ≤ e) (hmax : e < f.emax) :
    ∃ M : Nat,
      (roundTo f N D).Is
        ((if v < 0 then -1 else 1) * ((M : ℚ) * (2 : ℚ) ^ (e - ((f.prec : Int) - 1)))) ∧
      (M : ℚ) - 1 / 2 ≤ |v| / (2 : ℚ) ^ (e - ((f.prec : Int) - 1)) ∧
      |v| / (2 : ℚ) ^ (e - ((f.prec : Int) - 1)) ≤ (M : ℚ) + 1 / 2 := by
  obtain ⟨M, a, b, c⟩ := exists_near (|v| / (2 : ℚ) ^ (e - ((f.prec : Int) - 1)))
    (div_nonneg (abs_nonneg v) (two_zpow_pos _).le)
  exact ⟨M, roundTo_is f N D hD v hv e M h1 h2 hmin hmax a b c, a, b⟩

theorem roundTo_finite (f : Fmt) (hf : f.emin < f.emax) (N : Int) (D : Nat) (hD : 0 < D)
    (k : Int) (hk : |(N : ℚ) / D| < (2 : ℚ) ^ k) (hke : k ≤ f.emax) :
    ∃ u : ℚ, (roundTo f N D).Is u := by
  by_cases hN : N = 0
  · rw [hN, roundTo_zero]; exact ⟨0, 0, 1, Nat.one_pos, rfl, by simp⟩
  · have hDq : (0 : ℚ) < D := by exact_mod_cast hD
    have hpos : 0 < N.natAbs := Int.natAbs_pos.mpr hN
    have habs : |(N : ℚ) / D| = (N.natAbs : ℚ) / D := by
      rw [abs_div, abs_of_pos hDq, Nat.cast_natAbs, Int.cast_abs]
    have hvpos : (0 : ℚ) < (N.natAbs : ℚ) / D := by
      have : (0 : ℚ) < N.natAbs := by exact_mod_cast hpos
      positivity
    obtain ⟨e, e1, e2⟩ := exists_log2 _ hvpos
    have hek : e < k := by
      rw [habs] at hk
      exact (zpow_lt_zpow_iff_right₀ (by norm_num : (1 : ℚ) < 2)).mp (lt_of_le_of_lt e1 hk)
    unfold roundTo
    exact roundMag_finite f _ N.natAbs D hpos hD e
      (by rwa [le_div_iff₀ hDq] at e1) (by rwa [div_lt_iff₀ hDq] at e2) hf (by omega)

theorem le_of_near_le (M K : Nat) (y : ℚ) (h : (M : ℚ) - 1 / 2 ≤ y) (hy : y ≤ K) : M ≤ K := by
  by_contra hcon
  have : K + 1 ≤ M := by omega
  have : ((K : ℚ) + 1) ≤ M := by exact_mod_cast this
  linarith

theorem ge_of_near_ge (M K : Nat) (y : ℚ) (h : y ≤ (M : ℚ) + 1 / 2) (hy : (K : ℚ) ≤ y) :
    K ≤ M := by
  by_contra hcon
  have : M + 1 ≤ K := by omega
  have : ((M : ℚ) + 1) ≤ K := by exact_mod_cast this
  linarith

theorem roundTo_bounded (f : Fmt) (N : Int) (D : Nat) (hD : 0 < D) (v : ℚ)
    (hv : (N : ℚ) / D = v) (lo hi : Int) (hlo : (2 : ℚ) ^ lo ≤ v) (hhi : v ≤ (2 : ℚ) ^ hi)
    (hmin : f.emin ≤ lo) (hmax : hi < f.emax) (hp : 1 ≤ f.prec) :
    ∃ u : ℚ, (roundTo f N D).Is u ∧ (2 : ℚ) ^ lo ≤ u ∧ u ≤ (2 : ℚ) ^ hi := by
  have h21 : (1 : ℚ) < 2 := by norm_num
  have h2ne : (2 : ℚ) ≠ 0 := by norm_num
  have hvpos : 0 < v := lt_of_lt_of_le (two_zpow_pos lo) hlo
  obtain ⟨e, e1, e2⟩ := exists_log2 v hvpos
  have hle : lo ≤ e := by
    have := (zpow_lt_zpow_iff_right₀ h21).mp (lt_of_le_of_lt hlo e2)
    omega
  have heh : e ≤ hi := (zpow_le_zpow_iff_right₀ h21).mp (le_trans e1 hhi)
  obtain ⟨M, hM, a, b⟩ := roundTo_near f N D hD v hv e (by rwa [abs_of_pos hvpos])
    (by rwa [abs_of_pos hvpos]) (by omega) (by omega)
  rw [abs_of_pos hvpos] at a b
  rw [if_neg (not_lt.mpr hvpos.le), one_mul] at hM
  obtain ⟨p1, hp1⟩ : ∃ p1 : Nat, f.prec = p1 + 1 := ⟨f.prec - 1, by omega⟩
  obtain ⟨w, hw⟩ : ∃ w : Nat, hi = e + (w : Int) := ⟨(hi - e).toNat, by omega⟩
  have hq : (2 : ℚ) ^ (e - ((f.prec : Int) - 1)) = (2 : ℚ) ^ e / (2 : ℚ) ^ p1 := by
    rw [hp1, show e - (((p1 + 1 : Nat) : Int) - 1) = e - (p1 : Int) by push_cast; ring,
      zpow_sub₀ h2ne, zpow_natCast]
  have hE := two_zpow_pos e
  have hP : (0 : ℚ) < (2 : ℚ) ^ p1 := by positivity
  have hW : (0 : ℚ) < (2 : ℚ) ^ w := by positivity
  have hy : v / ((2 : ℚ) ^ e / (2 : ℚ) ^ p1) = v * (2 : ℚ) ^ p1 / (2 : ℚ) ^ e := by
    field_simp
  rw [hq, hy] at a b
  rw [hq] at hM
  have hhi' : v ≤ (2 : ℚ) ^ e * (2 : ℚ) ^ w := by
    rw [hw, zpow_add₀ h2ne, zpow_natCast] at hhi; exact hhi
  -- the mantissa lies between 2^p1 and 2^p1 * 2^w
  have hMlo : 2 ^ p1 ≤ M := by
    apply ge_of_near_ge M (2 ^ p1) _ b
    rw [le_div_iff₀ hE]; push_cast
    nlinarith
  have hMhi : M ≤ 2 ^ p1 * 2 ^ w := by
    apply le_of_near_le M (2 ^ p1 * 2 ^ w) _ a
    rw [div_le_iff₀ hE]; push_cast
    nlinarith
  have qlo : ((2 : ℚ) ^ p1) ≤ M := by exact_mod_cast hMlo
  have qhi : (M : ℚ) ≤ (2 : ℚ) ^ p1 * (2 : ℚ) ^ w := by exact_mod_cast hMhi
  refine ⟨_, hM, ?_, ?_⟩
  · calc (2 : ℚ) ^ lo ≤ (2 : ℚ) ^ e := (zpow_le_zpow_iff_right₀ h21).mpr hle
      _ = (2 : ℚ) ^ p1 * ((2 : ℚ) ^ e / (2 : ℚ) ^ p1) := by field_simp
      _ ≤ (M : ℚ) * ((2 : ℚ) ^ e / (2 : ℚ) ^ p1) :=
          mul_le_mul_of_nonneg_right qlo (by positivity)
  · calc (M : ℚ) * ((2 : ℚ) ^ e / (2 : ℚ) ^ p1)
        ≤ ((2 : ℚ) ^ p1 * (2 : ℚ) ^ w) * ((2 : ℚ) ^ e / (2 : ℚ) ^ p1) :=
          mul_le_mul_of_nonneg_right qhi (by positivity)
      _ = (2 : ℚ) ^ e * (2 : ℚ) ^ w := by field_simp; ring
      _ = (2 : ℚ) ^ hi := by rw [hw, zpow_add₀ h2ne, zpow_natCast]

theorem toInt?_floor (x : Fl) (v : ℚ) (hx : x.Is v) (h0 : 0 ≤ v) (h1 : v < 2147483648) :
    x.toInt? = some ((⌊v⌋₊ : Nat) : Int) := by
  obtain ⟨a, b, hb, rfl, hv⟩ := hx
  have hbq : (0 : ℚ) < b := by exact_mod_cast hb
  have ha : 0 ≤ a := by
    have : (0 : ℚ) ≤ a := by
      rw [← hv] at h0
      by_contra hcon
      push_neg at hcon
      have := div_neg_of_neg_of_pos hcon hbq
      linarith
    exact_mod_cast this
  obtain ⟨m, rfl⟩ := Int.eq_ofNat_of_zero_le ha
  have hfl : ⌊v⌋₊ = m / b := by
    rw [← hv]
    have : (((m : Int) : ℚ) / (b : ℚ)) = ((m : ℚ) / (b : ℚ)) := by push_cast; rfl
    rw [this, Nat.floor_div_eq_div]
  have htr : Fl.trunc (m : Int) b = ((m / b : Nat) : Int) := by
    unfold Fl.trunc
    rw [if_pos (by omega), Int.toNat_ofNat]
  have hle : ((⌊v⌋₊ : Nat) : ℚ) ≤ v := Nat.floor_le h0
  have hlt : ⌊v⌋₊ < 2147483648 := by
    have : ((⌊v⌋₊ : Nat) : ℚ) < 2147483648 := lt_of_le_of_lt hle h1
    exact_mod_cast this
  simp only [Fl.toInt?]
  rw [htr, ← hfl, if_pos ⟨by omega, by omega⟩]

theorem toInt_floor (ub : Fl → Int) (x : Fl) (v : ℚ) (hx : x.Is v) (h0 : 0 ≤ v)
    (h1 : v < 2147483648) : x.toInt ub = ((⌊v⌋₊ : Nat) : Int) := by
  unfold Fl.toInt
  rw [toInt?_floor x v hx h0 h1]

/-! ## saturation with factor 0 -/

theorem mean_div (A J s : Nat) (hJ : 2 ≤ J) (h1 : 6 * A < 2 * (s * J) + 3)
    (h2 : 2 * (s * J) + 3 < 6 * A + 6) : A / J = s / 3 := by
  have hs : s * J = 3 * (s / 3 * J) + s % 3 * J := by
    have := Nat.div_add_mod s 3
    calc s * J = (3 * (s / 3) + s % 3) * J := by rw [this]
      _ = 3 * (s / 3 * J) + s % 3 * J := by ring
  have hk : (s / 3 + 1) * J = s / 3 * J + J := by ring
  apply Nat.div_eq_of_lt_le
  · rcases (by omega : s % 3 = 0 ∨ s % 3 = 1 ∨ s % 3 = 2) with h | h | h <;>
      rw [h] at hs <;> omega
  · rw [hk]
    rcases (by omega : s % 3 = 0 ∨ s % 3 = 1 ∨ s % 3 = 2) with h | h | h <;>
      rw [h] at hs <;> omega

theorem satVal_zero (G : Fl) (A j c : Nat) (hG : G.Is ((A : ℚ) / (2 : ℚ) ^ j))
    (hj : j ≤ 25) (hA : A ≤ 16777216) (hAJ : A ≤ 256 * 2 ^ j) (hc : c < 256) :
    (satVal G c (.fin 0 1)).Is ((A : ℚ) / (2 : ℚ) ^ j) := by
  have hJ : (0 : ℚ) < (2 : ℚ) ^ j := by positivity
  have hci : (i2f (c : Int)).Is (c : ℚ) := by
    simpa using i2f_is (c : Int) (by omega) (by omega)
  have qAJ : (A : ℚ) ≤ 256 * (2 : ℚ) ^ j := by exact_mod_cast hAJ
  have hGle : (A : ℚ) / (2 : ℚ) ^ j ≤ 256 := by rw [div_le_iff₀ hJ]; exact qAJ
  have hG0 : (0 : ℚ) ≤ (A : ℚ) / (2 : ℚ) ^ j := by positivity
  have hcq : (c : ℚ) < 256 := by exact_mod_cast hc
  have hc0 : (0 : ℚ) ≤ c := Nat.cast_nonneg c
  unfold satVal
  obtain ⟨N1, D1, hD1, he1, hv1⟩ := sub_is binary32 _ G _ _ hci hG
  obtain ⟨u, hu⟩ := roundTo_finite binary32 (by decide) N1 D1 hD1 9
    (by rw [hv1, abs_lt]; constructor <;> norm_num <;> linarith) (by decide)
  rw [he1]
  have h0 := mul32_zero _ u hu
  obtain ⟨N3, D3, hD3, he3, hv3⟩ := add_is binary32 G _ _ _ hG h0
  rw [he3]
  have hv3' : (N3 : ℚ) / D3 = (A : ℚ) / (2 : ℚ) ^ j := by rw [hv3]; simp
  exact round32_scaled N3 D3 hD3 _ hv3' A j hA (by omega) (abs_of_nonneg hG0)

theorem sat_floor (ub : Fl → Int) (x : Fl) (A j m : Nat) (hx : x.Is ((A : ℚ) / (2 : ℚ) ^ j))
    (hA : A ≤ 16777216) (hm : A / 2 ^ j = m) (hm2 : m < 256) :
    clamp (x.toInt ub) = m := by
  have hJ : (0 : ℚ) < (2 : ℚ) ^ j := by positivity
  have h0 : (0 : ℚ) ≤ (A : ℚ) / (2 : ℚ) ^ j := by positivity
  have h1 : (A : ℚ) / (2 : ℚ) ^ j < 2147483648 := by
    have : (A : ℚ) ≤ 16777216 := by exact_mod_cast hA
    have h2 : (1 : ℚ) ≤ (2 : ℚ) ^ j := one_le_pow₀ (by norm_num)
    rw [div_lt_iff₀ hJ]
    nlinarith
  have hfl : ⌊(A : ℚ) / (2 : ℚ) ^ j⌋₊ = A / 2 ^ j := by
    have : ((2 : ℚ) ^ j) = ((2 ^ j : Nat) : ℚ) := by push_cast; rfl
    rw [this, Nat.floor_div_eq_div]
  rw [toInt_floor ub x _ hx h0 h1, hfl, hm, clamp_byte _ (by omega) (by omega)]
  simp

theorem saturationP_zero (ub : Fl → Int) (r g b : Nat) (hr : r < 256) (hg : g < 256)
    (hb : b < 256) :
    saturationP ub (.fin 0 1) r g b = ((r + g + b) / 3, (r + g + b) / 3, (r + g + b) / 3) := by
  unfold saturationP
  rcases Nat.eq_zero_or_pos (r + g + b) with h0 | hpos
  · obtain ⟨rfl, rfl, rfl⟩ : r = 0 ∧ g = 0 ∧ b = 0 := by omega
    have hG : (satGray 0 0 0).Is (((0 : Nat) : ℚ) / (2 : ℚ) ^ 0) := by
      simpa using satGray_zero
    have h := satVal_zero _ 0 0 0 hG (by decide) (by decide) (by decide) (by decide)
    rw [sat_floor ub _ 0 0 0 h (by decide) (by decide) (by decide)]
  · obtain ⟨j, A, hj1, hj2, hA1, hA2, h1, h2, h3, h4⟩ := sat_scale (r + g + b) hpos (by omega)
    have hG := satGray_is r g b hr hg hb j A hj2 h1 h2 h3 h4
    have hJ2 : 2 ≤ 2 ^ j := by
      calc 2 = 2 ^ 1 := by norm_num
        _ ≤ 2 ^ j := Nat.pow_le_pow_right (by norm_num) (by omega)
    have hm := mean_div A (2 ^ j) (r + g + b) hJ2 h1 h2
    have hAJ : A ≤ 256 * 2 ^ j := by
      have : (r + g + b) * 2 ^ j ≤ 765 * 2 ^ j := Nat.mul_le_mul_right _ (by omega)
      omega
    have key : ∀ c : Nat, c < 256 →
        clamp (Fl.toInt ub (satVal (satGray r g b) c (.fin 0 1))) = (r + g + b) / 3 := by
      intro c hc
      exact sat_floor ub _ A j _ (satVal_zero _ A j c hG hj2 (by omega) hAJ hc) (by omega) hm
        (by omega)
    rw [key r hr, key g hg, key b hb]

theorem mapRGB_congr (P Q : Nat → Nat → Nat → Nat × Nat × Nat)
    (hPQ : ∀ r g b : Nat, r < 256 → g < 256 → b < 256 → P r g b = Q r g b)
    (l : List Nat) : IsBytes l → mapRGB P l = mapRGB Q l := by
  induction l using quad_induction with
  | h0 l h => intro _; rw [mapRGB_short P l h, mapRGB_short Q l h]
  | h4 r g b a rest ih =>
    intro hb
    have hrest : IsBytes rest := fun x hx => hb x (by simp [hx])
    simp [mapRGB, hPQ r g b (hb r (by simp)) (hb g (by simp)) (hb b (by simp)), ih hrest]

theorem satGray_trunc (ub : Fl → Int) (r g b : Nat) (hr : r < 256) (hg : g < 256)
    (hb : b < 256) : Fl.toInt ub (satGray r g b) = (((r + g + b) / 3 : Nat) : Int) := by
  have key : ∀ (A j : Nat), (satGray r g b).Is ((A : ℚ) / (2 : ℚ) ^ j) → A ≤ 16777216 →
      A / 2 ^ j = (r + g + b) / 3 →
      Fl.toInt ub (satGray r g b) = (((r + g + b) / 3 : Nat) : Int) := by
    intro A j hx hA hm
    have hJ : (0 : ℚ) < (2 : ℚ) ^ j := by positivity
    have h0 : (0 : ℚ) ≤ (A : ℚ) / (2 : ℚ) ^ j := by positivity
    have h1 : (A : ℚ) / (2 : ℚ) ^ j < 2147483648 := by
      have : (A : ℚ) ≤ 16777216 := by exact_mod_cast hA
      have h2 : (1 : ℚ) ≤ (2 : ℚ) ^ j := one_le_pow₀ (by norm_num)
      rw [div_lt_iff₀ hJ]
      nlinarith
    have hfl : ⌊(A : ℚ) / (2 : ℚ) ^ j⌋₊ = A / 2 ^ j := by
      have : ((2 : ℚ) ^ j) = ((2 ^ j : Nat) : ℚ) := by push_cast; rfl
      rw [this, Nat.floor_div_eq_div]
    rw [toInt_floor ub _ _ hx h0 h1, hfl, hm]
  rcases Nat.eq_zero_or_pos (r + g + b) with h0 | hpos
  · obtain ⟨rfl, rfl, rfl⟩ : r = 0 ∧ g = 0 ∧ b = 0 := by omega
    exact key 0 0 (by simpa using satGray_zero) (by decide) (by decide)
  · obtain ⟨j, A, hj1, hj2, hA1, hA2, h1, h2, h3, h4⟩ := sat_scale (r + g + b) hpos (by omega)
    have hJ2 : 2 ≤ 2 ^ j := by
      calc 2 = 2 ^ 1 := by norm_num
        _ ≤ 2 ^ j := Nat.pow_le_pow_right (by norm_num) (by omega)
    exact key A j (satGray_is r g b hr hg hb j A hj2 h1 h2 h3 h4) (by omega)
      (mean_div A (2 ^ j) (r + g + b) hJ2 h1 h2)

/-! ## contrast with factor 2, temperature with 1, gamma with exponent 1 -/

theorem is_two : (Fl.fin 2 1).Is ((2 : Int) : ℚ) := ⟨2, 1, Nat.one_pos, rfl, by simp⟩

theorem contrastVal_two (c : Nat) (hc : c < 256) :
    (contrastVal c (.fin 2 1)).Is ((2 * (c : Int) - 128 : Int) : ℚ) := by
  unfold contrastVal
  have h1 := i2f_is ((c : Int) - 128) (by omega) (by omega)
  have h2 := mul32_int _ _ _ 2 h1 is_two (by omega) (by omega)
  have h3 := add32_int _ _ _ _ h2 (i2f_is 128 (by decide) (by decide)) (by omega) (by omega)
  have e : ((c : Int) - 128) * 2 + 128 = 2 * (c : Int) - 128 := by ring
  rwa [e] at h3

theorem contrastCh_two (ub : Fl → Int) (c : Nat) (hc : c < 256) :
    contrastCh ub (.fin 2 1) c = (min 255 (max 0 (2 * (c : Int) - 128))).toNat := by
  unfold contrastCh
  rw [toInt_is ub _ _ (contrastVal_two c hc) (by omega) (by omega), clamp_eq_toNat]
  rfl

theorem tempShift_one : (tempShift (.fin 1 1)).Is ((20 : Int) : ℚ) := by
  have h := mul32_int _ _ 20 1 (i2f_is 20 (by decide) (by decide)) is_one (by decide)
    (by decide)
  simpa [tempShift] using h

theorem temperatureP_one (ub : Fl → Int) (r g b : Nat) (hr : r < 256) (hb : b < 256) :
    temperatureP ub (.fin 1 1) r g b
      = (min 255 (r + 20), g, (max 0 ((b : Int) - 20)).toNat) := by
  unfold temperatureP
  have h1 := add32_int _ _ r 20 (i2f_is r (by omega) (by omega)) tempShift_one
    (by omega) (by omega)
  have h2 := sub32_int _ _ b 20 (i2f_is b (by omega) (by omega)) tempShift_one
    (by omega) (by omega)
  rw [toInt_is ub _ _ h1 (by omega) (by omega), toInt_is ub _ _ h2 (by omega) (by omega),
    clamp_eq_toNat, clamp_eq_toNat]
  unfold clampInt
  refine Prod.ext ?_ (Prod.ext rfl ?_) <;> simp only [] <;> omega

set_option maxRecDepth 100000 in
set_option maxHeartbeats 4000000 in
theorem gamma_roundtrip : ∀ c < 256,
    Fl.toInt? (Fl.mul binary64 (Fl.div binary64 (i2d ((c : Nat) : Int)) (.fin 255 1)) (i2d 255))
      = some (c : Int) := by
  decide

theorem gammaCh_one (pow : Fl → Fl → Fl) (ub : Fl → Int)
    (hpow : ∀ x : Fl, pow x (.fin 1 1) = x) (c : Nat) (hc : c < 256) :
    gammaCh pow ub (.fin 1 1) c = c := by
  have e : Fl.toInt ub (gammaVal pow c (.fin 1 1)) = (c : Int) := by
    unfold gammaVal Fl.toInt
    rw [hpow, gamma_roundtrip c hc]
  unfold gammaCh
  rw [e, clamp_byte _ (by omega) (by omega)]
  simp

/-! ## sepia with amount 1 -/

theorem roundTo_nice (f : Fmt) (N : Int) (D : Nat) (hD : 0 < D) (v : ℚ)
    (hv : (N : ℚ) / D = v) (lo hi : Int)
    (h : v = 0 ∨ ((2 : ℚ) ^ lo ≤ v ∧ v ≤ (2 : ℚ) ^ hi))
    (hmin : f.emin ≤ lo) (hmax : hi < f.emax) (hp : 1 ≤ f.prec) :
    ∃ u : ℚ, (roundTo f N D).Is u ∧ (u = 0 ∨ ((2 : ℚ) ^ lo ≤ u ∧ u ≤ (2 : ℚ) ^ hi)) := by
  rcases h with h0 | ⟨h1, h2⟩
  · have hDq : (D : ℚ) ≠ 0 := by exact_mod_cast hD.ne'
    have hN : N = 0 := by
      rw [h0] at hv
      have : (N : ℚ) = 0 := by
        rcases div_eq_zero_iff.mp hv with h | h
        · exact h
        · exact absurd h hDq
      exact_mod_cast this
    rw [hN, roundTo_zero]
    exact ⟨0, ⟨0, 1, Nat.one_pos, rfl, by simp⟩, Or.inl rfl⟩
  · obtain ⟨u, hu, a, b⟩ := roundTo_bounded f N D hD v hv lo hi h1 h2 hmin hmax hp
    exact ⟨u, hu, Or.inr ⟨a, b⟩⟩

theorem dlit_nice (k : Nat) (h1 : 125 ≤ k) (h2 : k ≤ 1000) :
    ∃ u : ℚ, (dlit k).Is u ∧ (2 : ℚ) ^ (-3 : Int) ≤ u ∧ u ≤ (2 : ℚ) ^ (0 : Int) := by
  have q1 : (125 : ℚ) ≤ k := by exact_mod_cast h1
  have q2 : (k : ℚ) ≤ 1000 := by exact_mod_cast h2
  refine roundTo_bounded binary64 k 1000 (by decide) ((k : ℚ) / 1000) (by simp) (-3) 0 ?_ ?_
    (by decide) (by decide) (by decide)
  · rw [le_div_iff₀ (by norm_num)]
    norm_num
    linarith
  · rw [div_le_iff₀ (by norm_num)]
    norm_num
    linarith

theorem i2d_is (r : Nat) (hr : r < 256) : (i2d (r : Int)).Is (r : ℚ) := by
  have hK : r < 2 ^ binary64.prec := lt_of_lt_of_le hr (by decide)
  refine roundTo_exact binary64 r 1 Nat.one_pos (r : ℚ) (by simp) r 0 hK ?_ (by decide)
    (by decide)
  simp

theorem sepia_term (k r : Nat) (h1 : 125 ≤ k) (h2 : k ≤ 1000) (hr : r < 256) :
    ∃ p : ℚ, (Fl.mul binary64 (dlit k) (i2d (r : Int))).Is p ∧
      (p = 0 ∨ ((2 : ℚ) ^ (-3 : Int) ≤ p ∧ p ≤ (2 : ℚ) ^ (8 : Int))) := by
  obtain ⟨u, hu, a, b⟩ := dlit_nice k h1 h2
  obtain ⟨N, D, hD, he, hv⟩ := mul_is binary64 _ _ u r hu (i2d_is r hr)
  rw [he]
  refine roundTo_nice binary64 N D hD _ hv (-3) 8 ?_ (by decide) (by decide) (by decide)
  have a0 : (0 : ℚ) < (2 : ℚ) ^ (-3 : Int) := by positivity
  norm_num at a b ⊢
  rcases Nat.eq_zero_or_pos r with h0 | hpos
  · left; right; exact_mod_cast h0
  · right
    have r1 : (1 : ℚ) ≤ r := by exact_mod_cast hpos
    have r2 : (r : ℚ) ≤ 255 := by
      have : r ≤ 255 := by omega
      exact_mod_cast this
    constructor <;> nlinarith

theorem add64_nice (x y : Fl) (hi : Int) (h0 : -3 ≤ hi) (h1 : hi + 1 < 1023)
    (hx : ∃ p : ℚ, x.Is p ∧ (p = 0 ∨ ((2 : ℚ) ^ (-3 : Int) ≤ p ∧ p ≤ (2 : ℚ) ^ hi)))
    (hy : ∃ p : ℚ, y.Is p ∧ (p = 0 ∨ ((2 : ℚ) ^ (-3 : Int) ≤ p ∧ p ≤ (2 : ℚ) ^ hi))) :
    ∃ p : ℚ, (Fl.add binary64 x y).Is p ∧
      (p = 0 ∨ ((2 : ℚ) ^ (-3 : Int) ≤ p ∧ p ≤ (2 : ℚ) ^ (hi + 1))) := by
  obtain ⟨p, hp, cp⟩ := hx
  obtain ⟨q, hq, cq⟩ := hy
  obtain ⟨N, D, hD, he, hv⟩ := add_is binary64 x y p q hp hq
  rw [he]
  refine roundTo_nice binary64 N D hD _ hv (-3) (hi + 1) ?_ (by decide)
    (by simpa [binary64] using h1) (by decide)
  have a0 : (0 : ℚ) < (2 : ℚ) ^ (-3 : Int) := by positivity
  have a1 : (2 : ℚ) ^ (-3 : Int) ≤ (2 : ℚ) ^ hi := zpow_le_zpow_right₀ (by norm_num) h0
  have e : (2 : ℚ) ^ (hi + 1) = 2 * (2 : ℚ) ^ hi := by
    rw [zpow_add_one₀ (by norm_num)]; ring
  rw [e]
  rcases cp with rfl | ⟨p1, p2⟩ <;> rcases cq with rfl | ⟨q1, q2⟩
  · left; ring
  · right; constructor <;> linarith
  · right; constructor <;> linarith
  · right; constructor <;> linarith

theorem nice_mono (x : Fl) (hi hi2 : Int) (h : hi ≤ hi2)
    (hx : ∃ p : ℚ, x.Is p ∧ (p = 0 ∨ ((2 : ℚ) ^ (-3 : Int) ≤ p ∧ p ≤ (2 : ℚ) ^ hi))) :
    ∃ p : ℚ, x.Is p ∧ (p = 0 ∨ ((2 : ℚ) ^ (-3 : Int) ≤ p ∧ p ≤ (2 : ℚ) ^ hi2)) := by
  obtain ⟨p, hp, cp⟩ := hx
  refine ⟨p, hp, ?_⟩
  rcases cp with h0 | ⟨p1, p2⟩
  · exact Or.inl h0
  · exact Or.inr ⟨p1, le_trans p2 (zpow_le_zpow_right₀ (by norm_num) h)⟩

theorem sepiaMix_range (kr kg kb r g b : Nat) (hkr : 125 ≤ kr ∧ kr ≤ 1000)
    (hkg : 125 ≤ kg ∧ kg ≤ 1000) (hkb : 125 ≤ kb ∧ kb ≤ 1000)
    (hr : r < 256) (hg : g < 256) (hb : b < 256) :
    ∃ k : Nat, k ≤ 1024 ∧ ∀ ub : Fl → Int, sepiaMix ub kr kg kb r g b = (k : Int) := by
  have t1 := sepia_term kr r hkr.1 hkr.2 hr
  have t2 := sepia_term kg g hkg.1 hkg.2 hg
  have t3 := sepia_term kb b hkb.1 hkb.2 hb
  have s1 := add64_nice _ _ 8 (by decide) (by decide) t1 t2
  have s2 := add64_nice _ _ 9 (by decide) (by decide) s1 (nice_mono _ 8 9 (by decide) t3)
  obtain ⟨p, hp, cp⟩ := s2
  have hp0 : 0 ≤ p := by
    rcases cp with h | ⟨h, _⟩
    · rw [h]
    · exact le_trans (by positivity) h
  have hp1 : p ≤ 1024 := by
    rcases cp with h | ⟨_, h⟩
    · rw [h]; norm_num
    · norm_num at h; exact h
  refine ⟨⌊p⌋₊, ?_, fun ub => ?_⟩
  · exact Nat.floor_le_of_le (by exact_mod_cast hp1)
  · unfold sepiaMix
    exact toInt_floor ub _ p hp hp0 (by linarith)

theorem sepiaP_one (ub : Fl → Int) (r g b : Nat) (hr : r < 256) (hg : g < 256)
    (hb : b < 256) :
    sepiaP ub (.fin 1 1) r g b
      = (clamp (sepiaMix ub 393 769 189 r g b), clamp (sepiaMix ub 349 686 168 r g b),
         clamp (sepiaMix ub 272 534 131 r g b)) := by
  have key : ∀ (x : Nat) (kr kg kb : Nat), x < 256 → (125 ≤ kr ∧ kr ≤ 1000) →
      (125 ≤ kg ∧ kg ≤ 1000) → (125 ≤ kb ∧ kb ≤ 1000) →
      Fl.toInt ub (blendVal x (sepiaMix ub kr kg kb r g b) (.fin 1 1))
        = sepiaMix ub kr kg kb r g b := by
    intro x kr kg kb hx h1 h2 h3
    obtain ⟨k, hk, e⟩ := sepiaMix_range kr kg kb r g b h1 h2 h3 hr hg hb
    rw [e ub]
    exact toInt_is ub _ _ (blendVal_one x k (by omega) (by omega) (by omega) (by omega))
      (by omega) (by omega)
  unfold sepiaP
  rw [key r 393 769 189 hr (by decide) (by decide) (by decide),
    key g 349 686 168 hg (by decide) (by decide) (by decide),
    key b 272 534 131 hb (by decide) (by decide) (by decide)]

theorem sepiaMix_eq (ub : Fl → Int) (kr kg kb : Nat) (r g b k : Int)
    (h : Fl.toInt? (Fl.add binary64
      (Fl.add binary64 (Fl.mul binary64 (dlit kr) (i2d r)) (Fl.mul binary64 (dlit kg) (i2d g)))
      (Fl.mul binary64 (dlit kb) (i2d b))) = some k) :
    sepiaMix ub kr kg kb r g b = k := by
  unfold sepiaMix Fl.toInt
  rw [h]

set_option maxRecDepth 100000 in
theorem sepiaMix_white (ub : Fl → Int) :
    sepiaMix ub 393 769 189 255 255 255 = 344 ∧ sepiaMix ub 349 686 168 255 255 255 = 306 ∧
    sepiaMix ub 272 534 131 255 255 255 = 238 :=
  ⟨sepiaMix_eq ub _ _ _ _ _ _ _ (by decide), sepiaMix_eq ub _ _ _ _ _ _ _ (by decide),
    sepiaMix_eq ub _ _ _ _ _ _ _ (by decide)⟩

set_option maxRecDepth 100000 in
theorem sepiaMix_sample (ub : Fl → Int) :
    sepiaMix ub 393 769 189 100 50 20 = 81 ∧ sepiaMix ub 349 686 168 100 50 20 = 72 ∧
    sepiaMix ub 272 534 131 100 50 20 = 56 :=
  ⟨sepiaMix_eq ub _ _ _ _ _ _ _ (by decide), sepiaMix_eq ub _ _ _ _ _ _ _ (by decide),
    sepiaMix_eq ub _ _ _ _ _ _ _ (by decide)⟩

set_option maxRecDepth 100000 in
theorem sepiaMix_rounding (ub : Fl → Int) : sepiaMix ub 393 769 189 4 11 21 = 13 :=
  sepiaMix_eq ub _ _ _ _ _ _ _ (by decide)

/-! ## The claims -/

/-- C1: for each of the eleven transforms, every buffer holding at least `n`
bytes with `n` a multiple of 4, and every parameter value, the call succeeds,
keeps the length, and leaves every byte at an index `i` with `i % 4 = 3` (the
alpha channel) as it was. -/
theorem alpha_unchanged (pow : Fl → Fl → Fl) (ub : Fl → Int) (d : List Nat) (n : Nat)
    (amount c g s t a th : Fl) (v tr tg tb : Int) (h4 : n % 4 = 0) (hn : n ≤ d.length) :
    AlphaKept d (invert ub d n amount) ∧ AlphaKept d (grayscale ub d n amount) ∧
    AlphaKept d (brightness d n v) ∧ AlphaKept d (contrast ub d n c) ∧
    AlphaKept d (gamma pow ub d n g) ∧ AlphaKept d (sepia ub d n amount) ∧
    AlphaKept d (saturation ub d n s) ∧ AlphaKept d (tint d n tr tg tb) ∧
    AlphaKept d (temperature ub d n t) ∧ AlphaKept d (fade ub d n a) ∧
    AlphaKept d (solarize d n th) :=
  ⟨alphaKept_of_run _ d n _ hn (invert_run ub d n amount h4 hn),
   alphaKept_of_run _ d n _ hn (grayscale_run ub d n amount h4 hn),
   alphaKept_of_run _ d n _ hn (brightness_run d n v h4 hn),
   alphaKept_of_run _ d n _ hn (contrast_run ub d n c h4 hn),
   alphaKept_of_run _ d n _ hn (gamma_run pow ub d n g h4 hn),
   alphaKept_of_run _ d n _ hn (sepia_run ub d n amount h4 hn),
   alphaKept_of_run _ d n _ hn (saturation_run ub d n s h4 hn),
   alphaKept_of_run _ d n _ hn (tint_run d n tr tg tb h4 hn),
   alphaKept_of_run _ d n _ hn (temperature_run ub d n t h4 hn),
   alphaKept_of_run _ d n _ hn (fade_run ub d n a h4 hn),
   alphaKept_of_run _ d n _ hn (solarize_run d n th h4 hn)⟩

/-- Witness of C1 on the two-pixel buffer `[10,20,30,255,1,2,3,4]`. -/
theorem alpha_unchanged_witness :
    (8 % 4 = 0 ∧ 8 ≤ [10, 20, 30, 255, 1, 2, 3, 4].length) ∧
    AlphaKept [10, 20, 30, 255, 1, 2, 3, 4]
      (invert (fun _ => 0) [10, 20, 30, 255, 1, 2, 3, 4] (8 : Nat) (.fin 1 2)) :=
  ⟨by decide,
   (alpha_unchanged (fun x _ => x) (fun _ => 0) [10, 20, 30, 255, 1, 2, 3, 4] 8
      (.fin 1 2) (.fin 2 1) .nan (.inf true) (.fin 1 1) (.fin 1 2) (.fin 1 2)
      50 1 2 3 (by decide) (by decide)).1⟩

/-- C2: for every transform, every byte buffer holding at least `n` bytes with
`n` a multiple of 4, and every parameter value (NaN, infinities and extreme
integers included), the integer handed to each 8-bit store of a colour channel
lies in `[0, 255]` and the byte found afterwards is exactly that integer: no
write wraps modulo 256. -/
theorem stores_in_range (pow : Fl → Fl → Fl) (ub : Fl → Int) (d : List Nat) (n : Nat)
    (amount c g s t a th : Fl) (v tr tg tb : Int)
    (hb : IsBytes d) (h4 : n % 4 = 0) (hn : n ≤ d.length) :
    StoresExact (chanI fun x => clampInt (Fl.toInt ub (invertVal x amount))) d n
      (invert ub d n amount) ∧
    StoresExact (grayscaleI ub amount) d n (grayscale ub d n amount) ∧
    StoresExact (chanI fun x => clampInt (wrap32 ((x : Int) + v))) d n (brightness d n v) ∧
    StoresExact (chanI fun x => clampInt (Fl.toInt ub (contrastVal x c))) d n
      (contrast ub d n c) ∧
    StoresExact (chanI fun x => clampInt (Fl.toInt ub (gammaVal pow x g))) d n
      (gamma pow ub d n g) ∧
    StoresExact (sepiaI ub amount) d n (sepia ub d n amount) ∧
    StoresExact (saturationI ub s) d n (saturation ub d n s) ∧
    StoresExact (tintI tr tg tb) d n (tint d n tr tg tb) ∧
    StoresExact (temperatureI ub t) d n (temperature ub d n t) ∧
    StoresExact (chanI fun x => clampInt (Fl.toInt ub (fadeVal x a))) d n (fade ub d n a) ∧
    StoresExact (chanI (solarizeInt th)) d n (solarize d n th) := by
  refine ⟨?_, ?_, ?_, ?_, ?_, ?_, ?_, ?_, ?_, ?_, ?_⟩
  · exact storesExact_of_run _ _ d n _ hn hb (invert_run ub d n amount h4 hn)
      (hV_chan _ _ (hV_clamp _))
  · refine storesExact_of_run _ _ d n _ hn hb (grayscale_run ub d n amount h4 hn) ?_
    intro r g b _ _ _
    simp only [grayscaleP, grayscaleI, clamp_eq_toNat, clampInt_inByte, and_self]
  · exact storesExact_of_run _ _ d n _ hn hb (brightness_run d n v h4 hn)
      (hV_chan _ _ (hV_clamp _))
  · exact storesExact_of_run _ _ d n _ hn hb (contrast_run ub d n c h4 hn)
      (hV_chan _ _ (hV_clamp _))
  · exact storesExact_of_run _ _ d n _ hn hb (gamma_run pow ub d n g h4 hn)
      (hV_chan _ _ (hV_clamp _))
  · refine storesExact_of_run _ _ d n _ hn hb (sepia_run ub d n amount h4 hn) ?_
    intro r g b _ _ _
    simp only [sepiaP, sepiaI, clamp_eq_toNat, clampInt_inByte, and_self]
  · refine storesExact_of_run _ _ d n _ hn hb (saturation_run ub d n s h4 hn) ?_
    intro r g b _ _ _
    simp only [saturationP, saturationI, clamp_eq_toNat, clampInt_inByte, and_self]
  · refine storesExact_of_run _ _ d n _ hn hb (tint_run d n tr tg tb h4 hn) ?_
    intro r g b _ _ _
    simp only [tintP, tintI, clamp_eq_toNat, clampInt_inByte, and_self]
  · refine storesExact_of_run _ _ d n _ hn hb (temperature_run ub d n t h4 hn) ?_
    intro r g b _ hg _
    simp only [temperatureP, temperatureI, clamp_eq_toNat, clampInt_inByte, true_and,
      Int.toNat_ofNat, and_true]
    unfold InByte
    omega
  · exact storesExact_of_run _ _ d n _ hn hb (fade_run ub d n a h4 hn)
      (hV_chan _ _ (hV_clamp _))
  · exact storesExact_of_run _ _ d n _ hn hb (solarize_run d n th h4 hn)
      (hV_chan _ _ (hV_solarize th))

/-- Witness of C2: `brightness` by the largest `int` on one pixel. -/
theorem stores_in_range_witness :
    (IsBytes [200, 10, 0, 255] ∧ 4 % 4 = 0 ∧ 4 ≤ [200, 10, 0, 255].length) ∧
    StoresExact (chanI fun x => clampInt (wrap32 ((x : Int) + 2147483647)))
      [200, 10, 0, 255] 4 (brightness [200, 10, 0, 255] (4 : Nat) 2147483647) :=
  ⟨by decide,
   (stores_in_range (fun x _ => x) (fun _ => 0) [200, 10, 0, 255] 4
      (.fin 1 2) (.fin 2 1) .nan (.inf true) (.fin 1 1) (.fin 1 2) (.fin 1 2)
      2147483647 1 2 3 (by decide) (by decide) (by decide)).2.2.1⟩

/-- C3 (evaluation at the failing input): with the delta `2147483647` the sum
`d[i] + v` leaves the range of `int`; the channels 200 and 10 end at 0, while
the saturated exact sum asked for by the claim is 255.  With the delta 50 the
pixel `(200,10,0,255)` becomes `(250,60,50,255)`. -/
theorem brightness_overflow :
    brightness [200, 10, 0, 255] 4 2147483647 = some [0, 0, 255, 255] ∧
    clampInt (200 + 2147483647) = 255 ∧ clampInt (10 + 2147483647) = 255 ∧
    brightness [200, 10, 0, 255] 4 50 = some [250, 60, 50, 255] := by
  decide

/-- Without overflow `brightness` is the saturated exact sum: for a delta `v`
with `-2147483648 ≤ v ≤ 2147483392` every colour channel `c` becomes
`min 255 (max 0 (c + v))`. -/
theorem brightnessCh_exact (v : Int) (c : Nat) (hc : c < 256)
    (hlo : -2147483648 ≤ v) (hhi : v ≤ 2147483392) :
    ((brightnessCh v c : Nat) : Int) = min 255 (max 0 ((c : Int) + v)) := by
  unfold brightnessCh clamp toU8 clampInt wrap32
  omega

/-- C4: `clamp` bounds every integer to `[0, 255]`: it gives `0` below `0`,
`255` above `255`, and the argument itself in between. -/
theorem clamp_spec (v : Int) :
    ((clamp v : Nat) : Int) = (if v < 0 then 0 else if 255 < v then 255 else v) ∧
    clamp v ≤ 255 := by
  unfold clamp toU8 clampInt
  constructor
  · split
    · omega
    · split <;> omega
  · omega

/-- C5: when `n` is a multiple of 4 and the buffer holds at least `n` bytes,
each transform runs without leaving the first `n` bytes and keeps the length of
the buffer; the transforms that step by four do leave the buffer when `n` is
not a multiple of 4 (here a buffer of five bytes with `n = 5`). -/
theorem accesses_in_bounds (pow : Fl → Fl → Fl) (ub : Fl → Int) (d : List Nat) (n : Nat)
    (amount c g s t a th : Fl) (v tr tg tb : Int) (h4 : n % 4 = 0) (hn : n ≤ d.length) :
    (RunsInBounds (fun buf => invert ub buf n amount) d n ∧
     RunsInBounds (fun buf => grayscale ub buf n amount) d n ∧
     RunsInBounds (fun buf => brightness buf n v) d n ∧
     RunsInBounds (fun buf => contrast ub buf n c) d n ∧
     RunsInBounds (fun buf => gamma pow ub buf n g) d n ∧
     RunsInBounds (fun buf => sepia ub buf n amount) d n ∧
     RunsInBounds (fun buf => saturation ub buf n s) d n ∧
     RunsInBounds (fun buf => tint buf n tr tg tb) d n ∧
     RunsInBounds (fun buf => temperature ub buf n t) d n ∧
     RunsInBounds (fun buf => fade ub buf n a) d n ∧
     RunsInBounds (fun buf => solarize buf n th) d n) ∧
    (∀ x0 x1 x2 x3 x4 : Nat,
      grayscale ub [x0, x1, x2, x3, x4] 5 amount = none ∧
      sepia ub [x0, x1, x2, x3, x4] 5 amount = none ∧
      saturation ub [x0, x1, x2, x3, x4] 5 s = none ∧
      tint [x0, x1, x2, x3, x4] 5 tr tg tb = none ∧
      temperature ub [x0, x1, x2, x3, x4] 5 t = none) := by
  refine ⟨⟨?_, ?_, ?_, ?_, ?_, ?_, ?_, ?_, ?_, ?_, ?_⟩, ?_⟩
  · exact runsInBounds_of_run _ _ n (fun d' h => invert_run ub d' n amount h4 h) d hn
  · exact runsInBounds_of_run _ _ n (fun d' h => grayscale_run ub d' n amount h4 h) d hn
  · exact runsInBounds_of_run _ _ n (fun d' h => brightness_run d' n v h4 h) d hn
  · exact runsInBounds_of_run _ _ n (fun d' h => contrast_run ub d' n c h4 h) d hn
  · exact runsInBounds_of_run _ _ n (fun d' h => gamma_run pow ub d' n g h4 h) d hn
  · exact runsInBounds_of_run _ _ n (fun d' h => sepia_run ub d' n amount h4 h) d hn
  · exact runsInBounds_of_run _ _ n (fun d' h => saturation_run ub d' n s h4 h) d hn
  · exact runsInBounds_of_run _ _ n (fun d' h => tint_run d' n tr tg tb h4 h) d hn
  · exact runsInBounds_of_run _ _ n (fun d' h => temperature_run ub d' n t h4 h) d hn
  · exact runsInBounds_of_run _ _ n (fun d' h => fade_run ub d' n a h4 h) d hn
  · exact runsInBounds_of_run _ _ n (fun d' h => solarize_run d' n th h4 h) d hn
  · intro x0 x1 x2 x3 x4
    simp [grayscale, sepia, saturation, tint, temperature, forLoop, grayscaleBody, sepiaBody,
      saturationBody, tintBody, temperatureBody, rd, wr]

/-- Witness of C5 on a buffer of nine bytes with `n = 8`. -/
theorem accesses_in_bounds_witness :
    (8 % 4 = 0 ∧ 8 ≤ [10, 20, 30, 255, 1, 2, 3, 4, 77].length) ∧
    RunsInBounds (fun buf => invert (fun _ => 0) buf (8 : Nat) (.fin 1 2))
      [10, 20, 30, 255, 1, 2, 3, 4, 77] 8 :=
  ⟨by decide,
   (accesses_in_bounds (fun x _ => x) (fun _ => 0) [10, 20, 30, 255, 1, 2, 3, 4, 77] 8
      (.fin 1 2) (.fin 2 1) .nan (.inf true) (.fin 1 1) (.fin 1 2) (.fin 1 2)
      50 1 2 3 (by decide) (by decide)).1.1⟩

/-- C6: `invert` with amount 1 replaces every colour channel `c` below `n`
by `255 - c` and keeps every other byte, for every byte buffer holding at
least `n` bytes with `n` a multiple of 4; the pixel `(10,20,30,255)` becomes
`(245,235,225,255)`. -/
theorem invert_full (ub : Fl → Int) (d : List Nat) (n : Nat)
    (hb : IsBytes d) (h4 : n % 4 = 0) (hn : n ≤ d.length) :
    ChanWise (fun c => 255 - c) d n (invert ub d n (.fin 1 1)) ∧
    invert ub [10, 20, 30, 255] 4 (.fin 1 1) = some [245, 235, 225, 255] := by
  constructor
  · exact chanWise_of_run _ _ d n _ h4 hn hb (fun c hc => invertCh_one ub c hc)
      (invert_run ub d n _ h4 hn)
  · have := invert_run ub [10, 20, 30, 255] 4 (.fin 1 1) (by decide) (by decide)
    simpa [mapRGB, chanP, invertCh_one] using this

/-- Witness of C6 on a buffer of two pixels. -/
theorem invert_full_witness :
    (IsBytes [10, 20, 30, 255, 0, 255, 7, 9] ∧ 8 % 4 = 0 ∧
      8 ≤ [10, 20, 30, 255, 0, 255, 7, 9].length) ∧
    ChanWise (fun c => 255 - c) [10, 20, 30, 255, 0, 255, 7, 9] 8
      (invert (fun _ => 0) [10, 20, 30, 255, 0, 255, 7, 9] (8 : Nat) (.fin 1 1)) :=
  ⟨by decide,
   (invert_full (fun _ => 0) [10, 20, 30, 255, 0, 255, 7, 9] 8
      (by decide) (by decide) (by decide)).1⟩

/-- C7: at amount 0 the blend-by-amount transforms `invert`, `grayscale`,
`sepia` and `fade` return the buffer unchanged, for every byte buffer holding
at least `n` bytes with `n` a multiple of 4. -/
theorem blend_zero_identity (ub : Fl → Int) (d : List Nat) (n : Nat)
    (hb : IsBytes d) (h4 : n % 4 = 0) (hn : n ≤ d.length) :
    invert ub d n (.fin 0 1) = some d ∧ grayscale ub d n (.fin 0 1) = some d ∧
    sepia ub d n (.fin 0 1) = some d ∧ fade ub d n (.fin 0 1) = some d := by
  refine ⟨?_, ?_, ?_, ?_⟩
  · refine run_id _ d n _ hb ?_ (invert_run ub d n _ h4 hn)
    intro r g b hr hg hbb
    simp [chanP, invertCh_zero ub _ hr, invertCh_zero ub _ hg, invertCh_zero ub _ hbb]
  · exact run_id _ d n _ hb (grayscaleP_zero ub) (grayscale_run ub d n _ h4 hn)
  · exact run_id _ d n _ hb (sepiaP_zero ub) (sepia_run ub d n _ h4 hn)
  · refine run_id _ d n _ hb ?_ (fade_run ub d n _ h4 hn)
    intro r g b hr hg hbb
    simp [chanP, fadeCh_zero ub _ hr, fadeCh_zero ub _ hg, fadeCh_zero ub _ hbb]

/-- Witness of C7 on a buffer of two pixels. -/
theorem blend_zero_identity_witness :
    (IsBytes [10, 20, 30, 255, 0, 255, 7, 9] ∧ 8 % 4 = 0 ∧
      8 ≤ [10, 20, 30, 255, 0, 255, 7, 9].length) ∧
    sepia (fun _ => 0) [10, 20, 30, 255, 0, 255, 7, 9] (8 : Nat) (.fin 0 1)
      = some [10, 20, 30, 255, 0, 255, 7, 9] :=
  ⟨by decide,
   (blend_zero_identity (fun _ => 0) [10, 20, 30, 255, 0, 255, 7, 9] 8
      (by decide) (by decide) (by decide)).2.2.1⟩

/-- C8: `grayscale` with amount 1 sets the three colour channels of every pixel
below `n` to `(r + g + b) / 3`, the truncating integer mean of the bytes the
pixel had before the call; `(90,90,93,255)` becomes `(91,91,91,255)`, and
`(90,90,92,255)`, whose mean is `90.67`, becomes `(90,90,90,255)`. -/
theorem grayscale_full (ub : Fl → Int) (d : List Nat) (n : Nat)
    (hb : IsBytes d) (h4 : n % 4 = 0) (hn : n ≤ d.length) :
    PixWise (fun r g b => ((r + g + b) / 3, (r + g + b) / 3, (r + g + b) / 3)) d n
      (grayscale ub d n (.fin 1 1)) ∧
    grayscale ub [90, 90, 93, 255] 4 (.fin 1 1) = some [91, 91, 91, 255] ∧
    grayscale ub [90, 90, 92, 255] 4 (.fin 1 1) = some [90, 90, 90, 255] := by
  refine ⟨?_, ?_, ?_⟩
  · exact pixWise_of_run _ _ d n _ hn hb (grayscaleP_one ub) (grayscale_run ub d n _ h4 hn)
  · have := grayscale_run ub [90, 90, 93, 255] 4 (.fin 1 1) (by decide) (by decide)
    simpa [mapRGB, grayscaleP_one] using this
  · have := grayscale_run ub [90, 90, 92, 255] 4 (.fin 1 1) (by decide) (by decide)
    simpa [mapRGB, grayscaleP_one] using this

/-- Witness of C8 on a buffer of two pixels. -/
theorem grayscale_full_witness :
    (IsBytes [90, 90, 93, 255, 1, 1, 0, 9] ∧ 8 % 4 = 0 ∧
      8 ≤ [90, 90, 93, 255, 1, 1, 0, 9].length) ∧
    PixWise (fun r g b => ((r + g + b) / 3, (r + g + b) / 3, (r + g + b) / 3))
      [90, 90, 93, 255, 1, 1, 0, 9] 8
      (grayscale (fun _ => 0) [90, 90, 93, 255, 1, 1, 0, 9] (8 : Nat) (.fin 1 1)) :=
  ⟨by decide,
   (grayscale_full (fun _ => 0) [90, 90, 93, 255, 1, 1, 0, 9] 8
      (by decide) (by decide) (by decide)).1⟩

/-- C9: each parameterised transform returns the buffer unchanged at its
identity parameter: `contrast` with factor 1, `saturation` with factor 1,
`tint` with deltas `(0,0,0)`, `temperature` with 0 and `solarize` with
threshold 1, for every byte buffer holding at least `n` bytes with `n` a
multiple of 4. -/
theorem identity_parameters (ub : Fl → Int) (d : List Nat) (n : Nat)
    (hb : IsBytes d) (h4 : n % 4 = 0) (hn : n ≤ d.length) :
    contrast ub d n (.fin 1 1) = some d ∧ saturation ub d n (.fin 1 1) = some d ∧
    tint d n 0 0 0 = some d ∧ temperature ub d n (.fin 0 1) = some d ∧
    solarize d n (.fin 1 1) = some d := by
  refine ⟨?_, ?_, ?_, ?_, ?_⟩
  · refine run_id _ d n _ hb ?_ (contrast_run ub d n _ h4 hn)
    intro r g b hr hg hbb
    simp [chanP, contrastCh_one ub _ hr, contrastCh_one ub _ hg, contrastCh_one ub _ hbb]
  · exact run_id _ d n _ hb (saturationP_one ub) (saturation_run ub d n _ h4 hn)
  · exact run_id _ d n _ hb tintP_zero (tint_run d n 0 0 0 h4 hn)
  · exact run_id _ d n _ hb (fun r g b hr _ hbb => temperatureP_zero ub r g b hr hbb)
      (temperature_run ub d n _ h4 hn)
  · refine run_id _ d n _ hb ?_ (solarize_run d n _ h4 hn)
    intro r g b hr hg hbb
    simp [chanP, solarizeCh_one _ hr, solarizeCh_one _ hg, solarizeCh_one _ hbb]

/-- Witness of C9 on a buffer of two pixels. -/
theorem identity_parameters_witness :
    (IsBytes [4, 0, 0, 255, 1, 255, 7, 9] ∧ 8 % 4 = 0 ∧
      8 ≤ [4, 0, 0, 255, 1, 255, 7, 9].length) ∧
    saturation (fun _ => 0) [4, 0, 0, 255, 1, 255, 7, 9] (8 : Nat) (.fin 1 1)
      = some [4, 0, 0, 255, 1, 255, 7, 9] :=
  ⟨by decide,
   (identity_parameters (fun _ => 0) [4, 0, 0, 255, 1, 255, 7, 9] 8
      (by decide) (by decide) (by decide)).2.1⟩

/-- C10: `solarize` replaces a colour channel `c` below `n` by `255 - c`
exactly when `c > t * 255` holds strictly, the product being the `float`
product of the source, and keeps every other byte; with `t = 0.5` the channels
`c ≥ 128` become `255 - c` and the channels `c ≤ 127` stay, so `200` becomes
`55` and `100` stays `100`. -/
theorem solarize_threshold (d : List Nat) (n : Nat) (t : Fl)
    (hb : IsBytes d) (h4 : n % 4 = 0) (hn : n ≤ d.length) :
    ChanWise (fun c => if Fl.lt (Fl.mul binary32 t (i2f 255)) (i2f c) = true
        then 255 - c else c) d n (solarize d n t) ∧
    ChanWise (fun c => if 128 ≤ c then 255 - c else c) d n (solarize d n (.fin 1 2)) ∧
    solarize [200, 100, 128, 255, 127, 0, 255, 9] 8 (.fin 1 2)
      = some [55, 100, 127, 255, 127, 0, 0, 9] := by
  refine ⟨?_, ?_, ?_⟩
  · exact chanWise_of_run _ _ d n _ h4 hn hb (fun c hc => solarizeCh_eq t c hc)
      (solarize_run d n t h4 hn)
  · exact chanWise_of_run _ _ d n _ h4 hn hb (fun c hc => solarizeCh_half c hc)
      (solarize_run d n _ h4 hn)
  · decide

/-- Witness of C10 on a buffer of two pixels with threshold `0.25`. -/
theorem solarize_threshold_witness :
    (IsBytes [200, 100, 128, 255, 63, 64, 255, 9] ∧ 8 % 4 = 0 ∧
      8 ≤ [200, 100, 128, 255, 63, 64, 255, 9].length) ∧
    ChanWise (fun c => if Fl.lt (Fl.mul binary32 (.fin 1 4) (i2f 255)) (i2f c) = true
        then 255 - c else c) [200, 100, 128, 255, 63, 64, 255, 9] 8
      (solarize [200, 100, 128, 255, 63, 64, 255, 9] (8 : Nat) (.fin 1 4)) :=
  ⟨by decide,
   (solarize_threshold [200, 100, 128, 255, 63, 64, 255, 9] 8 (.fin 1 4)
      (by decide) (by decide) (by decide)).1⟩

/-- C11: `saturation` with factor 0 sets the three colour channels of every
pixel below `n` to `(r + g + b) / 3`, the mean of the bytes the pixel had
before the call, truncated to an integer; `(90,90,92,255)`, whose mean is
`90.67`, becomes `(90,90,90,255)`. -/
theorem saturation_zero (ub : Fl → Int) (d : List Nat) (n : Nat)
    (hb : IsBytes d) (h4 : n % 4 = 0) (hn : n ≤ d.length) :
    PixWise (fun r g b => ((r + g + b) / 3, (r + g + b) / 3, (r + g + b) / 3)) d n
      (saturation ub d n (.fin 0 1)) ∧
    saturation ub [90, 90, 92, 255] 4 (.fin 0 1) = some [90, 90, 90, 255] := by
  refine ⟨?_, ?_⟩
  · exact pixWise_of_run _ _ d n _ hn hb (saturationP_zero ub) (saturation_run ub d n _ h4 hn)
  · have := saturation_run ub [90, 90, 92, 255] 4 (.fin 0 1) (by decide) (by decide)
    simpa [mapRGB, saturationP_zero] using this

/-- Witness of C11 on a buffer of two pixels. -/
theorem saturation_zero_witness :
    (IsBytes [90, 90, 92, 255, 1, 1, 0, 9] ∧ 8 % 4 = 0 ∧
      8 ≤ [90, 90, 92, 255, 1, 1, 0, 9].length) ∧
    PixWise (fun r g b => ((r + g + b) / 3, (r + g + b) / 3, (r + g + b) / 3))
      [90, 90, 92, 255, 1, 1, 0, 9] 8
      (saturation (fun _ => 0) [90, 90, 92, 255, 1, 1, 0, 9] (8 : Nat) (.fin 0 1)) :=
  ⟨by decide,
   (saturation_zero (fun _ => 0) [90, 90, 92, 255, 1, 1, 0, 9] 8
      (by decide) (by decide) (by decide)).1⟩

/-- C12: `contrast` with factor `c` replaces every colour byte `ch` below `n`
by `clamp` of the `float` value `(ch - 128) * c + 128` converted to `int`;
with factor 2 the byte stored is `min(255, max(0, 2*ch - 128))`, and the pixel
`(128,64,200,255)` becomes `(128,0,255,255)`. -/
theorem contrast_formula (ub : Fl → Int) (d : List Nat) (n : Nat) (c : Fl)
    (hb : IsBytes d) (h4 : n % 4 = 0) (hn : n ≤ d.length) :
    ChanWise (fun ch => clamp (Fl.toInt ub
        (Fl.add binary32 (Fl.mul binary32 (i2f ((ch : Int) - 128)) c) (i2f 128)))) d n
      (contrast ub d n c) ∧
    ChanWise (fun ch => (min 255 (max 0 (2 * (ch : Int) - 128))).toNat) d n
      (contrast ub d n (.fin 2 1)) ∧
    contrast ub [128, 64, 200, 255] 4 (.fin 2 1) = some [128, 0, 255, 255] := by
  refine ⟨?_, ?_, ?_⟩
  · exact chanWise_of_run _ _ d n _ h4 hn hb (fun _ _ => rfl) (contrast_run ub d n c h4 hn)
  · exact chanWise_of_run _ _ d n _ h4 hn hb (contrastCh_two ub) (contrast_run ub d n _ h4 hn)
  · have := contrast_run ub [128, 64, 200, 255] 4 (.fin 2 1) (by decide) (by decide)
    simpa [mapRGB, chanP, contrastCh_two] using this

/-- Witness of C12 on a buffer of two pixels, with factor 2. -/
theorem contrast_formula_witness :
    (IsBytes [128, 64, 200, 255, 0, 100, 255, 9] ∧ 8 % 4 = 0 ∧
      8 ≤ [128, 64, 200, 255, 0, 100, 255, 9].length) ∧
    ChanWise (fun ch => (min 255 (max 0 (2 * (ch : Int) - 128))).toNat)
      [128, 64, 200, 255, 0, 100, 255, 9] 8
      (contrast (fun _ => 0) [128, 64, 200, 255, 0, 100, 255, 9] (8 : Nat) (.fin 2 1)) :=
  ⟨by decide,
   (contrast_formula (fun _ => 0) [128, 64, 200, 255, 0, 100, 255, 9] 8 (.fin 3 2)
      (by decide) (by decide) (by decide)).2.1⟩

/-- C13: `temperature` keeps the alpha byte of every pixel, and for every `t`
leaves the G byte of every pixel below `n` in place while R becomes `clamp` of
the `float` value `R + 20*t` and B becomes `clamp` of `B - 20*t`; with `t = 1`
the pixel `(R,G,B,A)` becomes `(min(255,R+20), G, max(0,B-20), A)`. -/
theorem temperature_formula (ub : Fl → Int) (d : List Nat) (n : Nat) (t : Fl)
    (hb : IsBytes d) (h4 : n % 4 = 0) (hn : n ≤ d.length) :
    AlphaKept d (temperature ub d n t) ∧
    PixWise (fun r g b =>
        (clamp (Fl.toInt ub (Fl.add binary32 (i2f r) (Fl.mul binary32 (i2f 20) t))), g,
         clamp (Fl.toInt ub (Fl.sub binary32 (i2f b) (Fl.mul binary32 (i2f 20) t))))) d n
      (temperature ub d n t) ∧
    PixWise (fun r g b => (min 255 (r + 20), g, (max 0 ((b : Int) - 20)).toNat)) d n
      (temperature ub d n (.fin 1 1)) ∧
    temperature ub [250, 7, 10, 9] 4 (.fin 1 1) = some [255, 7, 0, 9] := by
  refine ⟨?_, ?_, ?_, ?_⟩
  · exact alphaKept_of_run _ d n _ hn (temperature_run ub d n t h4 hn)
  · exact pixWise_of_run _ _ d n _ hn hb (fun _ _ _ _ _ _ => rfl)
      (temperature_run ub d n t h4 hn)
  · exact pixWise_of_run _ _ d n _ hn hb
      (fun r g b hr _ hbb => temperatureP_one ub r g b hr hbb)
      (temperature_run ub d n _ h4 hn)
  · have := temperature_run ub [250, 7, 10, 9] 4 (.fin 1 1) (by decide) (by decide)
    simpa [mapRGB, temperatureP_one] using this

/-- Witness of C13 on a buffer of two pixels, with `t = 1`. -/
theorem temperature_formula_witness :
    (IsBytes [250, 7, 10, 9, 0, 100, 255, 0] ∧ 8 % 4 = 0 ∧
      8 ≤ [250, 7, 10, 9, 0, 100, 255, 0].length) ∧
    PixWise (fun r g b => (min 255 (r + 20), g, (max 0 ((b : Int) - 20)).toNat))
      [250, 7, 10, 9, 0, 100, 255, 0] 8
      (temperature (fun _ => 0) [250, 7, 10, 9, 0, 100, 255, 0] (8 : Nat) (.fin 1 1)) :=
  ⟨by decide,
   (temperature_formula (fun _ => 0) [250, 7, 10, 9, 0, 100, 255, 0] 8 (.fin 1 2)
      (by decide) (by decide) (by decide)).2.2.1⟩

/-- C14: `sepia` with amount 1 replaces the colour bytes `(r,g,b)` of every
pixel below `n` by `(clamp sr, clamp sg, clamp sb)`, where `sr`, `sg`, `sb` are
the `double` sums `0.393r+0.769g+0.189b`, `0.349r+0.686g+0.168b` and
`0.272r+0.534g+0.131b` of the bytes the pixel had before the call, truncated
to `int` (a value between 0 and 1024, whatever the platform); white
`(255,255,255,A)` becomes `(255,255,238,A)`, and `(100,50,20,255)` becomes
`(81,72,56,255)`, the green target coming from the red byte 100, not from
the 81 stored before it. -/
theorem sepia_full (ub : Fl → Int) (d : List Nat) (n : Nat)
    (hb : IsBytes d) (h4 : n % 4 = 0) (hn : n ≤ d.length) :
    PixWise (fun r g b =>
        (clamp (Fl.toInt ub (Fl.add binary64 (Fl.add binary64
            (Fl.mul binary64 (dlit 393) (i2d r)) (Fl.mul binary64 (dlit 769) (i2d g)))
            (Fl.mul binary64 (dlit 189) (i2d b)))),
         clamp (Fl.toInt ub (Fl.add binary64 (Fl.add binary64
            (Fl.mul binary64 (dlit 349) (i2d r)) (Fl.mul binary64 (dlit 686) (i2d g)))
            (Fl.mul binary64 (dlit 168) (i2d b)))),
         clamp (Fl.toInt ub (Fl.add binary64 (Fl.add binary64
            (Fl.mul binary64 (dlit 272) (i2d r)) (Fl.mul binary64 (dlit 534) (i2d g)))
            (Fl.mul binary64 (dlit 131) (i2d b)))))) d n
      (sepia ub d n (.fin 1 1)) ∧
    (∀ r g b : Nat, r < 256 → g < 256 → b < 256 →
      ∃ sr sg sb : Nat, sr ≤ 1024 ∧ sg ≤ 1024 ∧ sb ≤ 1024 ∧
        ∀ ub2 : Fl → Int, sepiaMix ub2 393 769 189 r g b = sr ∧
          sepiaMix ub2 349 686 168 r g b = sg ∧ sepiaMix ub2 272 534 131 r g b = sb) ∧
    (∀ A : Nat, sepia ub [255, 255, 255, A] 4 (.fin 1 1) = some [255, 255, 238, A]) ∧
    sepia ub [100, 50, 20, 255] 4 (.fin 1 1) = some [81, 72, 56, 255] := by
  refine ⟨?_, ?_, ?_, ?_⟩
  · exact pixWise_of_run _ _ d n _ hn hb (sepiaP_one ub) (sepia_run ub d n _ h4 hn)
  · intro r g b hr hg hbb
    obtain ⟨sr, h1, e1⟩ := sepiaMix_range 393 769 189 r g b (by decide) (by decide) (by decide)
      hr hg hbb
    obtain ⟨sg, h2, e2⟩ := sepiaMix_range 349 686 168 r g b (by decide) (by decide) (by decide)
      hr hg hbb
    obtain ⟨sb, h3, e3⟩ := sepiaMix_range 272 534 131 r g b (by decide) (by decide) (by decide)
      hr hg hbb
    exact ⟨sr, sg, sb, h1, h2, h3, fun ub2 => ⟨e1 ub2, e2 ub2, e3 ub2⟩⟩
  · intro A
    have := sepia_run ub [255, 255, 255, A] 4 (.fin 1 1) (by decide) (by simp)
    obtain ⟨w1, w2, w3⟩ := sepiaMix_white ub
    simp only [Nat.cast_ofNat] at this
    rw [this]
    have c1 : clamp 344 = 255 := by decide
    have c2 : clamp 306 = 255 := by decide
    have c3 : clamp 238 = 238 := by decide
    simp only [List.take, mapRGB, List.drop, List.append_nil, List.cons_append,
      List.nil_append, Nat.cast_ofNat,
      sepiaP_one ub 255 255 255 (by decide) (by decide) (by decide), w1, w2, w3, c1, c2, c3]
  · have := sepia_run ub [100, 50, 20, 255] 4 (.fin 1 1) (by decide) (by decide)
    obtain ⟨w1, w2, w3⟩ := sepiaMix_sample ub
    simp only [Nat.cast_ofNat] at this
    rw [this]
    have c1 : clamp 81 = 81 := by decide
    have c2 : clamp 72 = 72 := by decide
    have c3 : clamp 56 = 56 := by decide
    simp only [List.take, mapRGB, List.drop, List.append_nil, List.cons_append,
      List.nil_append, Nat.cast_ofNat,
      sepiaP_one ub 100 50 20 (by decide) (by decide) (by decide), w1, w2, w3, c1, c2, c3]

/-- Witness of C14 on a buffer of two pixels. -/
theorem sepia_full_witness :
    (IsBytes [100, 50, 20, 255, 255, 255, 255, 0] ∧ 8 % 4 = 0 ∧
      8 ≤ [100, 50, 20, 255, 255, 255, 255, 0].length) ∧
    sepia (fun _ => 0) [100, 50, 20, 255] 4 (.fin 1 1) = some [81, 72, 56, 255] :=
  ⟨by decide,
   (sepia_full (fun _ => 0) [100, 50, 20, 255, 255, 255, 255, 0] 8
      (by decide) (by decide) (by decide)).2.2.2⟩

/-- C15: `gamma` with exponent 1 is the identity: when the library `pow`
returns its first argument for the exponent 1, the call returns every byte
buffer holding at least `n` bytes, `n` a multiple of 4, unchanged, and
`clamp` of `pow(c / 255.0, 1) * 255` converted to `int` is `c` for every byte
`c`. -/
theorem gamma_one (pow : Fl → Fl → Fl) (ub : Fl → Int) (d : List Nat) (n : Nat)
    (hpow : ∀ x : Fl, pow x (.fin 1 1) = x)
    (hb : IsBytes d) (h4 : n % 4 = 0) (hn : n ≤ d.length) :
    gamma pow ub d n (.fin 1 1) = some d ∧
    ∀ c : Nat, c < 256 →
      clamp (Fl.toInt ub (Fl.mul binary64
        (pow (Fl.div binary64 (i2d c) (.fin 255 1)) (.fin 1 1)) (i2d 255))) = c := by
  refine ⟨?_, fun c hc => gammaCh_one pow ub hpow c hc⟩
  refine run_id _ d n _ hb ?_ (gamma_run pow ub d n _ h4 hn)
  intro r g b hr hg hbb
  simp [chanP, gammaCh_one pow ub hpow _ hr, gammaCh_one pow ub hpow _ hg,
    gammaCh_one pow ub hpow _ hbb]

/-- Witness of C15 on a buffer of two pixels. -/
theorem gamma_one_witness :
    ((∀ x : Fl, (fun (x _ : Fl) => x) x (.fin 1 1) = x) ∧
      IsBytes [250, 7, 10, 9, 0, 100, 255, 0] ∧ 8 % 4 = 0 ∧
      8 ≤ [250, 7, 10, 9, 0, 100, 255, 0].length) ∧
    gamma (fun x _ => x) (fun _ => 0) [250, 7, 10, 9, 0, 100, 255, 0] (8 : Nat) (.fin 1 1)
      = some [250, 7, 10, 9, 0, 100, 255, 0] :=
  ⟨⟨fun _ => rfl, by decide, by decide, by decide⟩,
   (gamma_one (fun x _ => x) (fun _ => 0) [250, 7, 10, 9, 0, 100, 255, 0] 8
      (fun _ => rfl) (by decide) (by decide) (by decide)).1⟩

/-- C16: the transforms are lossy: on the pixel `(250,10,0,255)`, `brightness`
by 50 followed by `brightness` by -50 does not give the buffer back; the
channel 250 ends at 205. -/
theorem brightness_no_round_trip :
    ∃ d d1 d2 : List Nat, IsBytes d ∧ d.length % 4 = 0 ∧
      brightness d d.length 50 = some d1 ∧ brightness d1 d1.length (-50) = some d2 ∧
      d2 ≠ d ∧ d[0]? = some 250 ∧ d2[0]? = some 205 :=
  ⟨[250, 10, 0, 255], [255, 60, 50, 255], [205, 10, 0, 255], by decide, by decide,
    by decide, by decide, by decide, by decide, by decide⟩

/-- C17: every transform, called on a whole buffer with fixed parameters, acts
pixel by pixel: for buffers `a` and `b` whose lengths are multiples of 4 the
result on `a ++ b` is the result on `a` followed by the result on `b`. -/
theorem pixelwise_concat (pow : Fl → Fl → Fl) (ub : Fl → Int) (a b : List Nat)
    (amount c g s t fa th : Fl) (v tr tg tb : Int)
    (ha : a.length % 4 = 0) (hb : b.length % 4 = 0) :
    PixelLocal (fun buf => invert ub buf buf.length amount) a b ∧
    PixelLocal (fun buf => grayscale ub buf buf.length amount) a b ∧
    PixelLocal (fun buf => brightness buf buf.length v) a b ∧
    PixelLocal (fun buf => contrast ub buf buf.length c) a b ∧
    PixelLocal (fun buf => gamma pow ub buf buf.length g) a b ∧
    PixelLocal (fun buf => sepia ub buf buf.length amount) a b ∧
    PixelLocal (fun buf => saturation ub buf buf.length s) a b ∧
    PixelLocal (fun buf => tint buf buf.length tr tg tb) a b ∧
    PixelLocal (fun buf => temperature ub buf buf.length t) a b ∧
    PixelLocal (fun buf => fade ub buf buf.length fa) a b ∧
    PixelLocal (fun buf => solarize buf buf.length th) a b := by
  refine ⟨?_, ?_, ?_, ?_, ?_, ?_, ?_, ?_, ?_, ?_, ?_⟩
  · exact pixelLocal_of_run _ _ (fun d h => invert_run ub d _ amount h (le_refl _)) a b ha hb
  · exact pixelLocal_of_run _ _ (fun d h => grayscale_run ub d _ amount h (le_refl _)) a b ha hb
  · exact pixelLocal_of_run _ _ (fun d h => brightness_run d _ v h (le_refl _)) a b ha hb
  · exact pixelLocal_of_run _ _ (fun d h => contrast_run ub d _ c h (le_refl _)) a b ha hb
  · exact pixelLocal_of_run _ _ (fun d h => gamma_run pow ub d _ g h (le_refl _)) a b ha hb
  · exact pixelLocal_of_run _ _ (fun d h => sepia_run ub d _ amount h (le_refl _)) a b ha hb
  · exact pixelLocal_of_run _ _ (fun d h => saturation_run ub d _ s h (le_refl _)) a b ha hb
  · exact pixelLocal_of_run _ _ (fun d h => tint_run d _ tr tg tb h (le_refl _)) a b ha hb
  · exact pixelLocal_of_run _ _ (fun d h => temperature_run ub d _ t h (le_refl _)) a b ha hb
  · exact pixelLocal_of_run _ _ (fun d h => fade_run ub d _ fa h (le_refl _)) a b ha hb
  · exact pixelLocal_of_run _ _ (fun d h => solarize_run d _ th h (le_refl _)) a b ha hb

/-- Witness of C17 on two one-pixel buffers. -/
theorem pixelwise_concat_witness :
    ([10, 20, 30, 255].length % 4 = 0 ∧ [1, 2, 3, 4].length % 4 = 0) ∧
    PixelLocal (fun buf => sepia (fun _ => 0) buf buf.length (.fin 1 2))
      [10, 20, 30, 255] [1, 2, 3, 4] :=
  ⟨by decide,
   (pixelwise_concat (fun x _ => x) (fun _ => 0) [10, 20, 30, 255] [1, 2, 3, 4]
      (.fin 1 2) (.fin 2 1) .nan (.inf true) (.fin 1 1) (.fin 1 2) (.fin 1 2)
      50 1 2 3 (by decide) (by decide)).2.2.2.2.2.1⟩

/-- C18: `saturation` with factor 0 and `grayscale` with amount 1 are the same
function: on a byte buffer holding at least `n` bytes with `n` a multiple of
4, both calls succeed with the same buffer; and for all bytes `r`, `g`, `b`
the `float` mean of `saturation`, truncated, is the integer mean of
`grayscale`. -/
theorem saturation_zero_eq_grayscale_one (ub : Fl → Int) (d : List Nat) (n : Nat)
    (hb : IsBytes d) (h4 : n % 4 = 0) (hn : n ≤ d.length) :
    (∃ out, saturation ub d n (.fin 0 1) = some out ∧
      grayscale ub d n (.fin 1 1) = some out) ∧
    ∀ r g b : Nat, r < 256 → g < 256 → b < 256 →
      Fl.toInt ub (satGray r g b) = (grayOf r g b : Int) := by
  refine ⟨⟨_, saturation_run ub d n _ h4 hn, ?_⟩, ?_⟩
  · have e : mapRGB (saturationP ub (.fin 0 1)) (d.take n)
        = mapRGB (grayscaleP ub (.fin 1 1)) (d.take n) := by
      refine mapRGB_congr _ _ ?_ _ (isBytes_take d n hb)
      intro r g b hr hg hbb
      rw [grayscaleP_one ub r g b hr hg hbb, saturationP_zero ub r g b hr hg hbb]
    rw [grayscale_run ub d n _ h4 hn, e]
  · intro r g b hr hg hbb
    rw [satGray_trunc ub r g b hr hg hbb, grayOf_eq r g b hr hg hbb]

/-- Witness of C18 on a buffer of two pixels. -/
theorem saturation_zero_eq_grayscale_one_witness :
    (IsBytes [90, 90, 92, 255, 1, 1, 0, 9] ∧ 8 % 4 = 0 ∧
      8 ≤ [90, 90, 92, 255, 1, 1, 0, 9].length) ∧
    ∃ out, saturation (fun _ => 0) [90, 90, 92, 255, 1, 1, 0, 9] (8 : Nat) (.fin 0 1)
        = some out ∧
      grayscale (fun _ => 0) [90, 90, 92, 255, 1, 1, 0, 9] (8 : Nat) (.fin 1 1) = some out :=
  ⟨by decide,
   (saturation_zero_eq_grayscale_one (fun _ => 0) [90, 90, 92, 255, 1, 1, 0, 9] 8
      (by decide) (by decide) (by decide)).1⟩

/-- C19: `invert` with amount 1 is an involution: on a byte buffer holding at
least `n` bytes with `n` a multiple of 4, the second call gives back the
buffer the first call received. -/
theorem invert_involution (ub : Fl → Int) (d : List Nat) (n : Nat)
    (hb : IsBytes d) (h4 : n % 4 = 0) (hn : n ≤ d.length) :
    ∃ d1, invert ub d n (.fin 1 1) = some d1 ∧ invert ub d1 n (.fin 1 1) = some d := by
  refine ⟨_, invert_run ub d n _ h4 hn, ?_⟩
  obtain ⟨e1, e2, e3⟩ := run_take_drop (chanP (invertCh ub (.fin 1 1))) d n hn
  rw [invert_run ub _ n _ h4 e3, e1, e2, mapRGB_comp]
  refine run_id _ d n _ hb ?_ rfl
  intro r g b hr hg hbb
  simp only [chanP, invertCh_one ub r hr, invertCh_one ub g hg, invertCh_one ub b hbb]
  rw [invertCh_one ub _ (by omega), invertCh_one ub _ (by omega), invertCh_one ub _ (by omega)]
  refine Prod.ext ?_ (Prod.ext ?_ ?_) <;> simp only [] <;> omega

/-- Witness of C19 on a buffer of two pixels. -/
theorem invert_involution_witness :
    (IsBytes [10, 20, 30, 255, 0, 255, 7, 9] ∧ 8 % 4 = 0 ∧
      8 ≤ [10, 20, 30, 255, 0, 255, 7, 9].length) ∧
    ∃ d1, invert (fun _ => 0) [10, 20, 30, 255, 0, 255, 7, 9] (8 : Nat) (.fin 1 1) = some d1 ∧
      invert (fun _ => 0) d1 (8 : Nat) (.fin 1 1) = some [10, 20, 30, 255, 0, 255, 7, 9] :=
  ⟨by decide,
   invert_involution (fun _ => 0) [10, 20, 30, 255, 0, 255, 7, 9] 8
      (by decide) (by decide) (by decide)⟩

/-- C20: `brightness` is the uniform case of `tint`: for every buffer holding
at least `n` bytes with `n` a multiple of 4 and every integer `v`, the calls
`brightness(d,n,v)` and `tint(d,n,v,v,v)` succeed with the same buffer. -/
theorem brightness_eq_tint (d : List Nat) (n : Nat) (v : Int)
    (h4 : n % 4 = 0) (hn : n ≤ d.length) :
    ∃ out, brightness d n v = some out ∧ tint d n v v v = some out :=
  ⟨_, brightness_run d n v h4 hn, tint_run d n v v v h4 hn⟩

/-- Witness of C20 with the largest `int` as delta. -/
theorem brightness_eq_tint_witness :
    (8 % 4 = 0 ∧ 8 ≤ [10, 20, 30, 255, 0, 255, 7, 9].length) ∧
    ∃ out, brightness [10, 20, 30, 255, 0, 255, 7, 9] (8 : Nat) 2147483647 = some out ∧
      tint [10, 20, 30, 255, 0, 255, 7, 9] (8 : Nat) 2147483647 2147483647 2147483647
        = some out :=
  ⟨by decide, brightness_eq_tint [10, 20, 30, 255, 0, 255, 7, 9] 8 2147483647
    (by decide) (by decide)⟩

end ImageEditor
